import Mathlib

/-!
ByteStreamEncoders: bit-addressable byte buffer and two-tier codeword compressor

Shallow embedding of `ByteStream` (src/src/ByteStream.cpp) and `SimpleCompression`
(src/src/SimpleCompression.cpp).

Modelling conventions.

* A `char` is held as its 8-bit pattern, a `Nat` below 256.  Plain `char` is signed
  (the sources are written for MSVC / x86), so wherever the source promotes a `char`
  to `int` without masking, the model goes through `charToInt` (sign extension);
  conversions back to `char` keep the low eight bits (`toChar`).
* `assert` is a fallible step: a failed assertion makes the operation return `none`.
* `GenerateKey` takes the few operations it uses on doubles (`0.0`, `+`, `<`, the
  quotient of two converted integers) as a parameter `Arith`.  `doubleArith` is the
  arithmetic of the sources, IEEE 754 binary64 with round-to-nearest-even;
  `exactArith` is the idealisation with exact fractions.  General theorems hold for
  every `Arith`.
* `std::ceil(std::log2(n))` on a positive integer is the exact integer `Nat.clog 2 n`
  and `std::pow(2, n)` is `2 ^ n`.
* Console output is dropped.  Buffer sizes are taken below `2 ^ 32`, so the
  `unsigned int` size and frequency counters do not wrap.
-/

/-- Conversion of an `int` to `char`: the low eight bits. -/
def toChar (x : Int) : Nat := (x % 256).toNat

/-- Integral promotion of a signed `char` given by its bit pattern. -/
def charToInt (c : Nat) : Int := if c < 128 then (c : Int) else (c : Int) - 256

/-- Conversion of an `int` to `unsigned short`. -/
def toUShort (x : Int) : Nat := (x % 65536).toNat

/-- Conversion of an `int` to `unsigned int`. -/
def toUInt (x : Int) : Nat := (x % 4294967296).toNat

/-- Pattern of `c >> k` for a `char` `c`: promotion to `int`, arithmetic shift, and
conversion back to `char`. -/
def sarChar (c k : Nat) : Nat := toChar (Int.shiftRight (charToInt c) k)

/-- The members of `class ByteStream`.  `byteProbability` keeps each cached quotient
`static_cast<double>(frequency) / static_cast<double>(size)` as the pair of integers it
was computed from. -/
structure ByteStream where
  data : List Nat
  nextBit : Nat
  byteFrequency : List Nat
  byteProbability : List (Nat × Nat)
  bytesChanged : Bool
deriving DecidableEq, Repr

namespace ByteStream

/-- The default constructor `ByteStream::ByteStream()`. -/
def new : ByteStream :=
  { data := [], nextBit := 0, byteFrequency := List.replicate 256 0,
    byteProbability := List.replicate 256 (0, 1), bytesChanged := true }

/-- Copy-assignment `operator=`: data and cursor are copied, the target becomes dirty. -/
def assign (self src : ByteStream) : ByteStream :=
  { self with data := src.data, nextBit := src.nextBit, bytesChanged := true }

/-- The statement `++_byteFrequency[index]`. -/
def bump (freq : List Nat) (index : Nat) : List Nat :=
  freq.set index (freq.getD index 0 + 1)

/-- The private method `ByteStream::BytesChanged`. -/
def BytesChanged (s : ByteStream) : ByteStream :=
  let freq := s.data.foldl (fun f c => bump f (c &&& 0xFF)) (List.replicate 256 0)
  { s with
    byteFrequency := freq
    byteProbability := freq.map (fun n => (n, s.data.length))
    bytesChanged := false }

/-- The method `ByteStream::bytes_changed(forceImmediateUpdate)`. -/
def bytes_changed (s : ByteStream) (forceImmediateUpdate : Bool) : ByteStream :=
  let s1 := { s with bytesChanged := true }
  if forceImmediateUpdate then BytesChanged s1 else s1

/-- The method `ByteStream::byte_frequency(int byte)`; `none` is a failed assertion. -/
def byte_frequency (s : ByteStream) (byte : Int) : Option Nat :=
  if 0 ≤ byte ∧ byte < 256 then
    if s.bytesChanged then none else some (s.byteFrequency.getD byte.toNat 0)
  else none

/-- The method `ByteStream::byte_probability(int byte)`; the result is the pair of
integers whose quotient the cached double is. -/
def byte_probability (s : ByteStream) (byte : Int) : Option (Nat × Nat) :=
  if 0 ≤ byte ∧ byte < 256 then
    if s.bytesChanged then none else some (s.byteProbability.getD byte.toNat (0, 1))
  else none

/-- The method `ByteStream::size`. -/
def size (s : ByteStream) : Nat := s.data.length

/-- The method `ByteStream::clear`. -/
def clear (s : ByteStream) : ByteStream :=
  { s with data := [], nextBit := 0, bytesChanged := true }

/-- The method `ByteStream::put(char datum, unsigned short bits)`.  The first argument
bounds the depth of the recursive call; `put` below starts it at 2, which is never
exhausted because the nested call runs with `_nextBit == 0`. -/
def putAux : Nat → ByteStream → Nat → Nat → Option ByteStream
  | 0, _, _, _ => none
  | depth + 1, s, datum, bits =>
    if ¬ (bits ≤ 8 ∧ bits > 0) then none
    else
      let new_bits0 := datum &&& (0xFF >>> (8 - bits))
      let shift : Int := 8 - ((bits : Int) + (s.nextBit : Int))
      let new_bits :=
        if shift < 0 then sarChar new_bits0 (-shift).toNat &&& (0xFF >>> (-shift).toNat)
        else (new_bits0 <<< shift.toNat) &&& 0xFF
      if s.nextBit > 0 ∧ s.data.length > 0 then
        let data1 := s.data.set (s.data.length - 1)
          (s.data.getD (s.data.length - 1) 0 ||| new_bits)
        let nextBit1 := (s.nextBit + bits) % 65536
        if nextBit1 > 8 then
          let bit_overflow := nextBit1 - 8
          let remaining_bits := datum &&& (0xFF >>> (8 - bit_overflow))
          putAux depth { s with data := data1, nextBit := 0 } remaining_bits bit_overflow
        else if nextBit1 = 8 then
          some { s with data := data1, nextBit := 0 }
        else
          some { s with data := data1, nextBit := nextBit1 }
      else
        let data1 := s.data ++ [new_bits]
        if bits < 8 then some { s with data := data1, nextBit := bits }
        else some { s with data := data1 }

/-- The method `ByteStream::put`. -/
def put (s : ByteStream) (datum : Nat) (bits : Nat) : Option ByteStream :=
  putAux 2 s datum bits

/-- The method `ByteStream::read(bitstream_index firstBit, unsigned short bits)`;
`none` is a failed assertion (a negative `firstBit` fails the size assertion, the index
being compared as an unsigned value). -/
def read (s : ByteStream) (firstBit : Int) (bits : Nat) : Option Nat :=
  if bits < 1 then some 0
  else if ¬ bits ≤ 8 then none
  else if firstBit < 0 then none
  else
    let byte_index := firstBit.toNat / 8
    let bit_index := firstBit.toNat % 8
    if ¬ s.data.length > byte_index then none
    else
      let result0 := (s.data.getD byte_index 0 <<< bit_index) % 256
      let shift : Int := 8 - ((bits : Int) + (bit_index : Int))
      let result1 : Option Nat :=
        if shift ≥ 0 then some (result0 &&& ((0xFF <<< shift.toNat) &&& 0xFF))
        else if ¬ s.data.length > byte_index + 1 then none
        else
          let bitsFromNextByte :=
            (s.data.getD (byte_index + 1) 0 &&& (0xFF <<< (8 + shift).toNat)) % 256
          some (result0 |||
            (sarChar bitsFromNextByte (8 - bit_index) &&& (0xFF >>> (8 - bit_index))))
      result1.map (fun r => sarChar r (8 - bits) &&& (0xFF >>> (8 - bits)))

end ByteStream


/-- The operations on `double` used by `GenerateKey`: the constant `0.0`, addition,
comparison `<`, and `static_cast<double>(a) / static_cast<double>(b)`. -/
structure Arith where
  F : Type
  zero : F
  add : F → F → F
  lt : F → F → Bool
  quot : Nat → Nat → F

/-- Exact arithmetic on non-negative fractions, kept as numerator and denominator: the
idealisation of the doubles of the sources (`doubleArith` below is their arithmetic). -/
def exactArith : Arith where
  F := Nat × Nat
  zero := (0, 1)
  add := fun a b => (a.1 * b.2 + b.1 * a.2, a.2 * b.2)
  lt := fun a b => decide (a.1 * b.2 < b.1 * a.2)
  quot := fun a b => (a, b)

/-- Search for the least `k` with `n ≤ 2 ^ k`. -/
def ceilLog2Aux (n : Nat) : Nat → Nat → Nat
  | 0, k => k
  | fuel + 1, k => if n ≤ 2 ^ k then k else ceilLog2Aux n fuel (k + 1)

/-- The value of `static_cast<int>(std::ceil(std::log2(n)))` for a positive integer `n`. -/
def ceilLog2 (n : Nat) : Nat := ceilLog2Aux n n 0

namespace SimpleCompression

/-- The type `encoding_map = std::map<char, std::pair<int, unsigned short>>` as a finite
function on `char` patterns; codewords are never negative and are kept as `Nat`. -/
abbrev encoding_map := Nat → Option (Nat × Nat)

/-- The type `decoding_map = std::map<codeword_pair, unsigned int>`. -/
abbrev decoding_map := Nat × Nat → Option Nat

/-- The assignment `map[key] = value`. -/
def mapSet {κ ν : Type} [DecidableEq κ] (m : κ → Option ν) (key : κ) (value : ν) :
    κ → Option ν :=
  fun k => if k = key then some value else m k

/-- The `char` keys in the iteration order of `std::map<char, _>`: `-128 .. -1`, then
`0 .. 127`. -/
def signedOrder : List Nat := (List.range 128).map (· + 128) ++ List.range 128

/-- Number of entries of an encoding map. -/
def mapSize (m : encoding_map) : Nat := (signedOrder.filter (fun k => (m k).isSome)).length

/-- What `ReadMapFromKeyStream` hands back through its reference parameters. -/
structure KeyData where
  map : encoding_map
  bits_short : Int
  bits_long : Int

/-- The first loop of `ReadMapFromKeyStream` (short codewords), `count` iterations. -/
def readShortWords (keyStream : ByteStream) (bits_short : Int) :
    Nat → encoding_map → Int → Option (encoding_map × Int)
  | 0, map, bit_ptr => some (map, bit_ptr)
  | count + 1, map, bit_ptr => do
    let key ← keyStream.read bit_ptr 8
    let bit_ptr := bit_ptr + 8
    let r ← keyStream.read bit_ptr (toUShort bits_short)
    let codeword := r &&& 0xFF
    let bit_ptr := bit_ptr + bits_short
    readShortWords keyStream bits_short count
      (mapSet map key (codeword, toUShort bits_short)) bit_ptr

/-- The second loop of `ReadMapFromKeyStream` (long codewords), `count` iterations. -/
def readLongWords (keyStream : ByteStream) (bits_long : Int) :
    Nat → encoding_map → Int → Option (encoding_map × Int)
  | 0, map, bit_ptr => some (map, bit_ptr)
  | count + 1, map, bit_ptr => do
    let key ← keyStream.read bit_ptr 8
    let bit_ptr := bit_ptr + 8
    let codeword ←
      if bits_long > 8 then do
        let r1 ← keyStream.read bit_ptr 8
        let codeword_part1 := r1 &&& 0xFF
        let r2 ← keyStream.read (bit_ptr + 8) (toUShort (bits_long - 8))
        let codeword_part2 := r2 &&& 0xFF
        pure (((codeword_part1 <<< (bits_long - 8).toNat) % 4294967296) ||| codeword_part2)
      else do
        let r ← keyStream.read bit_ptr (toUShort bits_long)
        pure (r &&& 0xFF)
    let bit_ptr := bit_ptr + bits_long
    readLongWords keyStream bits_long count
      (mapSet map key (codeword, toUShort bits_long)) bit_ptr

/-- The method `ReadMapFromKeyStream`.  The outer `none` is a failed assertion, the
inner `none` is `return false`. -/
def ReadMapFromKeyStream (keyStream : ByteStream) : Option (Option KeyData) :=
  if keyStream.size < 4 then some none
  else
    let map_size : Int := charToInt (keyStream.data.getD 0 0)
    let short_words_count : Int := charToInt (keyStream.data.getD 1 0)
    let bits_short : Int := charToInt (keyStream.data.getD 2 0)
    let bits_long : Int := charToInt (keyStream.data.getD 3 0)
    if keyStream.size < (4 + toUInt map_size) % 4294967296 then some none
    else do
      let (map1, bit_ptr1) ←
        readShortWords keyStream bits_short short_words_count.toNat (fun _ => none) (8 * 4)
      let (map2, _) ←
        readLongWords keyStream bits_long (map_size - short_words_count).toNat map1 bit_ptr1
      pure (some { map := map2, bits_short := bits_short, bits_long := bits_long })

/-- The method `GetDecodingMap`: the entries are visited in key order, a later entry
overwrites an earlier one with the same codeword pair. -/
def GetDecodingMap (encodingMap : encoding_map) : decoding_map :=
  signedOrder.foldl
    (fun d k =>
      match encodingMap k with
      | some p => mapSet d p (toUInt (charToInt k))
      | none => d)
    (fun _ => none)

/-- The body of the loop of `Encode` for one input byte.  `character_map[*i]` yields a
value-initialised pair for a byte without entry. -/
def encodeByte (character_map : encoding_map) (out : ByteStream) (c : Nat) :
    Option ByteStream :=
  let symbol := (character_map c).getD (0, 0)
  let bits := symbol.2
  if bits > 8 then do
    let c1 := (symbol.1 >>> 8) &&& 0xFF
    let c2 := symbol.1 &&& 0xFF
    let out1 ← out.put c1 (bits - 8)
    out1.put c2 8
  else
    out.put (symbol.1 &&& 0xFF) bits

/-- The loop of `Encode` over the input bytes. -/
def encodeLoop (character_map : encoding_map) : List Nat → ByteStream → Option ByteStream
  | [], out => some out
  | c :: rest, out => do
    let out1 ← encodeByte character_map out c
    encodeLoop character_map rest out1

/-- The method `Encode`: the returned flag and the output stream.  `none` is a failed
assertion. -/
def Encode (inStream outStream keyStream : ByteStream) : Option (Bool × ByteStream) :=
  let out := outStream.clear
  match ReadMapFromKeyStream keyStream with
  | none => none
  | some none => some (false, out)
  | some (some kd) => do
    let out1 ← encodeLoop kd.map inStream.data out
    pure (true, out1.bytes_changed true)

/-- The value of `static_cast<int>(std::pow(2, bits_short)) - 1`; `none` where the
conversion of the power to `int` is out of range. -/
def extendedKey (bits_short : Int) : Option Int :=
  if bits_short < 0 then some (0 - 1)
  else if bits_short < 31 then some (2 ^ bits_short.toNat - 1)
  else none

/-- Outcome of reading one codeword in the loop of `Decode`. -/
inductive Step where
  | stop : Step
  | emit (bit_ptr : Int) (codeword : Nat) (bitcount : Nat) : Step

/-- One pass through the body of the `while` loop of `Decode`, up to the lookup. -/
def decodeStep (inStream : ByteStream) (bits_short bits_long extended_bitset_key
    bitlength_difference : Int) (bit_ptr : Int) : Option Step := do
  let r ← inStream.read bit_ptr (toUShort bits_short)
  let codeword := r &&& 0xFF
  let bit_ptr1 := bit_ptr + bits_short
  let bitcount := toUInt bits_short
  if codeword = toUInt extended_bitset_key ∧ bits_long ≠ 0 then
    if bit_ptr1 + bitlength_difference ≥ (inStream.size : Int) * 8 then
      pure Step.stop
    else do
      let e ← inStream.read bit_ptr1 (toUShort bitlength_difference)
      let codeword_extension := e &&& 0xFF
      let bit_ptr2 := bit_ptr1 + bitlength_difference
      let codeword2 :=
        ((codeword <<< bitlength_difference.toNat) % 4294967296) ||| codeword_extension
      pure (Step.emit bit_ptr2 codeword2 (toUInt bits_long))
  else
    pure (Step.emit bit_ptr1 codeword bitcount)

/-- The `while` loop of `Decode`, run for at most `fuel` iterations (`none` when the
fuel is used up or an assertion fails).  `decoder[pair]` yields 0 for a pair without
entry. -/
def decodeLoop (inStream : ByteStream) (decoder : decoding_map)
    (bits_short bits_long extended_bitset_key bitlength_difference : Int) :
    Nat → Int → ByteStream → Option ByteStream
  | 0, _, _ => none
  | fuel + 1, bit_ptr, out =>
    if bit_ptr + bits_short < (inStream.size : Int) * 8 then do
      let step ← decodeStep inStream bits_short bits_long extended_bitset_key
        bitlength_difference bit_ptr
      match step with
      | Step.stop => pure out
      | Step.emit bit_ptr1 codeword bitcount =>
        let decoded_byte := ((decoder (codeword, bitcount % 65536)).getD 0) % 256
        let out1 ← out.put decoded_byte 8
        decodeLoop inStream decoder bits_short bits_long extended_bitset_key
          bitlength_difference fuel bit_ptr1 out1
    else pure out

/-- The method `Decode`, with a bound on the number of loop iterations. -/
def Decode (fuel : Nat) (inStream outStream keyStream : ByteStream) :
    Option (Bool × ByteStream) :=
  let out := outStream.clear
  match ReadMapFromKeyStream keyStream with
  | none => none
  | some none => some (false, out)
  | some (some kd) => do
    let decoder := GetDecodingMap kd.map
    let extended_bitset_key ← extendedKey kd.bits_short
    let bitlength_difference := kd.bits_long - kd.bits_short
    let out1 ← decodeLoop inStream decoder kd.bits_short kd.bits_long extended_bitset_key
      bitlength_difference fuel 0 out
    pure (true, out1.bytes_changed true)

/-- The inner loop of the insertion sort in `GenerateKey`: insert byte `i` before the
first element of smaller frequency, or at the end. -/
def insertByte (inStream : ByteStream) (i : Nat) : List Nat → Option (List Nat)
  | [] => some [toChar i]
  | j :: rest => do
    let fi ← inStream.byte_frequency i
    let fj ← inStream.byte_frequency (charToInt j)
    if fi > fj then some (toChar i :: j :: rest)
    else (insertByte inStream i rest).map (fun r => j :: r)

/-- The loop `for (int i = 0; i < 256; i++)` of `GenerateKey`, over the remaining
values of `i`. -/
def buildOrdering (inStream : ByteStream) : List Nat → List Nat → Option (List Nat)
  | [], ordering => some ordering
  | i :: is, ordering => do
    let f ← inStream.byte_frequency i
    if f > 0 then do
      let ordering1 ← insertByte inStream i ordering
      buildOrdering inStream is ordering1
    else buildOrdering inStream is ordering

/-- The loop that walks the ordering until the accumulated probability reaches the
target fraction.  The state is the iterator (the rest of the list), `actual_fraction`
and `unique_upto_target_fraction`. -/
def walkTarget (A : Arith) (inStream : ByteStream) (targetFraction : A.F) :
    List Nat → A.F → Nat → Option (List Nat × A.F × Nat)
  | [], actual_fraction, count => some ([], actual_fraction, count)
  | c :: rest, actual_fraction, count =>
    if A.lt actual_fraction targetFraction then do
      let p ← inStream.byte_probability (charToInt c)
      walkTarget A inStream targetFraction rest (A.add actual_fraction (A.quot p.1 p.2))
        (count + 1)
    else some (c :: rest, actual_fraction, count)

/-- The loop that adds up to `extra_characters` further bytes to the short tier. -/
def walkExtra (A : Arith) (inStream : ByteStream) :
    Nat → List Nat → A.F → Nat → Option (List Nat × A.F × Nat)
  | 0, it, actual_fraction, count => some (it, actual_fraction, count)
  | _ + 1, [], actual_fraction, count => some ([], actual_fraction, count)
  | extra + 1, c :: rest, actual_fraction, count => do
    let p ← inStream.byte_probability (charToInt c)
    walkExtra A inStream extra rest (A.add actual_fraction (A.quot p.1 p.2)) (count + 1)

/-- The numbers `GenerateKey` settles on before it writes the key. -/
structure Plan where
  ordering : List Nat
  unique_bytes : Int
  unique_upto_target_fraction : Int
  bits_per_target_character : Int
  bits_per_remaining_characters : Int
deriving DecidableEq, Repr

/-- The width `bits_per_target_character` computed from the number of bytes walked:
`ceil(log2(count + 1))`, raised by one when it is below 2 (lines 279-285). -/
def targetBits (count : Nat) : Int :=
  let bits0 : Int := ceilLog2 (count + 1)
  if bits0 < 2 then bits0 + 1 else bits0

/-- The value `pow(2, bits_per_target_character) - unique_upto_target_fraction - 1` of
`extra_characters` (lines 288 and 297). -/
def extraCharacters (bits_per_target_character : Int) (count : Nat) : Int :=
  2 ^ bits_per_target_character.toNat - (count : Int) - 1

/-- The step "if there is only a single character missing, don't extend bitset"
(lines 299-305): the new value of `unique_upto_target_fraction`.  Dereferencing the end
iterator has no value. -/
def foldSingle (inStream : ByteStream) (unique_bytes bits_per_target_character : Int)
    (it : List Nat) (count : Nat) : Option Nat :=
  if unique_bytes - ((count : Int) + extraCharacters bits_per_target_character count) = 1 then
    match it with
    | [] => none
    | c :: _ => do
      let _ ← inStream.byte_probability (charToInt c)
      pure (count + 1)
  else pure count

/-- The width `bits_per_remaining_characters` (lines 313-314). -/
def remainingBits (unique_bytes bits_per_target_character : Int) (count : Nat) : Int :=
  let unique_remaining_characters : Int := unique_bytes - (count : Int)
  if unique_remaining_characters > 0 then
    bits_per_target_character + (ceilLog2 unique_remaining_characters.toNat : Int)
  else 0

/-- The analysis part of `GenerateKey` (lines 232-314).  `none` is a failed assertion,
or an empty ordering (for which the logarithm has no integer value). -/
def planKey (A : Arith) (targetFraction : A.F) (inStream : ByteStream) : Option Plan := do
  let ordering ← buildOrdering inStream (List.range 256) []
  let unique_bytes : Int := ordering.length
  if unique_bytes = 0 then none
  else
    let (it1, fraction1, count1) ← walkTarget A inStream targetFraction ordering A.zero 0
    let bits_per_target_character := targetBits count1
    let (it2, _, count2) ← walkExtra A inStream
      (extraCharacters bits_per_target_character count1).toNat it1 fraction1 count1
    let count3 ← foldSingle inStream unique_bytes bits_per_target_character it2 count2
    pure { ordering := ordering, unique_bytes := unique_bytes,
           unique_upto_target_fraction := count3,
           bits_per_target_character := bits_per_target_character,
           bits_per_remaining_characters :=
             remainingBits unique_bytes bits_per_target_character count3 }

/-- The loop of `GenerateKey` that writes the shortened characters: `count` iterations
starting at index `i` and iterator `n`. -/
def writeShortWords (bits_per_target_character : Int) :
    Nat → Int → List Nat → ByteStream → Option (List Nat × ByteStream)
  | 0, _, n, keyStream => some (n, keyStream)
  | _ + 1, _, [], _ => none
  | count + 1, i, c :: n, keyStream => do
    let k1 ← keyStream.put c 8
    let k2 ← k1.put (toChar i) (toUShort bits_per_target_character)
    writeShortWords bits_per_target_character count (i + 1) n k2

/-- The loop of `GenerateKey` that writes the elongated characters: `count` iterations
starting at index `j`, with `i` the value left by the first loop. -/
def writeLongWords (i bits_per_target_character bits_per_remaining_characters : Int) :
    Nat → Int → List Nat → ByteStream → Option ByteStream
  | 0, _, _, keyStream => some keyStream
  | _ + 1, _, [], _ => none
  | count + 1, j, c :: n, keyStream => do
    let k1 ← keyStream.put c 8
    let k2 ← k1.put (toChar i) (toUShort bits_per_target_character)
    let k3 ← k2.put (toChar j)
      (toUShort (bits_per_remaining_characters - bits_per_target_character))
    writeLongWords i bits_per_target_character bits_per_remaining_characters count (j + 1) n k3

/-- The serialisation part of `GenerateKey` (lines 327-352). -/
def writeKey (p : Plan) (keyStream : ByteStream) : Option ByteStream := do
  let k0 := keyStream.clear
  let k1 ← k0.put (toChar p.unique_bytes) 8
  let k2 ← k1.put (toChar p.unique_upto_target_fraction) 8
  let k3 ← k2.put (toChar p.bits_per_target_character) 8
  let k4 ← k3.put (toChar p.bits_per_remaining_characters) 8
  let (n, k5) ← writeShortWords p.bits_per_target_character
    p.unique_upto_target_fraction.toNat 0 p.ordering k4
  writeLongWords p.unique_upto_target_fraction p.bits_per_target_character
    p.bits_per_remaining_characters
    (p.unique_bytes - p.unique_upto_target_fraction).toNat 0 n k5

/-- The method `GenerateKey`: the key stream it leaves (it always returns `true`);
`none` is a failed assertion. -/
def GenerateKey (A : Arith) (targetFraction : A.F) (inStream keyStream : ByteStream) :
    Option ByteStream := do
  let p ← planKey A targetFraction inStream
  writeKey p keyStream

end SimpleCompression

/-- A buffer loaded with the given bytes whose statistics have been refreshed
(`load` followed by `bytes_changed()`, as `main` does). -/
def loaded (bytes : List Nat) : ByteStream :=
  ({ ByteStream.new with data := bytes } : ByteStream).bytes_changed true

open SimpleCompression

/-- The sample buffer of the specification: `A A B C`. -/
def scenario : List Nat := [0x41, 0x41, 0x42, 0x43]


/-- The `n` low bits of `v`, most significant first. -/
def bitsOf : Nat → Nat → List Bool
  | 0, _ => []
  | n + 1, v => v.testBit n :: bitsOf n v

/-- The number written by a bit string, most significant bit first. -/
def natOfBits (l : List Bool) : Nat := l.foldl (fun acc b => 2 * acc + b.toNat) 0

/-- All bits of a byte sequence, byte after byte, most significant bit first. -/
def allBits (data : List Nat) : List Bool := data.flatMap (bitsOf 8)

/-- Number of unused bits in the last byte after `n` bits have been written. -/
def padLen (n : Nat) : Nat := (8 - n % 8) % 8

/-- The buffer holds exactly the bit string `bs`: its bytes are the bits of `bs` followed
by zero bits up to the next byte boundary, and the cursor is `bs.length % 8`. -/
def Holds (s : ByteStream) (bs : List Bool) : Prop :=
  s.nextBit = bs.length % 8 ∧ (∀ b ∈ s.data, b < 256) ∧
  allBits s.data = bs ++ List.replicate (padLen bs.length) false

/-- A sequence of calls `put(value, bits)`, in order. -/
def putAll : List (Nat × Nat) → ByteStream → Option ByteStream
  | [], s => some s
  | c :: rest, s => (s.put c.1 c.2).bind (putAll rest)

/-- The bits a sequence of calls `put(value, bits)` is meant to append. -/
def callBits (calls : List (Nat × Nat)) : List Bool := calls.flatMap (fun c => bitsOf c.2 c.1)

/-- The bit index at which the bits of call number `i` start. -/
def bitOffset (calls : List (Nat × Nat)) (i : Nat) : Nat := ((calls.take i).map (·.2)).sum

/-- The bits of the codeword an encoding map gives to a byte: the low `bitLength` bits of
the codeword, most significant first (nothing for a byte without entry). -/
def codeBits (map : SimpleCompression.encoding_map) (c : Nat) : List Bool :=
  match map c with
  | some (codeword, bitLength) => bitsOf bitLength codeword
  | none => []

/-- The bit length an encoding map gives to a byte (0 for a byte without entry). -/
def codeLen (map : SimpleCompression.encoding_map) (c : Nat) : Nat :=
  match map c with
  | some (_, bitLength) => bitLength
  | none => 0

/-- Shape of a plan of `GenerateKey`: `M` distinct bytes, `K` of them in the short tier,
`b` bits per short codeword; either there is no long tier, or the short tier uses all
`2 ^ b - 1` codewords below the escape pattern and at least two bytes remain. -/
structure PlanShape (p : SimpleCompression.Plan) (M K b : Nat) : Prop where
  len : p.ordering.length = M
  unique : p.unique_bytes = (M : Int)
  upto : p.unique_upto_target_fraction = (K : Int)
  bits : p.bits_per_target_character = (b : Int)
  M_pos : 1 ≤ M
  M_le : M ≤ 256
  b_pos : 1 ≤ b
  b_le : b ≤ 9
  tiers : (K = M ∧ K ≤ 2 ^ b ∧ p.bits_per_remaining_characters = 0) ∨
    (K + 2 ≤ M ∧ K + 1 = 2 ^ b ∧
      p.bits_per_remaining_characters = (b : Int) + (ceilLog2 (M - K) : Int))

/-- The codebook entries (byte value, codeword, bit length) that the first write loop of
`GenerateKey` serialises: `count` entries from index `i` and iterator `n`; the codeword is
what `put(i, bits)` keeps of the index. -/
def shortEntries (bits : Nat) : Nat → Nat → List Nat → List (Nat × Nat × Nat)
  | 0, _, _ => []
  | _ + 1, _, [] => []
  | count + 1, i, c :: n => (c, i % 2 ^ bits, bits) :: shortEntries bits count (i + 1) n

/-- The codebook entries that the second write loop of `GenerateKey` serialises: the
codeword is what `put(i, bits_short)` keeps of `i`, followed by what
`put(j, bits_long - bits_short)` keeps of `j`. -/
def longEntries (i bits_short bits_long : Nat) : Nat → Nat → List Nat → List (Nat × Nat × Nat)
  | 0, _, _ => []
  | _ + 1, _, [] => []
  | count + 1, j, c :: n =>
    (c, i % 2 ^ bits_short * 2 ^ (bits_long - bits_short) + j % 2 ^ (bits_long - bits_short),
      bits_long) :: longEntries i bits_short bits_long count (j + 1) n

/-- The codebook of a plan: the entries `GenerateKey` writes to the key, short tier
first. -/
def codebook (p : SimpleCompression.Plan) : List (Nat × Nat × Nat) :=
  shortEntries p.bits_per_target_character.toNat p.unique_upto_target_fraction.toNat 0 p.ordering
  ++ longEntries p.unique_upto_target_fraction.toNat p.bits_per_target_character.toNat
      p.bits_per_remaining_characters.toNat
      (p.unique_bytes - p.unique_upto_target_fraction).toNat 0
      (p.ordering.drop p.unique_upto_target_fraction.toNat)

/-- Serialisation of one codebook entry: the byte value in 8 bits, then the codeword in
its bit length. -/
def entryBits (e : Nat × Nat × Nat) : List Bool := bitsOf 8 e.1 ++ bitsOf e.2.2 e.2.1

/-- The four header bytes of a key. -/
def headerBits (p : SimpleCompression.Plan) : List Bool :=
  bitsOf 8 (toChar p.unique_bytes) ++ bitsOf 8 (toChar p.unique_upto_target_fraction)
  ++ bitsOf 8 (toChar p.bits_per_target_character)
  ++ bitsOf 8 (toChar p.bits_per_remaining_characters)

/-- The bit string of a key: header, then the entries without padding. -/
def keyBits (p : SimpleCompression.Plan) : List Bool :=
  headerBits p ++ (codebook p).flatMap entryBits

/-- The encoding map obtained by entering codebook entries one after the other. -/
def mapOf (es : List (Nat × Nat × Nat)) (m : SimpleCompression.encoding_map) :
    SimpleCompression.encoding_map :=
  es.foldl (fun m e => SimpleCompression.mapSet m e.1 e.2) m

/-- A byte that the codec handles: it has an entry in the encoding map, the inverse map
sends its codeword pair back to it, and the codeword is either a short one (not the
escape pattern when long codewords exist) or the escape pattern followed by an index. -/
def SymOK (map : SimpleCompression.encoding_map) (decoder : SimpleCompression.decoding_map)
    (b l c : Nat) : Prop :=
  c < 256 ∧ ∃ cw len, map c = some (cw, len) ∧
    (∃ v, decoder (cw, len) = some v ∧ v % 256 = c) ∧
    ((len = b ∧ cw < 2 ^ b ∧ (l = 0 ∨ cw ≠ 2 ^ b - 1)) ∨
     (len = l ∧ b < l ∧ ∃ j, j < 2 ^ (l - b) ∧ cw = (2 ^ b - 1) * 2 ^ (l - b) + j))

/-- The encoding map of a plan: its codebook entered into an empty map, as the key parser
does with the entries of the key. -/
def planMap (p : SimpleCompression.Plan) : SimpleCompression.encoding_map :=
  mapOf (codebook p) (fun _ => none)

/-- The number of bits `Encode` writes for the bytes `B` under the codebook of a plan. -/
def encodedBitCount (p : SimpleCompression.Plan) (B : List Nat) : Nat :=
  (B.map (codeLen (planMap p))).sum

/-- Encode then Decode, as `main` chains them: the key is generated from the input, the
output of `Encode` is copy-assigned to the input stream, and `Decode` writes to the same
output stream.  The result is the flag of `Decode` and the byte sequence it leaves. -/
def roundTrip (A : Arith) (targetFraction : A.F) (fuel : Nat) (bytes : List Nat) :
    Option (Bool × List Nat) := do
  let inputStream := loaded bytes
  let keyStream ← SimpleCompression.GenerateKey A targetFraction inputStream ByteStream.new
  let (ok, encoded) ← SimpleCompression.Encode inputStream ByteStream.new keyStream
  if ok then
    let (ok2, decoded) ←
      SimpleCompression.Decode fuel (inputStream.assign encoded) encoded keyStream
    pure (ok2, decoded.data)
  else pure (false, [])

/-- Invariant of the insertion sort while the bytes `0x80 .. 0xFF` are inserted: a
prefix of bytes below `0x80` together with the bytes from `0x80` on never exceeds 129
elements. -/
def HighInvariant (ord : List Nat) : Prop :=
  (∀ x ∈ ord, x < 256) ∧
  ord.length ≤ 128 + ord.countP (fun x => decide (128 ≤ x)) ∧
  ∀ w rest, ord = w ++ rest → (∀ x ∈ w, x < 128) →
    w.length + ord.countP (fun x => decide (128 ≤ x)) ≤ 129

/-- The key `GenerateKey` writes for the buffer `[0x41, 0x41, 0x42, 0x43]`: header
`M = 3, K = 3, bitsShort = 2, bitsLong = 0`, then three 10-bit entries. -/
def scenarioKey : ByteStream :=
  { ByteStream.new with data := [3, 3, 2, 0, 0x41, 0x10, 0x94, 0x38], nextBit := 6 }

/-- The key `GenerateKey` writes for the buffer `[0x41, 0x42, 0x43, 0x44]`: header
`M = 4, K = 4, bitsShort = 2, bitsLong = 0`, then four 10-bit entries. -/
def foldedKey : ByteStream :=
  { ByteStream.new with data := [4, 4, 2, 0, 0x41, 0x10, 0x94, 0x39, 0x13], nextBit := 0 }

/-- Whether the key parser accepts a key: `none` for a failed assertion, otherwise the
value it returns. -/
def keyAccepted (keyStream : ByteStream) : Option Bool :=
  (SimpleCompression.ReadMapFromKeyStream keyStream).map Option.isSome

/-- Key layout as the specification words it: the header bytes `M`, `K`, `bitsShort`,
`bitsLong`; then `K` short entries, each the byte value of ordering index `i` in 8 bits
followed by `i` in `bitsShort` bits; then `M - K` long entries, each the byte value of
ordering index `K + j` in 8 bits, `bitsShort` one-bits, and `j` in
`bitsLong - bitsShort` bits. -/
def specKeyBits (ordering : List Nat) (M K bitsShort bitsLong : Nat) : List Bool :=
  bitsOf 8 M ++ bitsOf 8 K ++ bitsOf 8 bitsShort ++ bitsOf 8 bitsLong
  ++ (List.range K).flatMap (fun i => bitsOf 8 (ordering.getD i 0) ++ bitsOf bitsShort i)
  ++ (List.range (M - K)).flatMap (fun j =>
      bitsOf 8 (ordering.getD (K + j) 0) ++ List.replicate bitsShort true
        ++ bitsOf (bitsLong - bitsShort) j)

/-- The short tier of the codebook of a plan: the entries written by the first loop. -/
def shortTier (p : SimpleCompression.Plan) : List (Nat × Nat × Nat) :=
  shortEntries p.bits_per_target_character.toNat p.unique_upto_target_fraction.toNat 0 p.ordering

/-- The long tier of the codebook of a plan: the entries written by the second loop. -/
def longTier (p : SimpleCompression.Plan) : List (Nat × Nat × Nat) :=
  longEntries p.unique_upto_target_fraction.toNat p.bits_per_target_character.toNat
    p.bits_per_remaining_characters.toNat
    (p.unique_bytes - p.unique_upto_target_fraction).toNat 0
    (p.ordering.drop p.unique_upto_target_fraction.toNat)

/-- The exact rational that a cached probability, kept as the pair of integers it was
computed from, stands for. -/
def ratioOf (pr : Nat × Nat) : ℚ := (pr.1 : ℚ) / (pr.2 : ℚ)

/-- A buffer with a long tier: five times `0x41`, then `0x42 .. 0x46` once each. -/
def sampleLong : List Nat := [0x41, 0x41, 0x41, 0x41, 0x41, 0x42, 0x43, 0x44, 0x45, 0x46]

/-- The key `GenerateKey` writes for `sampleLong` with target 1/2: header
`M = 6, K = 3, bitsShort = 2, bitsLong = 4`, three 10-bit entries, three 12-bit
entries. -/
def sampleLongKey : ByteStream :=
  { ByteStream.new with
    data := [6, 3, 2, 4, 0x41, 0x10, 0x94, 0x39, 0x13, 0x11, 0x75, 0x1B, 0x80], nextBit := 2 }

/-- The key of `[0x41, 0x41, 0x42, 0x43]` without its last byte: the header declares
three entries of 10 bits, 62 bits in all, and the buffer has 56. -/
def truncatedKey : ByteStream :=
  { ByteStream.new with data := [3, 3, 2, 0, 0x41, 0x10, 0x94] }

/-- A four-byte key without entries whose header declares `bitsShort = 0xFF`. -/
def negativeWidthKey : ByteStream :=
  { ByteStream.new with data := [0, 0, 0xFF, 0] }

/-- A four-byte key without entries whose header declares `bitsShort = 0`. -/
def zeroWidthKey : ByteStream :=
  { ByteStream.new with data := [0, 0, 0, 0] }

/-- Sum of the probabilities `count / size` of the first `k` bytes of an ordering of the
buffer `B`, as an exact rational. -/
def cumulative (B ord : List Nat) (k : Nat) : ℚ :=
  ((ord.take k).map (fun c => (B.count c : ℚ) / (B.length : ℚ))).sum

/-- A non-negative value of the IEEE 754 binary64 format (`double`): the finite value
`m / 2 ^ k`, positive infinity, or a NaN.  The operands of `GenerateKey` are quotients of
converted `unsigned int` values and their sums, far inside the exponent range of the
format, so the exponent limits (overflow, subnormal values) are not modelled. -/
inductive Dbl where
  | finite (m k : Nat) : Dbl
  | infinity : Dbl
  | nan : Dbl
deriving DecidableEq, Repr

/-- Search for the least `j` with `n < 2 ^ 53 * (d * 2 ^ j)`. -/
def shiftDown (n d : Nat) : Nat → Nat → Nat
  | 0, j => j
  | fuel + 1, j => if n < 2 ^ 53 * (d * 2 ^ j) then j else shiftDown n d fuel (j + 1)

/-- Search for the least `k` with `2 ^ 52 * d ≤ n * 2 ^ k`. -/
def shiftUp (n d : Nat) : Nat → Nat → Nat
  | 0, k => k
  | fuel + 1, k => if 2 ^ 52 * d ≤ n * 2 ^ k then k else shiftUp n d fuel (k + 1)

/-- Rounding of the exact quotient `n / d` (`d > 0`) to the nearest value with a 53-bit
significand, ties to the even significand: the result is `m / 2 ^ k` for the returned
pair `(m, k)`. -/
def roundDouble (n d : Nat) : Nat × Nat :=
  if n = 0 then (0, 0)
  else
    let j := shiftDown n d n 0
    let d1 := d * 2 ^ j
    let k := shiftUp n d1 (d1 + 52) 0
    let q := n * 2 ^ k / d1
    let r := n * 2 ^ k % d1
    let m := if d1 < 2 * r ∨ (2 * r = d1 ∧ q % 2 = 1) then q + 1 else q
    (m * 2 ^ j, k)

namespace Dbl

/-- The conversion `static_cast<double>(n)` of an unsigned integer. -/
def ofNat (n : Nat) : Dbl :=
  let r := roundDouble n 1
  finite r.1 r.2

/-- Addition of doubles: the exact sum, correctly rounded. -/
def add : Dbl → Dbl → Dbl
  | finite m1 k1, finite m2 k2 =>
    let r := roundDouble (m1 * 2 ^ k2 + m2 * 2 ^ k1) (2 ^ (k1 + k2))
    finite r.1 r.2
  | nan, _ => nan
  | _, nan => nan
  | _, _ => infinity

/-- Division of doubles: the exact quotient, correctly rounded; `0 / 0` is a NaN and
`x / 0` is infinite for `x > 0`. -/
def div : Dbl → Dbl → Dbl
  | finite m1 k1, finite m2 k2 =>
    if m2 = 0 then (if m1 = 0 then nan else infinity)
    else
      let r := roundDouble (m1 * 2 ^ k2) (m2 * 2 ^ k1)
      finite r.1 r.2
  | nan, _ => nan
  | _, nan => nan
  | infinity, infinity => nan
  | infinity, finite _ _ => infinity
  | finite _ _, infinity => finite 0 0

/-- Comparison `<` of doubles; every comparison with a NaN is false. -/
def lt : Dbl → Dbl → Bool
  | finite m1 k1, finite m2 k2 => decide (m1 * 2 ^ k2 < m2 * 2 ^ k1)
  | finite _ _, infinity => true
  | _, _ => false

end Dbl

/-- The arithmetic of the sources: IEEE 754 binary64 with round-to-nearest-even. -/
def doubleArith : Arith where
  F := Dbl
  zero := Dbl.finite 0 0
  add := Dbl.add
  lt := Dbl.lt
  quot := fun a b => Dbl.div (Dbl.ofNat a) (Dbl.ofNat b)

/-- The double `0.5`. -/
def half : Dbl := Dbl.finite 1 1

/-- The running sum `actual_fraction` of `GenerateKey` after `k` bytes of the ordering
`ord` of the buffer `B`: the quotients `count / size` added one after the other, from
`0.0`, in the arithmetic `A`. -/
def accumulated (A : Arith) (B ord : List Nat) (k : Nat) : A.F :=
  (ord.take k).foldl (fun acc c => A.add acc (A.quot (B.count c) B.length)) A.zero

/-- A buffer on which the rounding of doubles moves the cutoff: four times `0x41`, then
`0x42 .. 0x49` once each; the probabilities are 1/3 and eight times 1/12. -/
def cutoffSample : List Nat :=
  [0x41, 0x41, 0x41, 0x41, 0x42, 0x43, 0x44, 0x45, 0x46, 0x47, 0x48, 0x49]

/-- The key `GenerateKey` writes for `cutoffSample` with target `0.5` in double
arithmetic: header `M = 9, K = 7, bitsShort = 3, bitsLong = 4`, seven 11-bit entries and
two 12-bit entries. -/
def cutoffKey : ByteStream :=
  { ByteStream.new with
    data := [9, 7, 3, 4, 65, 8, 69, 13, 34, 52, 88, 141, 81, 242, 71, 36, 248],
    nextBit := 5 }

/-- The codeword pairs `Decode` reads from a bit string, in order, as the specification
words the loop: while more than `b` bits remain, take `b` bits; when they are the escape
pattern `2 ^ b - 1` and `l` is not 0, the group is the next `l` bits provided more than
`l` bits remain (otherwise reading stops); else the group is the `b` bits taken.  The
first argument bounds the number of groups. -/
def readGroups (b l : Nat) : Nat → List Bool → List (Nat × Nat)
  | 0, _ => []
  | fuel + 1, bits =>
    if b < bits.length then
      if natOfBits (bits.take b) = 2 ^ b - 1 ∧ l ≠ 0 then
        if l < bits.length then
          (natOfBits (bits.take l), l) :: readGroups b l fuel (bits.drop l)
        else []
      else (natOfBits (bits.take b), b) :: readGroups b l fuel (bits.drop b)
    else []

/-- The byte `Decode` emits for a codeword pair: the byte of its entry in the inverse
map, and `0x00` for a pair without entry. -/
def decodedByte (decoder : SimpleCompression.decoding_map) (g : Nat × Nat) : Nat :=
  match decoder g with
  | some v => v % 256
  | none => 0

theorem bitsOf_length (n v : Nat) : (bitsOf n v).length = n := by
  induction n with
  | zero => rfl
  | succ n ih => simp [bitsOf, ih]

theorem bitsOf_mod (n m v : Nat) (h : n ≤ m) : bitsOf n (v % 2 ^ m) = bitsOf n v := by
  induction n with
  | zero => rfl
  | succ n ih =>
    have h1 : n < m := h
    simp [bitsOf, ih (by omega), Nat.testBit_mod_two_pow, h1]

theorem bitsOf_add (a b v : Nat) : bitsOf (a + b) v = bitsOf a (v / 2 ^ b) ++ bitsOf b v := by
  induction a with
  | zero => simp [bitsOf]
  | succ a ih =>
    have h1 : a + 1 + b = (a + b) + 1 := by omega
    rw [h1, bitsOf, bitsOf, ih, ← Nat.shiftRight_eq_div_pow, Nat.testBit_shiftRight,
      Nat.add_comm b a]
    rfl

theorem natOfBits_cons (b : Bool) (l : List Bool) :
    natOfBits (b :: l) = b.toNat * 2 ^ l.length + natOfBits l := by
  unfold natOfBits
  have key : ∀ (l : List Bool) (acc : Nat),
      l.foldl (fun acc b => 2 * acc + b.toNat) acc
        = acc * 2 ^ l.length + l.foldl (fun acc b => 2 * acc + b.toNat) 0 := by
    intro l
    induction l with
    | nil => intro acc; simp
    | cons c l ih =>
      intro acc
      simp only [List.foldl_cons, List.length_cons]
      rw [ih (2 * acc + c.toNat), ih (2 * 0 + c.toNat)]
      ring
  simp only [List.foldl_cons]
  rw [key l]
  simp

theorem natOfBits_nil : natOfBits [] = 0 := rfl

theorem natOfBits_lt (l : List Bool) : natOfBits l < 2 ^ l.length := by
  induction l with
  | nil => simp [natOfBits]
  | cons b l ih =>
    rw [natOfBits_cons, List.length_cons, pow_succ]
    cases b <;> simp <;> omega

theorem natOfBits_append (l₁ l₂ : List Bool) :
    natOfBits (l₁ ++ l₂) = natOfBits l₁ * 2 ^ l₂.length + natOfBits l₂ := by
  induction l₁ with
  | nil => simp [natOfBits_nil]
  | cons b l ih =>
    rw [List.cons_append, natOfBits_cons, natOfBits_cons, ih, List.length_append, pow_add]
    ring

theorem natOfBits_bitsOf (n v : Nat) : natOfBits (bitsOf n v) = v % 2 ^ n := by
  induction n with
  | zero => simp [bitsOf, natOfBits_nil, Nat.mod_one]
  | succ n ih =>
    rw [bitsOf, natOfBits_cons, ih, bitsOf_length, Nat.mod_pow_succ, Nat.testBit_to_div_mod]
    by_cases h : v / 2 ^ n % 2 = 1
    · simp [h]; ring
    · have h0 : v / 2 ^ n % 2 = 0 := by omega
      simp [h0]

theorem bitsOf_natOfBits (l : List Bool) : bitsOf l.length (natOfBits l) = l := by
  induction l with
  | nil => rfl
  | cons b l ih =>
    rw [List.length_cons, bitsOf, natOfBits_cons]
    have hlt := natOfBits_lt l
    congr 1
    · rw [Nat.mul_comm, Nat.testBit_mul_pow_two_add _ hlt]
      cases b <;> simp
    · rw [← bitsOf_mod _ l.length _ le_rfl, Nat.add_comm, Nat.add_mul_mod_self_right,
        bitsOf_mod _ l.length _ le_rfl, ih]

theorem sarChar_mask : ∀ c < 256, ∀ k < 9, sarChar c k &&& (0xFF >>> k) = c >>> k := by
  decide!

theorem and_high_mask : ∀ r < 256, ∀ sh < 9,
    r &&& ((0xFF <<< sh) &&& 0xFF) = r / 2 ^ sh * 2 ^ sh := by
  decide!

theorem and_high_mask_next : ∀ y < 256, ∀ m < 9,
    (y &&& (0xFF <<< m)) % 256 = y / 2 ^ m * 2 ^ m := by
  decide!

theorem allBits_append (a b : List Nat) : allBits (a ++ b) = allBits a ++ allBits b := by
  simp [allBits]

theorem allBits_length (a : List Nat) : (allBits a).length = 8 * a.length := by
  induction a with
  | nil => rfl
  | cons x a ih =>
    have : allBits (x :: a) = bitsOf 8 x ++ allBits a := by simp [allBits]
    rw [this, List.length_append, bitsOf_length, ih, List.length_cons]; ring

theorem allBits_singleton (x : Nat) : allBits [x] = bitsOf 8 x := by simp [allBits]

theorem bitsOf_zero_val (n : Nat) : bitsOf n 0 = List.replicate n false := by
  induction n with
  | zero => rfl
  | succ n ih => simp [bitsOf, ih, List.replicate_succ]

theorem natOfBits_replicate_false (n : Nat) : natOfBits (List.replicate n false) = 0 := by
  rw [← bitsOf_zero_val, natOfBits_bitsOf]; simp

/-- Bits of a value shifted into place: `a` payload bits followed by `j` zeros. -/
theorem bitsOf_shifted (a j p : Nat) :
    bitsOf (a + j) (p * 2 ^ j) = bitsOf a p ++ List.replicate j false := by
  rw [bitsOf_add, Nat.mul_div_cancel _ (by positivity), ← bitsOf_mod j j _ le_rfl,
    Nat.mul_mod_left, bitsOf_zero_val]

theorem mask_eq (n : Nat) (h : n ≤ 8) : 0xFF >>> (8 - n) = 2 ^ n - 1 := by
  interval_cases n <;> rfl

theorem and_mask (d n : Nat) (h : n ≤ 8) : d &&& (0xFF >>> (8 - n)) = d % 2 ^ n := by
  rw [mask_eq n h, Nat.and_pow_two_sub_one_eq_mod]

theorem and_ff (x : Nat) : x &&& 0xFF = x % 256 := by
  have : (0xFF : Nat) = 2 ^ 8 - 1 := rfl
  rw [this, Nat.and_pow_two_sub_one_eq_mod]

theorem or_low (p j y : Nat) (hy : y < 2 ^ j) : p * 2 ^ j ||| y = p * 2 ^ j + y := by
  rw [Nat.mul_comm, ← Nat.mul_add_lt_is_or hy]

/-- Structure of the last, partly filled byte. -/
theorem Holds.last_byte {s : ByteStream} {bs : List Bool} (h : Holds s bs)
    (hk : 0 < bs.length % 8) :
    ∃ full p, s.data = full ++ [p * 2 ^ (8 - bs.length % 8)] ∧ p < 2 ^ (bs.length % 8) ∧
      bs = allBits full ++ bitsOf (bs.length % 8) p := by
  obtain ⟨h1, h2, h3⟩ := h
  have hpad : padLen bs.length = 8 - bs.length % 8 := by unfold padLen; omega
  rw [hpad] at h3
  have hne : s.data ≠ [] := by
    intro h0
    rw [h0] at h3
    have := congrArg List.length h3
    simp [allBits] at this
    omega
  obtain ⟨full, last, hd⟩ : ∃ full last, s.data = full ++ [last] :=
    ⟨s.data.dropLast, s.data.getLast hne, (List.dropLast_append_getLast hne).symm⟩
  have hlast : last < 256 := h2 last (by rw [hd]; simp)
  rw [hd, allBits_append, allBits_singleton] at h3
  have hlen := congrArg List.length h3
  simp only [List.length_append, allBits_length, bitsOf_length, List.length_replicate] at hlen
  have hl1 : (allBits full).length = (bs.take (8 * full.length)).length := by
    rw [allBits_length, List.length_take]; omega
  have hsplit : allBits full ++ bitsOf 8 last
      = bs.take (8 * full.length) ++ (bs.drop (8 * full.length) ++
          List.replicate (8 - bs.length % 8) false) := by
    rw [h3, ← List.append_assoc, List.take_append_drop]
  obtain ⟨e1, e2⟩ := List.append_inj hsplit hl1
  have hdl : (bs.drop (8 * full.length)).length = bs.length % 8 := by
    rw [List.length_drop]; omega
  refine ⟨full, natOfBits (bs.drop (8 * full.length)), ?_, ?_, ?_⟩
  · have : last = natOfBits (bitsOf 8 last) := by
      rw [natOfBits_bitsOf]; exact (Nat.mod_eq_of_lt hlast).symm
    rw [e2, natOfBits_append, natOfBits_replicate_false, List.length_replicate,
      Nat.add_zero] at this
    rw [hd, this]
  · have := natOfBits_lt (bs.drop (8 * full.length))
    rwa [hdl] at this
  · have := bitsOf_natOfBits (bs.drop (8 * full.length))
    rw [hdl] at this
    rw [this, e1, List.take_append_drop]

theorem two_pow_split (a b c : Nat) (h : a + b = c) : 2 ^ a * 2 ^ b = 2 ^ c := by
  rw [← pow_add, h]

theorem put_fresh (depth : Nat) (s : ByteStream) (datum n : Nat) (h0 : s.nextBit = 0)
    (h1 : 1 ≤ n) (h8 : n ≤ 8) :
    ByteStream.putAux (depth + 1) s datum n
      = some { s with data := s.data ++ [datum % 2 ^ n * 2 ^ (8 - n)], nextBit := n % 8 } := by
  have hnew : ((datum &&& (0xFF >>> (8 - n))) <<< (8 - n)) &&& 0xFF
      = datum % 2 ^ n * 2 ^ (8 - n) := by
    rw [and_mask _ _ h8, Nat.shiftLeft_eq, and_ff]
    apply Nat.mod_eq_of_lt
    have := Nat.mod_lt datum (show 0 < 2 ^ n by positivity)
    calc datum % 2 ^ n * 2 ^ (8 - n) < 2 ^ n * 2 ^ (8 - n) :=
          Nat.mul_lt_mul_of_pos_right this (by positivity)
      _ = 256 := two_pow_split _ _ 8 (by omega)
  have hs : ¬ ((8 : Int) - ((n : Int) + (s.nextBit : Int)) < 0) := by rw [h0]; omega
  have ht : ((8 : Int) - ((n : Int) + (s.nextBit : Int))).toNat = 8 - n := by rw [h0]; omega
  have hc : ¬ (s.nextBit > 0 ∧ s.data.length > 0) := by rw [h0]; simp
  have hb : ¬ ¬ (n ≤ 8 ∧ n > 0) := by simp; omega
  simp only [ByteStream.putAux, hb, hs, ht, hc, hnew, if_false]
  by_cases hn : n < 8
  · simp [hn, Nat.mod_eq_of_lt hn]
  · have : n = 8 := by omega
    subst this
    simp [h0]

theorem set_last (full : List Nat) (last x : Nat) :
    (full ++ [last]).set ((full ++ [last]).length - 1) x = full ++ [x] := by
  simp [List.set_append]

theorem getD_last (full : List Nat) (last : Nat) :
    (full ++ [last]).getD ((full ++ [last]).length - 1) 0 = last := by
  simp [List.getD_eq_getElem?_getD, List.getElem?_append_right]

theorem put_fit (depth : Nat) (s : ByteStream) (full : List Nat) (last datum n : Nat)
    (hd : s.data = full ++ [last]) (hk : 0 < s.nextBit)
    (h1 : 1 ≤ n) (hfit : s.nextBit + n ≤ 8) :
    ByteStream.putAux (depth + 1) s datum n
      = some { s with
          data := full ++ [last ||| datum % 2 ^ n * 2 ^ (8 - s.nextBit - n)]
          nextBit := (s.nextBit + n) % 8 } := by
  have h8 : n ≤ 8 := by omega
  have hnew : ((datum &&& (0xFF >>> (8 - n))) <<< (8 - s.nextBit - n)) &&& 0xFF
      = datum % 2 ^ n * 2 ^ (8 - s.nextBit - n) := by
    rw [and_mask _ _ h8, Nat.shiftLeft_eq, and_ff]
    apply Nat.mod_eq_of_lt
    have := Nat.mod_lt datum (show 0 < 2 ^ n by positivity)
    calc datum % 2 ^ n * 2 ^ (8 - s.nextBit - n) < 2 ^ n * 2 ^ (8 - s.nextBit - n) :=
          Nat.mul_lt_mul_of_pos_right this (by positivity)
      _ = 2 ^ (8 - s.nextBit) := two_pow_split _ _ _ (by omega)
      _ ≤ 2 ^ 8 := Nat.pow_le_pow_right (by norm_num) (by omega)
  have hs : ¬ ((8 : Int) - ((n : Int) + (s.nextBit : Int)) < 0) := by omega
  have ht : ((8 : Int) - ((n : Int) + (s.nextBit : Int))).toNat = 8 - s.nextBit - n := by omega
  have hc : s.nextBit > 0 ∧ s.data.length > 0 := ⟨hk, by rw [hd]; simp⟩
  have hb : ¬ ¬ (n ≤ 8 ∧ n > 0) := by simp; omega
  have hm : (s.nextBit + n) % 65536 = s.nextBit + n := Nat.mod_eq_of_lt (by omega)
  have hgt : ¬ (s.nextBit + n > 8) := by omega
  simp only [ByteStream.putAux, hb, hs, ht, hc, hnew, hm, hgt, if_false, if_true, and_self]
  rw [hd, set_last, getD_last]
  by_cases he : s.nextBit + n = 8
  · simp [he]
  · have : (s.nextBit + n) % 8 = s.nextBit + n := Nat.mod_eq_of_lt (by omega)
    simp [he, this]

theorem put_cross (depth : Nat) (s : ByteStream) (full : List Nat) (last datum n : Nat)
    (hd : s.data = full ++ [last]) (hk : s.nextBit < 8)
    (h8 : n ≤ 8) (hcross : 8 < s.nextBit + n) :
    ByteStream.putAux (depth + 2) s datum n
      = some { s with
          data := full ++ [last ||| datum % 2 ^ n / 2 ^ (s.nextBit + n - 8),
                    datum % 2 ^ (s.nextBit + n - 8) * 2 ^ (8 - (s.nextBit + n - 8))]
          nextBit := s.nextBit + n - 8 } := by
  have hnew : sarChar (datum &&& (0xFF >>> (8 - n))) (s.nextBit + n - 8)
        &&& (0xFF >>> (s.nextBit + n - 8))
      = datum % 2 ^ n / 2 ^ (s.nextBit + n - 8) := by
    have hw : datum % 2 ^ n < 256 :=
      calc datum % 2 ^ n < 2 ^ n := Nat.mod_lt datum (by positivity)
        _ ≤ 2 ^ 8 := Nat.pow_le_pow_right (by norm_num) h8
    rw [and_mask _ _ h8, sarChar_mask _ hw _ (by omega), Nat.shiftRight_eq_div_pow]
  have hs : (8 : Int) - ((n : Int) + (s.nextBit : Int)) < 0 := by omega
  have ht : (-((8 : Int) - ((n : Int) + (s.nextBit : Int)))).toNat = s.nextBit + n - 8 := by
    omega
  have hc : s.nextBit > 0 ∧ s.data.length > 0 := ⟨by omega, by rw [hd]; simp⟩
  have hb : ¬ ¬ (n ≤ 8 ∧ n > 0) := by simp; omega
  have hm : (s.nextBit + n) % 65536 = s.nextBit + n := Nat.mod_eq_of_lt (by omega)
  have hgt : s.nextBit + n > 8 := hcross
  have hrem : (datum &&& (0xFF >>> (8 - (s.nextBit + n - 8))))
      % 2 ^ (s.nextBit + n - 8) = datum % 2 ^ (s.nextBit + n - 8) := by
    rw [and_mask _ _ (by omega), Nat.mod_mod]
  rw [ByteStream.putAux]
  simp only [hb, hs, ht, hc, hnew, hm, hgt, if_false, if_true, and_self]
  rw [put_fresh depth _ _ _ rfl (by omega) (by omega)]
  simp only [hrem]
  rw [hd, set_last, getD_last]
  have : (s.nextBit + n - 8) % 8 = s.nextBit + n - 8 := Nat.mod_eq_of_lt (by omega)
  simp [this]

theorem bitsOf_cat (a b p w : Nat) (hw : w < 2 ^ b) :
    bitsOf (a + b) (p * 2 ^ b + w) = bitsOf a p ++ bitsOf b w := by
  rw [bitsOf_add, ← bitsOf_mod b b (p * 2 ^ b + w) le_rfl, Nat.add_comm (p * 2 ^ b),
    Nat.add_mul_mod_self_right, bitsOf_mod b b w le_rfl, Nat.add_mul_div_right _ _ (by positivity),
    Nat.div_eq_of_lt hw, Nat.zero_add]

theorem bitsOf_high (a o datum : Nat) :
    bitsOf a (datum % 2 ^ (a + o) / 2 ^ o) = bitsOf a (datum / 2 ^ o) := by
  have h1 := bitsOf_add a o (datum % 2 ^ (a + o))
  rw [bitsOf_mod _ _ _ le_rfl, bitsOf_add] at h1
  exact ((List.append_inj h1 (by simp [bitsOf_length])).1).symm

theorem bitsOf_shifted_eq (m a j p : Nat) (hm : m = a + j) :
    bitsOf m (p * 2 ^ j) = bitsOf a p ++ List.replicate j false := by
  subst hm; exact bitsOf_shifted a j p

theorem bitsOf_cat_eq (m a b p w : Nat) (hm : m = a + b) (hw : w < 2 ^ b) :
    bitsOf m (p * 2 ^ b + w) = bitsOf a p ++ bitsOf b w := by
  subst hm; exact bitsOf_cat a b p w hw

theorem bitsOf_add_eq (m a b v : Nat) (hm : m = a + b) :
    bitsOf m v = bitsOf a (v / 2 ^ b) ++ bitsOf b v := by
  subst hm; exact bitsOf_add a b v

theorem bitsOf_high_eq (n a o datum : Nat) (hn : n = a + o) :
    bitsOf a (datum % 2 ^ n / 2 ^ o) = bitsOf a (datum / 2 ^ o) := by
  subst hn; exact bitsOf_high a o datum

theorem padLen_lt (n : Nat) : padLen n < 8 := by unfold padLen; omega

theorem Holds.put {s : ByteStream} {bs : List Bool} (h : Holds s bs) (datum n : Nat)
    (h1 : 1 ≤ n) (h8 : n ≤ 8) :
    ∃ s', s.put datum n = some s' ∧ Holds s' (bs ++ bitsOf n datum) ∧
      s'.byteFrequency = s.byteFrequency ∧ s'.byteProbability = s.byteProbability ∧
      s'.bytesChanged = s.bytesChanged := by
  have hnb := h.1
  have hbytes := h.2.1
  have hall := h.2.2
  have hkl : bs.length % 8 < 8 := Nat.mod_lt _ (by norm_num)
  have hwlt : datum % 2 ^ n < 2 ^ n := Nat.mod_lt datum (by positivity)
  by_cases hk : bs.length % 8 = 0
  · -- a new byte is started
    refine ⟨_, put_fresh 1 s datum n (by omega) h1 h8, ⟨?_, ?_, ?_⟩, rfl, rfl, rfl⟩
    · simp only [List.length_append, bitsOf_length]; omega
    · intro b hb
      simp only [List.mem_append, List.mem_singleton] at hb
      rcases hb with hb | hb
      · exact hbytes b hb
      · rw [hb]
        calc datum % 2 ^ n * 2 ^ (8 - n) < 2 ^ n * 2 ^ (8 - n) :=
              Nat.mul_lt_mul_of_pos_right hwlt (by positivity)
          _ = 256 := two_pow_split _ _ 8 (by omega)
    · have hp0 : padLen bs.length = 0 := by unfold padLen; omega
      have hp1 : padLen (bs ++ bitsOf n datum).length = 8 - n := by
        simp only [List.length_append, bitsOf_length]; unfold padLen; omega
      rw [hp0] at hall
      simp only [List.replicate_zero, List.append_nil] at hall
      simp only [allBits_append, allBits_singleton, hall, hp1]
      have : bitsOf 8 (datum % 2 ^ n * 2 ^ (8 - n))
          = bitsOf n datum ++ List.replicate (8 - n) false := by
        rw [bitsOf_shifted_eq 8 n (8 - n) _ (by omega), bitsOf_mod _ _ _ le_rfl]
      rw [this, List.append_assoc]
  · obtain ⟨full, p, hd, hp, hbs⟩ := h.last_byte (by omega)
    rw [← hnb] at hd hp hbs
    have hk0 : 0 < s.nextBit := by omega
    have hk8 : s.nextBit < 8 := by omega
    have hfull : ∀ b ∈ full, b < 256 := fun b hb => hbytes b (by rw [hd]; simp [hb])
    by_cases hfit : s.nextBit + n ≤ 8
    · have hy : datum % 2 ^ n * 2 ^ (8 - s.nextBit - n) < 2 ^ (8 - s.nextBit) :=
        calc datum % 2 ^ n * 2 ^ (8 - s.nextBit - n) < 2 ^ n * 2 ^ (8 - s.nextBit - n) :=
              Nat.mul_lt_mul_of_pos_right hwlt (by positivity)
          _ = 2 ^ (8 - s.nextBit) := two_pow_split _ _ _ (by omega)
      have hlast : p * 2 ^ (8 - s.nextBit) ||| datum % 2 ^ n * 2 ^ (8 - s.nextBit - n)
          = (p * 2 ^ n + datum % 2 ^ n) * 2 ^ (8 - s.nextBit - n) := by
        rw [or_low _ _ _ hy, Nat.add_mul, Nat.mul_assoc,
          two_pow_split n (8 - s.nextBit - n) (8 - s.nextBit) (by omega)]
      refine ⟨_, put_fit 1 s full _ datum n hd hk0 h1 hfit, ⟨?_, ?_, ?_⟩, rfl, rfl, rfl⟩
      · simp only [List.length_append, bitsOf_length]; omega
      · intro b hb
        simp only [List.mem_append, List.mem_singleton] at hb
        rcases hb with hb | hb
        · exact hfull b hb
        · rw [hb, hlast]
          have : p * 2 ^ n + datum % 2 ^ n < 2 ^ (s.nextBit + n) := by
            calc p * 2 ^ n + datum % 2 ^ n < (p + 1) * 2 ^ n := by rw [Nat.add_mul]; omega
              _ ≤ 2 ^ s.nextBit * 2 ^ n := Nat.mul_le_mul_right _ hp
              _ = 2 ^ (s.nextBit + n) := two_pow_split _ _ _ rfl
          calc (p * 2 ^ n + datum % 2 ^ n) * 2 ^ (8 - s.nextBit - n)
                < 2 ^ (s.nextBit + n) * 2 ^ (8 - s.nextBit - n) :=
                  Nat.mul_lt_mul_of_pos_right this (by positivity)
            _ = 256 := two_pow_split _ _ 8 (by omega)
      · have hp1 : padLen (bs ++ bitsOf n datum).length = 8 - s.nextBit - n := by
          simp only [List.length_append, bitsOf_length]; unfold padLen; omega
        simp only [allBits_append, allBits_singleton, hp1, hlast]
        have : bitsOf 8 ((p * 2 ^ n + datum % 2 ^ n) * 2 ^ (8 - s.nextBit - n))
            = bitsOf s.nextBit p ++ bitsOf n datum
                ++ List.replicate (8 - s.nextBit - n) false := by
          rw [bitsOf_shifted_eq 8 (s.nextBit + n) _ _ (by omega),
            bitsOf_cat _ _ _ _ hwlt, bitsOf_mod _ _ _ le_rfl]
        rw [this, hbs]
        simp only [List.append_assoc]
    · have ho : datum % 2 ^ n / 2 ^ (s.nextBit + n - 8) < 2 ^ (8 - s.nextBit) := by
        rw [Nat.div_lt_iff_lt_mul (by positivity), two_pow_split _ _ n (by omega)]
        exact hwlt
      have hlast : p * 2 ^ (8 - s.nextBit) ||| datum % 2 ^ n / 2 ^ (s.nextBit + n - 8)
          = p * 2 ^ (8 - s.nextBit) + datum % 2 ^ n / 2 ^ (s.nextBit + n - 8) :=
        or_low _ _ _ ho
      have hrlt : datum % 2 ^ (s.nextBit + n - 8) < 2 ^ (s.nextBit + n - 8) :=
        Nat.mod_lt datum (by positivity)
      refine ⟨_, put_cross 0 s full _ datum n hd hk8 h8 (by omega), ⟨?_, ?_, ?_⟩, rfl, rfl, rfl⟩
      · simp only [List.length_append, bitsOf_length]; omega
      · intro b hb
        simp only [List.mem_append, List.mem_cons, List.mem_singleton, List.not_mem_nil,
          or_false] at hb
        rcases hb with hb | hb | hb
        · exact hfull b hb
        · rw [hb, hlast]
          calc p * 2 ^ (8 - s.nextBit) + datum % 2 ^ n / 2 ^ (s.nextBit + n - 8)
                < (p + 1) * 2 ^ (8 - s.nextBit) := by rw [Nat.add_mul]; omega
            _ ≤ 2 ^ s.nextBit * 2 ^ (8 - s.nextBit) := Nat.mul_le_mul_right _ hp
            _ = 256 := two_pow_split _ _ 8 (by omega)
        · rw [hb]
          calc datum % 2 ^ (s.nextBit + n - 8) * 2 ^ (8 - (s.nextBit + n - 8))
                < 2 ^ (s.nextBit + n - 8) * 2 ^ (8 - (s.nextBit + n - 8)) :=
                  Nat.mul_lt_mul_of_pos_right hrlt (by positivity)
            _ = 256 := two_pow_split _ _ 8 (by omega)
      · have hp1 : padLen (bs ++ bitsOf n datum).length = 8 - (s.nextBit + n - 8) := by
          simp only [List.length_append, bitsOf_length]; unfold padLen; omega
        have hsplit : full ++ [p * 2 ^ (8 - s.nextBit) ||| datum % 2 ^ n / 2 ^ (s.nextBit + n - 8),
            datum % 2 ^ (s.nextBit + n - 8) * 2 ^ (8 - (s.nextBit + n - 8))]
            = full ++ [p * 2 ^ (8 - s.nextBit) + datum % 2 ^ n / 2 ^ (s.nextBit + n - 8)]
              ++ [datum % 2 ^ (s.nextBit + n - 8) * 2 ^ (8 - (s.nextBit + n - 8))] := by
          rw [hlast]; simp
        simp only [hsplit, allBits_append, allBits_singleton, hp1]
        have e1 : bitsOf 8 (p * 2 ^ (8 - s.nextBit) + datum % 2 ^ n / 2 ^ (s.nextBit + n - 8))
            = bitsOf s.nextBit p ++ bitsOf (8 - s.nextBit) (datum / 2 ^ (s.nextBit + n - 8)) := by
          rw [bitsOf_cat_eq 8 s.nextBit _ _ _ (by omega) ho,
            bitsOf_high_eq n _ _ _ (by omega)]
        have e2 : bitsOf 8 (datum % 2 ^ (s.nextBit + n - 8) * 2 ^ (8 - (s.nextBit + n - 8)))
            = bitsOf (s.nextBit + n - 8) datum
                ++ List.replicate (8 - (s.nextBit + n - 8)) false := by
          rw [bitsOf_shifted_eq 8 (s.nextBit + n - 8) _ _ (by omega), bitsOf_mod _ _ _ le_rfl]
        have e3 : bitsOf n datum = bitsOf (8 - s.nextBit) (datum / 2 ^ (s.nextBit + n - 8))
            ++ bitsOf (s.nextBit + n - 8) datum := by
          exact bitsOf_add_eq n _ _ _ (by omega)
        rw [e1, e2, e3, hbs]
        simp only [List.append_assoc]

theorem take_drop_bitsOf (w a b c v : Nat) (hw : w = a + b + c) :
    ((bitsOf w v).drop a).take b = bitsOf b (v / 2 ^ c) := by
  rw [bitsOf_add_eq w a (b + c) v (by omega), List.drop_left' (bitsOf_length _ _),
    bitsOf_add, List.take_left' (bitsOf_length _ _)]

theorem drop_bitsOf (w a b v : Nat) (hw : w = a + b) :
    (bitsOf w v).drop a = bitsOf b v := by
  rw [bitsOf_add_eq w a b v hw, List.drop_left' (bitsOf_length _ _)]

theorem take_bitsOf (w b c v : Nat) (hw : w = b + c) :
    (bitsOf w v).take b = bitsOf b (v / 2 ^ c) := by
  rw [bitsOf_add_eq w b c v hw, List.take_left' (bitsOf_length _ _)]

theorem allBits_cons (x : Nat) (l : List Nat) : allBits (x :: l) = bitsOf 8 x ++ allBits l := by
  simp [allBits]

/-- Value computed by `read` inside one byte. -/
theorem read_in_byte (x j n : Nat) (_hx : x < 256) (h1 : 1 ≤ n) (hfit : j + n ≤ 8) :
    sarChar (((x <<< j) % 256) &&& ((0xFF <<< (8 - j - n)) &&& 0xFF)) (8 - n)
        &&& (0xFF >>> (8 - n))
      = x / 2 ^ (8 - j - n) % 2 ^ n := by
  have hr0 : (x <<< j) % 256 < 256 := Nat.mod_lt _ (by norm_num)
  rw [and_high_mask _ hr0 _ (by omega)]
  have hr1 : (x <<< j) % 256 / 2 ^ (8 - j - n) * 2 ^ (8 - j - n) < 256 :=
    lt_of_le_of_lt (Nat.div_mul_le_self _ _) hr0
  rw [sarChar_mask _ hr1 _ (by omega), Nat.shiftRight_eq_div_pow, Nat.shiftLeft_eq]
  have e1 : (2 : Nat) ^ (8 - n) = 2 ^ (8 - j - n) * 2 ^ j :=
    (two_pow_split _ _ _ (by omega)).symm
  have e2 : (256 : Nat) = 2 ^ (8 - j) * 2 ^ j := (two_pow_split _ _ 8 (by omega)).symm
  have e3 : (2 : Nat) ^ (8 - j) = 2 ^ (8 - j - n) * 2 ^ n :=
    (two_pow_split _ _ _ (by omega)).symm
  rw [e1, ← Nat.div_div_eq_div_mul, Nat.mul_div_cancel _ (by positivity), e2,
    Nat.mul_mod_mul_right, Nat.div_div_eq_div_mul,
    Nat.mul_div_mul_right _ _ (by positivity), e3, Nat.mod_mul_right_div_self]

/-- Value computed by `read` across two bytes. -/
theorem read_two_bytes (x y j n : Nat) (_hx : x < 256) (hy : y < 256) (hj : j < 8)
    (h8 : n ≤ 8) (hcross : 8 < j + n) :
    sarChar (((x <<< j) % 256) |||
          (sarChar ((y &&& (0xFF <<< (16 - j - n))) % 256) (8 - j) &&& (0xFF >>> (8 - j))))
        (8 - n) &&& (0xFF >>> (8 - n))
      = x % 2 ^ (8 - j) * 2 ^ (j + n - 8) + y / 2 ^ (16 - j - n) := by
  have e2 : (256 : Nat) = 2 ^ (8 - j) * 2 ^ j := (two_pow_split _ _ 8 (by omega)).symm
  have hr0 : (x <<< j) % 256 = x % 2 ^ (8 - j) * 2 ^ j := by
    rw [Nat.shiftLeft_eq, e2, Nat.mul_mod_mul_right]
  have hy1 : (y &&& (0xFF <<< (16 - j - n))) % 256 = y / 2 ^ (16 - j - n) * 2 ^ (16 - j - n) :=
    and_high_mask_next y hy _ (by omega)
  have hy2 : y / 2 ^ (16 - j - n) * 2 ^ (16 - j - n) < 256 :=
    lt_of_le_of_lt (Nat.div_mul_le_self _ _) hy
  have e4 : (2 : Nat) ^ (16 - j - n) = 2 ^ (8 - n) * 2 ^ (8 - j) :=
    (two_pow_split _ _ _ (by omega)).symm
  have hy3 : y / 2 ^ (16 - j - n) * 2 ^ (16 - j - n) / 2 ^ (8 - j)
      = y / 2 ^ (16 - j - n) * 2 ^ (8 - n) := by
    conv_lhs => rw [e4]
    rw [← Nat.mul_assoc, Nat.mul_div_cancel _ (by positivity), ← e4]
  have hyq : y / 2 ^ (16 - j - n) < 2 ^ (j + n - 8) := by
    rw [Nat.div_lt_iff_lt_mul (by positivity), two_pow_split _ _ 8 (by omega)]
    exact hy
  have hy4 : y / 2 ^ (16 - j - n) * 2 ^ (8 - n) < 2 ^ j :=
    calc y / 2 ^ (16 - j - n) * 2 ^ (8 - n) < 2 ^ (j + n - 8) * 2 ^ (8 - n) :=
          Nat.mul_lt_mul_of_pos_right hyq (by positivity)
      _ = 2 ^ j := two_pow_split _ _ _ (by omega)
  rw [hy1, sarChar_mask _ hy2 _ (by omega), Nat.shiftRight_eq_div_pow, hy3, hr0,
    or_low _ _ _ hy4]
  have hx1 : x % 2 ^ (8 - j) < 2 ^ (8 - j) := Nat.mod_lt _ (by positivity)
  have hsum : x % 2 ^ (8 - j) * 2 ^ j + y / 2 ^ (16 - j - n) * 2 ^ (8 - n)
      = (x % 2 ^ (8 - j) * 2 ^ (j + n - 8) + y / 2 ^ (16 - j - n)) * 2 ^ (8 - n) := by
    rw [Nat.add_mul, Nat.mul_assoc, two_pow_split (j + n - 8) (8 - n) j (by omega)]
  have hlt : x % 2 ^ (8 - j) * 2 ^ j + y / 2 ^ (16 - j - n) * 2 ^ (8 - n) < 256 := by
    calc x % 2 ^ (8 - j) * 2 ^ j + y / 2 ^ (16 - j - n) * 2 ^ (8 - n)
          < (x % 2 ^ (8 - j) + 1) * 2 ^ j := by rw [Nat.add_mul]; omega
      _ ≤ 2 ^ (8 - j) * 2 ^ j := Nat.mul_le_mul_right _ hx1
      _ = 256 := e2.symm
  rw [sarChar_mask _ hlt _ (by omega), Nat.shiftRight_eq_div_pow, hsum,
    Nat.mul_div_cancel _ (by positivity)]

theorem allBits_split (data : List Nat) (i : Nat) (hi : i < data.length) :
    allBits data = allBits (data.take i) ++ (bitsOf 8 (data.getD i 0) ++ allBits (data.drop (i + 1))) := by
  conv_lhs => rw [← List.take_append_drop i data]
  rw [allBits_append, List.drop_eq_getElem_cons hi, allBits_cons]
  simp [List.getD_eq_getElem?_getD, List.getElem?_eq_getElem hi]

theorem drop_allBits (data : List Nat) (off : Nat) (hi : off / 8 < data.length) :
    (allBits data).drop off
      = (bitsOf 8 (data.getD (off / 8) 0)).drop (off % 8) ++ allBits (data.drop (off / 8 + 1)) := by
  have hlen : (allBits (data.take (off / 8))).length = 8 * (off / 8) := by
    rw [allBits_length, List.length_take]; congr 1; omega
  rw [allBits_split data (off / 8) hi, List.drop_append_eq_append_drop,
    List.drop_eq_nil_of_le (by rw [hlen]; omega), hlen, List.nil_append,
    List.drop_append_of_le_length (by rw [bitsOf_length]; omega)]
  congr 2; omega

theorem read_spec (s : ByteStream) (off n : Nat) (hb : ∀ b ∈ s.data, b < 256)
    (h1 : 1 ≤ n) (h8 : n ≤ 8) (hr : off + n ≤ 8 * s.data.length) :
    s.read (off : Int) n = some (natOfBits (((allBits s.data).drop off).take n)) := by
  have hi : off / 8 < s.data.length := by omega
  have hj : off % 8 < 8 := Nat.mod_lt _ (by norm_num)
  have hget : ∀ k, k < s.data.length → s.data.getD k 0 < 256 := by
    intro k hk
    apply hb
    rw [List.getD_eq_getElem?_getD, List.getElem?_eq_getElem hk]
    exact List.getElem_mem hk
  have hx := hget _ hi
  rw [drop_allBits _ _ hi]
  have c1 : ¬ n < 1 := by omega
  have c2 : ¬ ¬ n ≤ 8 := by omega
  have c3 : ¬ ((off : Int) < 0) := by omega
  have c4 : ¬ ¬ s.data.length > off / 8 := by simp; exact hi
  simp only [ByteStream.read, c1, c2, c3, c4, if_false, Int.toNat_ofNat]
  by_cases hfit : off % 8 + n ≤ 8
  · have c5 : (8 : Int) - ((n : Int) + ((off % 8 : Nat) : Int)) ≥ 0 := by omega
    have c6 : ((8 : Int) - ((n : Int) + ((off % 8 : Nat) : Int))).toNat = 8 - off % 8 - n := by
      omega
    simp only [c5, c6, if_true, Option.map_some']
    rw [read_in_byte _ _ _ hx h1 hfit,
      List.take_append_of_le_length (by rw [List.length_drop, bitsOf_length]; omega),
      take_drop_bitsOf 8 (off % 8) n (8 - off % 8 - n) _ (by omega), natOfBits_bitsOf]
  · have c5 : ¬ ((8 : Int) - ((n : Int) + ((off % 8 : Nat) : Int)) ≥ 0) := by omega
    have c6 : ((8 : Int) + ((8 : Int) - ((n : Int) + ((off % 8 : Nat) : Int)))).toNat
        = 16 - off % 8 - n := by omega
    have hi2 : off / 8 + 1 < s.data.length := by omega
    have c7 : ¬ ¬ s.data.length > off / 8 + 1 := by simp; exact hi2
    have hy := hget _ hi2
    simp only [c5, c6, c7, if_false, Option.map_some']
    rw [read_two_bytes _ _ _ _ hx hy hj h8 (by omega)]
    have hd : (bitsOf 8 (s.data.getD (off / 8) 0)).drop (off % 8)
        = bitsOf (8 - off % 8) (s.data.getD (off / 8) 0) := drop_bitsOf 8 _ _ _ (by omega)
    have hnext : allBits (s.data.drop (off / 8 + 1))
        = bitsOf 8 (s.data.getD (off / 8 + 1) 0) ++ allBits (s.data.drop (off / 8 + 1 + 1)) := by
      rw [List.drop_eq_getElem_cons hi2, allBits_cons]
      simp [List.getD_eq_getElem?_getD, List.getElem?_eq_getElem hi2]
    rw [hd, hnext, ← List.append_assoc, List.take_append_of_le_length
        (by rw [List.length_append, bitsOf_length, bitsOf_length]; omega),
      List.take_append_eq_append_take, bitsOf_length,
      List.take_of_length_le (by rw [bitsOf_length]; omega),
      take_bitsOf 8 (n - (8 - off % 8)) (16 - off % 8 - n) _ (by omega),
      natOfBits_append, natOfBits_bitsOf, natOfBits_bitsOf, bitsOf_length]
    have e1 : n - (8 - off % 8) = off % 8 + n - 8 := by omega
    rw [e1]
    congr 2
    symm
    apply Nat.mod_eq_of_lt
    rw [Nat.div_lt_iff_lt_mul (by positivity), two_pow_split _ _ 8 (by omega)]
    exact hy

theorem Holds.clear (s : ByteStream) : Holds s.clear [] := by
  refine ⟨rfl, ?_, rfl⟩
  intro b hb
  simp [ByteStream.clear] at hb

theorem Holds.size {s : ByteStream} {bs : List Bool} (h : Holds s bs) :
    8 * s.data.length = bs.length + padLen bs.length := by
  have := congrArg List.length h.2.2
  simpa [allBits_length] using this

theorem callBits_cons (c : Nat × Nat) (rest : List (Nat × Nat)) :
    callBits (c :: rest) = bitsOf c.2 c.1 ++ callBits rest := by
  simp [callBits]

theorem callBits_append (a b : List (Nat × Nat)) :
    callBits (a ++ b) = callBits a ++ callBits b := by
  simp [callBits]

theorem callBits_length (calls : List (Nat × Nat)) :
    (callBits calls).length = (calls.map (·.2)).sum := by
  induction calls with
  | nil => rfl
  | cons c rest ih => simp [callBits_cons, bitsOf_length, ih]

theorem putAll_holds (calls : List (Nat × Nat)) :
    ∀ (s : ByteStream) (bs : List Bool), Holds s bs →
      (∀ c ∈ calls, 1 ≤ c.2 ∧ c.2 ≤ 8) →
      ∃ s', putAll calls s = some s' ∧ Holds s' (bs ++ callBits calls) ∧
        s'.byteFrequency = s.byteFrequency ∧ s'.byteProbability = s.byteProbability ∧
        s'.bytesChanged = s.bytesChanged := by
  induction calls with
  | nil =>
    intro s bs h _
    exact ⟨s, rfl, by simpa [callBits] using h, rfl, rfl, rfl⟩
  | cons c rest ih =>
    intro s bs h hc
    obtain ⟨s1, e1, h1, f1, p1, d1⟩ :=
      h.put c.1 c.2 (hc c (List.mem_cons_self _ _)).1 (hc c (List.mem_cons_self _ _)).2
    obtain ⟨s2, e2, h2, f2, p2, d2⟩ :=
      ih s1 _ h1 (fun x hx => hc x (List.mem_cons_of_mem _ hx))
    refine ⟨s2, ?_, ?_, f2.trans f1, p2.trans p1, d2.trans d1⟩
    · simp [putAll, e1, e2]
    · rw [callBits_cons, ← List.append_assoc]; exact h2

/-- Reading inside the valid bits of a buffer returns the number they write. -/
theorem Holds.read {s : ByteStream} {bs : List Bool} (h : Holds s bs) (off n : Nat)
    (h1 : 1 ≤ n) (h8 : n ≤ 8) (hr : off + n ≤ bs.length) :
    s.read (off : Int) n = some (natOfBits ((bs.drop off).take n)) := by
  have hsz := h.size
  rw [read_spec s off n h.2.1 h1 h8 (by omega), h.2.2,
    List.drop_append_of_le_length (by omega),
    List.take_append_of_le_length (by rw [List.length_drop]; omega)]

theorem Holds.empty (s : ByteStream) (hdata : s.data = []) (hbit : s.nextBit = 0) :
    Holds s [] := by
  refine ⟨by rw [hbit]; rfl, ?_, by rw [hdata]; rfl⟩
  intro b hb
  rw [hdata] at hb
  cases hb

theorem put_read_inverse_aux (s0 : ByteStream) (calls : List (Nat × Nat))
    (h0 : Holds s0 []) (hn : ∀ c ∈ calls, 1 ≤ c.2 ∧ c.2 ≤ 8) :
    ∃ s, putAll calls s0 = some s ∧
      ∀ i (hi : i < calls.length),
        s.read (bitOffset calls i : Int) (calls[i]).2 = some ((calls[i]).1 % 2 ^ (calls[i]).2) := by
  obtain ⟨s, e, h, -⟩ := putAll_holds calls s0 [] h0 hn
  refine ⟨s, e, ?_⟩
  intro i hi
  rw [List.nil_append] at h
  have hsplit : calls = calls.take i ++ calls[i] :: calls.drop (i + 1) := by
    rw [← List.drop_eq_getElem_cons hi, List.take_append_drop]
  have hbits : callBits calls = callBits (calls.take i)
      ++ (bitsOf (calls[i]).2 (calls[i]).1 ++ callBits (calls.drop (i + 1))) := by
    conv_lhs => rw [hsplit]
    rw [callBits_append, callBits_cons]
  have hoff : bitOffset calls i = (callBits (calls.take i)).length := by
    rw [callBits_length]; rfl
  have hmem := hn _ (List.getElem_mem hi)
  rw [h.read _ _ hmem.1 hmem.2
    (by rw [hbits, hoff]; simp only [List.length_append, bitsOf_length]; omega),
    hbits, hoff, List.drop_left, List.take_left' (bitsOf_length _ _), natOfBits_bitsOf]

theorem codeBits_length (map : encoding_map) (c : Nat) :
    (codeBits map c).length = codeLen map c := by
  unfold codeBits codeLen
  cases h : map c with
  | none => rfl
  | some p => obtain ⟨cw, len⟩ := p; simp [bitsOf_length]

theorem encodeByte_holds (map : encoding_map) (c cw len : Nat) (hm : map c = some (cw, len))
    (h1 : 1 ≤ len) (h16 : len ≤ 16) (out : ByteStream) (bs : List Bool) (h : Holds out bs) :
    ∃ out', encodeByte map out c = some out' ∧ Holds out' (bs ++ codeBits map c) := by
  have hcb : codeBits map c = bitsOf len cw := by simp [codeBits, hm]
  rw [hcb]
  by_cases hl : len > 8
  · obtain ⟨o1, e1, h1', -⟩ := h.put ((cw >>> 8) &&& 0xFF) (len - 8) (by omega) (by omega)
    obtain ⟨o2, e2, h2', -⟩ := h1'.put (cw &&& 0xFF) 8 (by omega) (by omega)
    refine ⟨o2, ?_, ?_⟩
    · simp [encodeByte, hm, hl, e1, e2]
    · have : bitsOf len cw = bitsOf (len - 8) ((cw >>> 8) &&& 0xFF) ++ bitsOf 8 (cw &&& 0xFF) := by
        rw [bitsOf_add_eq len (len - 8) 8 cw (by omega), and_ff, and_ff,
          show (256 : Nat) = 2 ^ 8 from rfl, bitsOf_mod _ _ _ (by omega),
          bitsOf_mod _ _ _ le_rfl, Nat.shiftRight_eq_div_pow]
      rw [this, ← List.append_assoc]
      exact h2'
  · obtain ⟨o1, e1, h1', -⟩ := h.put (cw &&& 0xFF) len h1 (by omega)
    refine ⟨o1, ?_, ?_⟩
    · simp [encodeByte, hm, hl, e1]
    · rw [and_ff, show (256 : Nat) = 2 ^ 8 from rfl, bitsOf_mod _ _ _ (by omega)] at h1'
      exact h1'

theorem encodeLoop_holds (map : encoding_map) (data : List Nat) :
    ∀ (out : ByteStream) (bs : List Bool), Holds out bs →
      (∀ c ∈ data, ∃ cw len, map c = some (cw, len) ∧ 1 ≤ len ∧ len ≤ 16) →
      ∃ out', encodeLoop map data out = some out' ∧
        Holds out' (bs ++ data.flatMap (codeBits map)) := by
  induction data with
  | nil =>
    intro out bs h _
    exact ⟨out, rfl, by simpa using h⟩
  | cons c rest ih =>
    intro out bs h hc
    obtain ⟨cw, len, hm, h1, h16⟩ := hc c (List.mem_cons_self _ _)
    obtain ⟨o1, e1, h1'⟩ := encodeByte_holds map c cw len hm h1 h16 out bs h
    obtain ⟨o2, e2, h2'⟩ := ih o1 _ h1' (fun x hx => hc x (List.mem_cons_of_mem _ hx))
    refine ⟨o2, ?_, ?_⟩
    · simp [encodeLoop, e1, e2]
    · simpa [List.flatMap_cons] using h2'

theorem bytes_changed_data (s : ByteStream) (b : Bool) : (s.bytes_changed b).data = s.data := by
  cases b <;> rfl

theorem bytes_changed_nextBit (s : ByteStream) (b : Bool) :
    (s.bytes_changed b).nextBit = s.nextBit := by
  cases b <;> rfl

theorem Holds.bytes_changed {s : ByteStream} {bs : List Bool} (h : Holds s bs) (b : Bool) :
    Holds (s.bytes_changed b) bs := by
  unfold Holds
  rw [bytes_changed_data, bytes_changed_nextBit]
  exact h

theorem flatMap_codeBits_length (map : encoding_map) (data : List Nat) :
    (data.flatMap (codeBits map)).length = (data.map (codeLen map)).sum := by
  induction data with
  | nil => rfl
  | cons c rest ih => simp [List.flatMap_cons, codeBits_length, ih]

theorem encode_holds (inStream outStream keyStream : ByteStream) (kd : KeyData)
    (hkey : ReadMapFromKeyStream keyStream = some (some kd))
    (hmap : ∀ c ∈ inStream.data, ∃ cw len, kd.map c = some (cw, len) ∧ 1 ≤ len ∧ len ≤ 16) :
    ∃ out, Encode inStream outStream keyStream = some (true, out) ∧
      Holds out (inStream.data.flatMap (codeBits kd.map)) := by
  obtain ⟨o, e, h⟩ := encodeLoop_holds kd.map inStream.data outStream.clear []
    (Holds.clear outStream) hmap
  refine ⟨o.bytes_changed true, ?_, ?_⟩
  · simp [Encode, hkey, e]
  · rw [List.nil_append] at h
    exact h.bytes_changed true

theorem encode_layout_aux (inStream outStream keyStream : ByteStream) (kd : KeyData)
    (hkey : ReadMapFromKeyStream keyStream = some (some kd))
    (hmap : ∀ c ∈ inStream.data, ∃ cw len, kd.map c = some (cw, len) ∧ 1 ≤ len ∧ len ≤ 16) :
    ∃ out, Encode inStream outStream keyStream = some (true, out) ∧
      allBits out.data = inStream.data.flatMap (codeBits kd.map)
        ++ List.replicate (8 * ((((inStream.data.map (codeLen kd.map)).sum) + 7) / 8)
            - (inStream.data.map (codeLen kd.map)).sum) false ∧
      out.size = ((inStream.data.map (codeLen kd.map)).sum + 7) / 8 := by
  obtain ⟨out, e, h⟩ := encode_holds inStream outStream keyStream kd hkey hmap
  have hsz := h.size
  have hall := h.2.2
  rw [flatMap_codeBits_length] at hsz hall
  have hp : padLen (inStream.data.map (codeLen kd.map)).sum
      = 8 * ((((inStream.data.map (codeLen kd.map)).sum) + 7) / 8)
            - (inStream.data.map (codeLen kd.map)).sum := by
    unfold padLen; omega
  refine ⟨out, e, ?_, ?_⟩
  · rw [hall, hp]
  · unfold ByteStream.size
    unfold padLen at hsz
    omega

theorem bump_length (f : List Nat) (i : Nat) : (ByteStream.bump f i).length = f.length := by
  simp [ByteStream.bump]

theorem bump_getD (f : List Nat) (i k : Nat) (hi : i < f.length) :
    (ByteStream.bump f i).getD k 0 = f.getD k 0 + (if k = i then 1 else 0) := by
  unfold ByteStream.bump
  by_cases hk : k = i
  · subst hk
    simp [List.getD_eq_getElem?_getD, List.getElem?_set, hi]
  · have : i ≠ k := fun h => hk h.symm
    simp [List.getD_eq_getElem?_getD, List.getElem?_set, this, hk]

theorem foldl_bump (B : List Nat) (hB : ∀ b ∈ B, b < 256) :
    ∀ (f : List Nat), f.length = 256 → ∀ k,
      ((B.foldl (fun f c => ByteStream.bump f (c &&& 0xFF)) f).getD k 0 = f.getD k 0 + B.count k)
      ∧ (B.foldl (fun f c => ByteStream.bump f (c &&& 0xFF)) f).length = 256 := by
  induction B with
  | nil => intro f hf k; simp [hf]
  | cons c rest ih =>
    intro f hf k
    have hc : c < 256 := hB c (List.mem_cons_self _ _)
    have hcm : c &&& 0xFF = c := by rw [and_ff]; exact Nat.mod_eq_of_lt hc
    simp only [List.foldl_cons, hcm]
    have hl : (ByteStream.bump f c).length = 256 := by rw [bump_length, hf]
    obtain ⟨h1, h2⟩ := ih (fun b hb => hB b (List.mem_cons_of_mem _ hb)) _ hl k
    refine ⟨?_, h2⟩
    rw [h1, bump_getD f c k (by omega), List.count_cons]
    by_cases hk : k = c
    · subst hk; simp; omega
    · have : ¬ (c = k) := fun h => hk h.symm
      simp [hk, this]; 

theorem loaded_data (B : List Nat) : (loaded B).data = B := rfl

theorem loaded_bytesChanged (B : List Nat) : (loaded B).bytesChanged = false := rfl

theorem getD_replicate_zero (n k : Nat) : (List.replicate n 0).getD k 0 = 0 := by
  rw [List.getD_eq_getElem?_getD, List.getElem?_replicate]
  split <;> rfl

theorem loaded_frequency (B : List Nat) (hB : ∀ b ∈ B, b < 256) (k : Nat) :
    (loaded B).byteFrequency.getD k 0 = B.count k := by
  have := (foldl_bump B hB (List.replicate 256 0) (List.length_replicate _ _) k).1
  rw [getD_replicate_zero, Nat.zero_add] at this
  exact this

theorem byte_frequency_some {s : ByteStream} {i : Int} {f : Nat}
    (h : s.byte_frequency i = some f) : 0 ≤ i ∧ i < 256 := by
  unfold ByteStream.byte_frequency at h
  by_cases hc : 0 ≤ i ∧ i < 256
  · exact hc
  · simp [hc] at h

theorem byte_probability_some {s : ByteStream} {i : Int} {f : Nat × Nat}
    (h : s.byte_probability i = some f) : 0 ≤ i ∧ i < 256 := by
  unfold ByteStream.byte_probability at h
  by_cases hc : 0 ≤ i ∧ i < 256
  · exact hc
  · simp [hc] at h

/-- The search of `ceilLog2Aux` returns an exponent that is large enough. -/
theorem ceilLog2Aux_spec (n : Nat) : ∀ (fuel k : Nat), n ≤ 2 ^ (k + fuel) →
    n ≤ 2 ^ ceilLog2Aux n fuel k ∧ k ≤ ceilLog2Aux n fuel k ∧
      ∀ j, k ≤ j → j < ceilLog2Aux n fuel k → 2 ^ j < n := by
  intro fuel
  induction fuel with
  | zero =>
    intro k h
    simp only [ceilLog2Aux]
    exact ⟨by simpa using h, le_rfl, fun j h1 h2 => by omega⟩
  | succ fuel ih =>
    intro k h
    simp only [ceilLog2Aux]
    by_cases hk : n ≤ 2 ^ k
    · rw [if_pos hk]
      exact ⟨hk, le_rfl, fun j h1 h2 => by omega⟩
    · rw [if_neg hk]
      obtain ⟨a, b, c⟩ := ih (k + 1) (by rw [show k + 1 + fuel = k + (fuel + 1) by omega]; exact h)
      refine ⟨a, by omega, ?_⟩
      intro j h1 h2
      by_cases hj : j = k
      · subst hj; omega
      · exact c j (by omega) h2

theorem ceilLog2_spec (n : Nat) :
    n ≤ 2 ^ ceilLog2 n ∧ ∀ j, j < ceilLog2 n → 2 ^ j < n := by
  have h : n ≤ 2 ^ (0 + n) := by rw [Nat.zero_add]; exact Nat.le_of_lt (Nat.lt_two_pow n)
  obtain ⟨a, -, c⟩ := ceilLog2Aux_spec n n 0 h
  exact ⟨a, fun j hj => c j (Nat.zero_le _) hj⟩

theorem ceilLog2_pos (n : Nat) (h : 2 ≤ n) : 1 ≤ ceilLog2 n := by
  by_contra hc
  have h0 : ceilLog2 n = 0 := by omega
  have := (ceilLog2_spec n).1
  rw [h0] at this
  omega

theorem ceilLog2_le (n k : Nat) (h : n ≤ 2 ^ k) : ceilLog2 n ≤ k := by
  by_contra hc
  have := (ceilLog2_spec n).2 k (by omega)
  omega

theorem toChar_natCast (i : Nat) (h : i < 256) : toChar (i : Int) = i := by
  unfold toChar; omega

theorem insertByte_perm (s : ByteStream) (i : Nat) :
    ∀ (ord ord' : List Nat), insertByte s i ord = some ord' →
      ord'.Perm (toChar i :: ord) := by
  intro ord
  induction ord with
  | nil =>
    intro ord' h
    simp only [insertByte, Option.some.injEq] at h
    rw [← h]
  | cons j rest ih =>
    intro ord' h
    simp only [insertByte, Option.bind_eq_bind] at h
    cases hfi : s.byte_frequency (i : Int) with
    | none => simp [hfi] at h
    | some fi =>
      cases hfj : s.byte_frequency (charToInt j) with
      | none => simp [hfi, hfj] at h
      | some fj =>
        simp only [hfi, hfj, Option.some_bind] at h
        by_cases hgt : fi > fj
        · simp only [hgt, if_true, Option.some.injEq] at h
          rw [← h]
        · simp only [hgt, if_false] at h
          cases hr : insertByte s i rest with
          | none => simp [hr] at h
          | some r =>
            simp only [hr, Option.map_some', Option.some.injEq] at h
            rw [← h]
            exact ((ih r hr).cons j).trans (List.Perm.swap _ _ _)

theorem buildOrdering_perm (s : ByteStream) :
    ∀ (is ord ord' : List Nat), (∀ i ∈ is, i < 256) →
      buildOrdering s is ord = some ord' →
      ord'.Perm (is.filter (fun i => decide (0 < s.byteFrequency.getD i 0)) ++ ord) := by
  intro is
  induction is with
  | nil =>
    intro ord ord' _ h
    simp only [buildOrdering, Option.some.injEq] at h
    simp [h]
  | cons i rest ih =>
    intro ord ord' hlt h
    have hi : i < 256 := hlt i (List.mem_cons_self _ _)
    have hrest : ∀ k ∈ rest, k < 256 := fun k hk => hlt k (List.mem_cons_of_mem _ hk)
    simp only [buildOrdering, Option.bind_eq_bind] at h
    cases hf : s.byte_frequency (i : Int) with
    | none => simp [hf] at h
    | some f =>
      simp only [hf, Option.some_bind] at h
      have hfv : f = s.byteFrequency.getD i 0 := by
        unfold ByteStream.byte_frequency at hf
        rw [if_pos ⟨by omega, by omega⟩] at hf
        by_cases hc : s.bytesChanged = true
        · rw [if_pos hc] at hf; cases hf
        · rw [if_neg hc, Int.toNat_ofNat] at hf
          exact (Option.some.inj hf).symm
      by_cases hpos : f > 0
      · simp only [hpos, if_true] at h
        cases hins : insertByte s i ord with
        | none => simp [hins] at h
        | some ord1 =>
          simp only [hins, Option.some_bind] at h
          have h1 := ih ord1 ord' hrest h
          have h2 := insertByte_perm s i ord ord1 hins
          rw [toChar_natCast i hi] at h2
          have hd : decide (0 < s.byteFrequency.getD i 0) = true := by
            rw [← hfv]; simpa using hpos
          rw [List.filter_cons, if_pos hd]
          refine h1.trans ?_
          refine ((List.Perm.append_left _ h2).trans ?_)
          simp only [List.cons_append]
          exact List.perm_middle
      · simp only [hpos, if_false] at h
        have h1 := ih ord ord' hrest h
        have hd : ¬ (decide (0 < s.byteFrequency.getD i 0) = true) := by
          rw [← hfv]; simpa using hpos
        rw [List.filter_cons, if_neg hd]
        exact h1

theorem walkTarget_split (A : Arith) (s : ByteStream) (tf : A.F) :
    ∀ (l : List Nat) (acc : A.F) (cnt : Nat) (it : List Nat) (acc' : A.F) (cnt' : Nat),
      walkTarget A s tf l acc cnt = some (it, acc', cnt') →
      ∃ walked, l = walked ++ it ∧ cnt' = cnt + walked.length ∧
        (∀ c ∈ walked, c < 256 → c < 128) ∧
        (l ≠ [] → A.lt acc tf = true → walked ≠ []) := by
  intro l
  induction l with
  | nil =>
    intro acc cnt it acc' cnt' h
    simp only [walkTarget, Option.some.injEq, Prod.mk.injEq] at h
    obtain ⟨h1, -, h3⟩ := h
    exact ⟨[], by simp [h1], by simp [h3], by simp, fun hne => absurd rfl hne⟩
  | cons c rest ih =>
    intro acc cnt it acc' cnt' h
    simp only [walkTarget] at h
    by_cases hlt : A.lt acc tf = true
    · simp only [hlt, if_true, Option.bind_eq_bind] at h
      cases hp : s.byte_probability (charToInt c) with
      | none => simp [hp] at h
      | some p =>
        simp only [hp, Option.some_bind] at h
        obtain ⟨w, e1, e2, e3, -⟩ := ih _ _ _ _ _ h
        refine ⟨c :: w, by simp [e1], by simp [e2]; omega, ?_, fun _ _ => by simp⟩
        intro x hx hx256
        rcases List.mem_cons.1 hx with rfl | hx
        · have := (byte_probability_some hp).1
          unfold charToInt at this
          by_contra hc
          rw [if_neg hc] at this
          omega
        · exact e3 x hx hx256
    · rw [if_neg hlt] at h
      cases h
      exact ⟨[], by simp, by simp, by simp, fun _ hc => absurd hc hlt⟩

theorem walkExtra_split (A : Arith) (s : ByteStream) :
    ∀ (extra : Nat) (l : List Nat) (acc : A.F) (cnt : Nat) (it : List Nat) (acc' : A.F)
      (cnt' : Nat),
      walkExtra A s extra l acc cnt = some (it, acc', cnt') →
      ∃ walked, l = walked ++ it ∧ cnt' = cnt + walked.length ∧
        (walked.length = extra ∨ it = []) ∧ walked.length ≤ extra ∧
        (∀ c ∈ walked, c < 256 → c < 128) := by
  intro extra
  induction extra with
  | zero =>
    intro l acc cnt it acc' cnt' h
    simp only [walkExtra, Option.some.injEq, Prod.mk.injEq] at h
    obtain ⟨h1, -, h3⟩ := h
    exact ⟨[], by simp [h1], by simp [h3], Or.inl rfl, le_rfl, by simp⟩
  | succ extra ih =>
    intro l acc cnt it acc' cnt' h
    cases l with
    | nil =>
      simp only [walkExtra, Option.some.injEq, Prod.mk.injEq] at h
      obtain ⟨h1, -, h3⟩ := h
      exact ⟨[], by simp [h1], by simp [h3], Or.inr h1.symm, Nat.zero_le _, by simp⟩
    | cons c rest =>
      simp only [walkExtra, Option.bind_eq_bind] at h
      cases hp : s.byte_probability (charToInt c) with
      | none => simp [hp] at h
      | some p =>
        simp only [hp, Option.some_bind] at h
        obtain ⟨w, e1, e2, e3, e4, e5⟩ := ih _ _ _ _ _ _ h
        refine ⟨c :: w, by simp [e1], by simp [e2]; omega, ?_, by simp; omega, ?_⟩
        · rcases e3 with e3 | e3
          · left; simp [e3]
          · right; exact e3
        · intro x hx hx256
          rcases List.mem_cons.1 hx with rfl | hx
          · have := (byte_probability_some hp).1
            unfold charToInt at this
            by_contra hc
            rw [if_neg hc] at this
            omega
          · exact e5 x hx hx256

theorem targetBits_spec (count : Nat) (hc : count ≤ 256) :
    ∃ b : Nat, targetBits count = (b : Int) ∧ 1 ≤ b ∧ b ≤ 9 ∧ (1 ≤ count → 2 ≤ b) ∧
      count + 1 ≤ 2 ^ b := by
  have hspec := ceilLog2_spec (count + 1)
  have hc9 : ceilLog2 (count + 1) ≤ 9 := ceilLog2_le _ 9 (by norm_num; omega)
  unfold targetBits
  by_cases h : ceilLog2 (count + 1) < 2
  · refine ⟨ceilLog2 (count + 1) + 1, ?_, by omega, by omega, ?_, ?_⟩
    · simp only
      rw [if_pos (by omega)]; push_cast; rfl
    · intro h1
      have := ceilLog2_pos (count + 1) (by omega)
      omega
    · exact le_trans hspec.1 (Nat.pow_le_pow_right (by norm_num) (by omega))
  · refine ⟨ceilLog2 (count + 1), ?_, by omega, hc9, fun _ => by omega, hspec.1⟩
    simp only
    rw [if_neg (by omega)]

theorem extraCharacters_nat (b count : Nat) :
    extraCharacters (b : Int) count = ((2 ^ b : Nat) : Int) - (count : Int) - 1 := by
  unfold extraCharacters
  rw [Int.toNat_ofNat]
  push_cast
  rfl

theorem foldSingle_spec (s : ByteStream) (M b : Nat) (it : List Nat) (count count3 : Nat)
    (h : foldSingle s (M : Int) (b : Int) it count = some count3) :
    (M = 2 ^ b ∧ it ≠ [] ∧ count3 = count + 1) ∨ (M ≠ 2 ^ b ∧ count3 = count) := by
  unfold foldSingle at h
  rw [extraCharacters_nat] at h
  by_cases hc : M = 2 ^ b
  · left
    have hcond : (M : Int) - ((count : Int) + (((2 ^ b : Nat) : Int) - (count : Int) - 1)) = 1 := by
      omega
    rw [if_pos hcond] at h
    cases it with
    | nil => cases h
    | cons c tail =>
      simp only [Option.bind_eq_bind] at h
      cases hp : s.byte_probability (charToInt c) with
      | none => simp [hp] at h
      | some pr =>
        simp only [hp, Option.some_bind, Option.pure_def, Option.some.injEq] at h
        exact ⟨hc, by simp, h.symm⟩
  · right
    have hcond : ¬ ((M : Int) - ((count : Int) + (((2 ^ b : Nat) : Int) - (count : Int) - 1))
        = 1) := by omega
    rw [if_neg hcond] at h
    simp only [Option.pure_def, Option.some.injEq] at h
    exact ⟨hc, h.symm⟩

theorem remainingBits_spec (M b K : Nat) :
    remainingBits (M : Int) (b : Int) K
      = if K < M then (b : Int) + (ceilLog2 (M - K) : Int) else 0 := by
  unfold remainingBits
  simp only
  by_cases h : K < M
  · have h1 : (M : Int) - (K : Int) > 0 := by omega
    have h2 : ((M : Int) - (K : Int)).toNat = M - K := by omega
    rw [if_pos h1, if_pos h, h2]
  · have h1 : ¬ ((M : Int) - (K : Int) > 0) := by omega
    rw [if_neg h1, if_neg h]

theorem planKey_shape (A : Arith) (tf : A.F) (s : ByteStream) (p : Plan)
    (h : planKey A tf s = some p) :
    ∃ M K b, PlanShape p M K b ∧ (A.lt A.zero tf = true → 2 ≤ b) ∧
      p.ordering.Perm ((List.range 256).filter
        (fun i => decide (0 < s.byteFrequency.getD i 0))) ∧
      ∃ w rest, p.ordering = w ++ rest ∧ (∀ c ∈ w, c < 256 → c < 128) ∧
        (rest = [] ∨ w.length + 1 = 2 ^ b) := by
  unfold planKey at h
  simp only [Option.bind_eq_bind] at h
  cases hord : buildOrdering s (List.range 256) [] with
  | none => simp [hord] at h
  | some ordering =>
    simp only [hord, Option.some_bind] at h
    have hperm := buildOrdering_perm s (List.range 256) [] ordering
      (fun i hi => List.mem_range.1 hi) hord
    rw [List.append_nil] at hperm
    by_cases hz : (ordering.length : Int) = 0
    · simp [hz] at h
    · simp only [hz, if_false] at h
      have hne : ordering ≠ [] := by
        intro h0; apply hz; simp [h0]
      have hMpos : 1 ≤ ordering.length := by
        cases ordering with
        | nil => exact absurd rfl hne
        | cons _ _ => simp
      have hMle : ordering.length ≤ 256 := by
        rw [hperm.length_eq]
        exact le_trans (List.length_filter_le _ _) (by simp)
      cases hw : walkTarget A s tf ordering A.zero 0 with
      | none => simp [hw] at h
      | some r1 =>
        obtain ⟨it1, fraction1, count1⟩ := r1
        simp only [hw, Option.some_bind] at h
        obtain ⟨w1, e1, c1, low1, n1⟩ := walkTarget_split A s tf _ _ _ _ _ _ hw
        simp only [Nat.zero_add] at c1
        have hM : ordering.length = count1 + it1.length := by
          rw [e1, List.length_append, c1]
        obtain ⟨b, hb, hb1, hb9, hb2, hbc⟩ := targetBits_spec count1 (by omega)
        rw [hb, extraCharacters_nat] at h
        have hpow : (((2 ^ b : Nat) : Int) - (count1 : Int) - 1).toNat = 2 ^ b - count1 - 1 := by
          omega
        rw [hpow] at h
        cases hx : walkExtra A s (2 ^ b - count1 - 1) it1 fraction1 count1 with
        | none => simp [hx] at h
        | some r2 =>
          obtain ⟨it2, fraction2, count2⟩ := r2
          simp only [hx, Option.some_bind] at h
          obtain ⟨w2, e2, c2, d2, l2, low2⟩ := walkExtra_split A s _ _ _ _ _ _ _ hx
          have hM2 : ordering.length = count2 + it2.length := by
            rw [hM, e2, List.length_append, c2]; omega
          have hlow : ∀ c ∈ w1 ++ w2, c < 256 → c < 128 := by
            intro c hc
            rcases List.mem_append.1 hc with hc | hc
            · exact low1 c hc
            · exact low2 c hc
          have hsplit : ordering = (w1 ++ w2) ++ it2 := by
            rw [e1, e2, List.append_assoc]
          have hwl : (w1 ++ w2).length = count2 := by
            rw [List.length_append, c2, c1]
          have hb2' : A.lt A.zero tf = true → 2 ≤ b := by
            intro hlt
            apply hb2
            have := n1 hne hlt
            rw [c1]
            cases w1 with
            | nil => exact absurd rfl this
            | cons _ _ => simp
          cases hf : foldSingle s (ordering.length : Int) (b : Int) it2 count2 with
          | none => simp [hf] at h
          | some count3 =>
            simp only [hf, Option.some_bind, Option.pure_def, Option.some.injEq] at h
            subst h
            have hrem := remainingBits_spec ordering.length b count3
            rcases foldSingle_spec s _ _ _ _ _ hf with ⟨f1, f2, f3⟩ | ⟨f1, f3⟩
            · -- a single leftover byte is folded into the short tier
              have hlen2 : w2.length = 2 ^ b - count1 - 1 := by
                rcases d2 with d2 | d2
                · exact d2
                · exact absurd d2 f2
              have hK : count3 = ordering.length := by omega
              refine ⟨ordering.length, count3, b,
                ⟨rfl, rfl, rfl, rfl, hMpos, hMle, hb1, hb9, Or.inl ⟨hK, by omega, ?_⟩⟩,
                hb2', hperm, w1 ++ w2, it2, hsplit, hlow, Or.inr (by omega)⟩
              simp only
              rw [hrem, if_neg (by omega)]
            · by_cases hit : it2 = []
              · subst hit
                simp only [List.length_nil, Nat.add_zero] at hM2
                refine ⟨ordering.length, count3, b,
                  ⟨rfl, rfl, rfl, rfl, hMpos, hMle, hb1, hb9, Or.inl ⟨by omega, by omega, ?_⟩⟩,
                  hb2', hperm, w1 ++ w2, [], hsplit, hlow, Or.inl rfl⟩
                simp only
                rw [hrem, if_neg (by omega)]
              · have hlen2 : w2.length = 2 ^ b - count1 - 1 := by
                  rcases d2 with d2 | d2
                  · exact d2
                  · exact absurd d2 hit
                have hit1 : 1 ≤ it2.length := by
                  cases it2 with
                  | nil => exact absurd rfl hit
                  | cons _ _ => simp
                refine ⟨ordering.length, count3, b,
                  ⟨rfl, rfl, rfl, rfl, hMpos, hMle, hb1, hb9, Or.inr ⟨by omega, by omega, ?_⟩⟩,
                  hb2', hperm, w1 ++ w2, it2, hsplit, hlow, Or.inr (by omega)⟩
                simp only
                rw [hrem, if_pos (by omega)]

theorem put_some_bits {s s' : ByteStream} {d n : Nat} (h : s.put d n = some s') :
    1 ≤ n ∧ n ≤ 8 := by
  unfold ByteStream.put ByteStream.putAux at h
  by_cases hc : n ≤ 8 ∧ n > 0
  · omega
  · rw [if_pos hc] at h; cases h

theorem Holds.put_eq {s s' : ByteStream} {bs : List Bool} (h : Holds s bs) {d n : Nat}
    (e : s.put d n = some s') :
    Holds s' (bs ++ bitsOf n d) ∧ 1 ≤ n ∧ n ≤ 8 := by
  have hb := put_some_bits e
  obtain ⟨s'', e', h', -⟩ := h.put d n hb.1 hb.2
  rw [e] at e'
  cases e'
  exact ⟨h', hb⟩

theorem bitsOf_toChar (n : Nat) (i : Nat) (h : n ≤ 8) :
    bitsOf n (toChar (i : Int)) = bitsOf n i := by
  have : toChar (i : Int) = i % 2 ^ 8 := by unfold toChar; omega
  rw [this, bitsOf_mod _ _ _ h]

theorem writeShortWords_holds (bits : Int) :
    ∀ (count i : Nat) (n : List Nat) (ks : ByteStream) (bs : List Bool) (n' : List Nat)
      (ks' : ByteStream), Holds ks bs →
      writeShortWords bits count (i : Int) n ks = some (n', ks') →
      count ≤ n.length ∧ n' = n.drop count ∧
        Holds ks' (bs ++ (shortEntries (toUShort bits) count i n).flatMap entryBits) ∧
        (0 < count → 1 ≤ toUShort bits ∧ toUShort bits ≤ 8) := by
  intro count
  induction count with
  | zero =>
    intro i n ks bs n' ks' h e
    simp only [writeShortWords, Option.some.injEq, Prod.mk.injEq] at e
    obtain ⟨e1, e2⟩ := e
    subst e1 e2
    exact ⟨Nat.zero_le _, rfl, by simpa [shortEntries] using h, fun hc => absurd hc (by omega)⟩
  | succ count ih =>
    intro i n ks bs n' ks' h e
    cases n with
    | nil => simp [writeShortWords] at e
    | cons c n =>
      simp only [writeShortWords, Option.bind_eq_bind] at e
      cases e1 : ks.put c 8 with
      | none => simp [e1] at e
      | some k1 =>
        simp only [e1, Option.some_bind] at e
        cases e2 : k1.put (toChar (i : Int)) (toUShort bits) with
        | none => simp [e2] at e
        | some k2 =>
          simp only [e2, Option.some_bind] at e
          obtain ⟨h1, -⟩ := h.put_eq e1
          obtain ⟨h2, b1, b8⟩ := h1.put_eq e2
          have e' : writeShortWords bits count ((i + 1 : Nat) : Int) n k2 = some (n', ks') := by
            push_cast; exact e
          obtain ⟨r1, r2, r3, -⟩ := ih (i + 1) n k2 _ n' ks' h2 e'
          refine ⟨by simp; omega, by simp [r2], ?_, fun _ => ⟨b1, b8⟩⟩
          have : entryBits (c, i % 2 ^ toUShort bits, toUShort bits)
              = bitsOf 8 c ++ bitsOf (toUShort bits) (toChar (i : Int)) := by
            simp only [entryBits]
            rw [bitsOf_toChar _ _ b8, bitsOf_mod _ _ _ le_rfl]
          simp only [shortEntries, List.flatMap_cons, this]
          simpa [List.append_assoc] using r3

theorem writeLongWords_holds (i : Nat) (bits_short bits_long : Int) :
    ∀ (count j : Nat) (n : List Nat) (ks : ByteStream) (bs : List Bool) (ks' : ByteStream),
      Holds ks bs →
      (0 < count →
        toUShort (bits_long - bits_short) = toUShort bits_long - toUShort bits_short) →
      writeLongWords (i : Int) bits_short bits_long count (j : Int) n ks = some ks' →
      count ≤ n.length ∧
        Holds ks' (bs ++ (longEntries i (toUShort bits_short) (toUShort bits_long) count j n).flatMap
          entryBits) ∧
        (0 < count → 1 ≤ toUShort bits_short ∧ toUShort bits_short ≤ 8 ∧
          1 ≤ toUShort (bits_long - bits_short) ∧ toUShort (bits_long - bits_short) ≤ 8) := by
  intro count
  induction count with
  | zero =>
    intro j n ks bs ks' h _ e
    simp only [writeLongWords, Option.some.injEq] at e
    subst e
    exact ⟨Nat.zero_le _, by simpa [longEntries] using h, fun hc => absurd hc (by omega)⟩
  | succ count ih =>
    intro j n ks bs ks' h hd0 e
    have hd := hd0 (Nat.succ_pos _)
    cases n with
    | nil => simp [writeLongWords] at e
    | cons c n =>
      simp only [writeLongWords, Option.bind_eq_bind] at e
      cases e1 : ks.put c 8 with
      | none => simp [e1] at e
      | some k1 =>
        simp only [e1, Option.some_bind] at e
        cases e2 : k1.put (toChar (i : Int)) (toUShort bits_short) with
        | none => simp [e2] at e
        | some k2 =>
          simp only [e2, Option.some_bind] at e
          cases e3 : k2.put (toChar (j : Int)) (toUShort (bits_long - bits_short)) with
          | none => simp [e3] at e
          | some k3 =>
            simp only [e3, Option.some_bind] at e
            obtain ⟨h1, -⟩ := h.put_eq e1
            obtain ⟨h2, b1, b8⟩ := h1.put_eq e2
            obtain ⟨h3, d1, d8⟩ := h2.put_eq e3
            have e' : writeLongWords (i : Int) bits_short bits_long count ((j + 1 : Nat) : Int)
                n k3 = some ks' := by
              push_cast; exact e
            obtain ⟨r1, r3, -⟩ := ih (j + 1) n k3 _ ks' h3 (fun _ => hd) e'
            refine ⟨by simp; omega, ?_, fun _ => ⟨b1, b8, d1, d8⟩⟩
            have hlt : j % 2 ^ (toUShort bits_long - toUShort bits_short)
                < 2 ^ (toUShort bits_long - toUShort bits_short) := Nat.mod_lt _ (by positivity)
            have : entryBits (c, i % 2 ^ toUShort bits_short
                  * 2 ^ (toUShort bits_long - toUShort bits_short)
                  + j % 2 ^ (toUShort bits_long - toUShort bits_short), toUShort bits_long)
                = bitsOf 8 c ++ bitsOf (toUShort bits_short) (toChar (i : Int))
                  ++ bitsOf (toUShort (bits_long - bits_short)) (toChar (j : Int)) := by
              simp only [entryBits]
              rw [bitsOf_cat_eq (toUShort bits_long) (toUShort bits_short)
                  (toUShort bits_long - toUShort bits_short) _ _ (by omega) hlt,
                bitsOf_mod _ _ _ le_rfl, bitsOf_mod _ _ _ le_rfl, hd,
                bitsOf_toChar _ _ b8, bitsOf_toChar _ _ (by omega), List.append_assoc]
            simp only [longEntries, List.flatMap_cons, this]
            simpa [List.append_assoc] using r3

theorem toUShort_natCast (n : Nat) (h : n < 65536) : toUShort (n : Int) = n := by
  unfold toUShort; omega

/-- Numeric facts about a plan, gathered for the serialisation proofs. -/
theorem PlanShape.long_bits {p : Plan} {M K b : Nat} (h : PlanShape p M K b) :
    ∃ l : Nat, p.bits_per_remaining_characters = (l : Int) ∧ l ≤ 18 ∧
      ((K = M ∧ l = 0) ∨ (K + 2 ≤ M ∧ K + 1 = 2 ^ b ∧ l = b + ceilLog2 (M - K) ∧
        1 ≤ ceilLog2 (M - K) ∧ M - K ≤ 2 ^ ceilLog2 (M - K))) := by
  rcases h.tiers with ⟨h1, -, h3⟩ | ⟨h1, h2, h3⟩
  · exact ⟨0, by simpa using h3, by omega, Or.inl ⟨h1, rfl⟩⟩
  · have hle : ceilLog2 (M - K) ≤ 8 := ceilLog2_le _ 8 (by have := h.M_le; norm_num; omega)
    have hb := h.b_le
    exact ⟨b + ceilLog2 (M - K), by rw [h3]; push_cast; rfl, by omega,
      Or.inr ⟨h1, h2, rfl, ceilLog2_pos _ (by omega), (ceilLog2_spec _).1⟩⟩

theorem writeKey_holds (p : Plan) (M K b : Nat) (hs : PlanShape p M K b)
    (ks key : ByteStream) (h : writeKey p ks = some key) :
    Holds key (keyBits p) ∧ b ≤ 8 ∧
      ∀ l : Nat, p.bits_per_remaining_characters = (l : Int) → K < M → 1 ≤ l - b ∧ l - b ≤ 8 := by
  obtain ⟨l, hl, hl18, htier⟩ := hs.long_bits
  have hM := hs.M_pos
  have hK1 : 1 ≤ K := by
    rcases htier with ⟨h1, -⟩ | ⟨-, h2, -⟩
    · omega
    · have : 2 ≤ 2 ^ b := by
        calc 2 = 2 ^ 1 := rfl
          _ ≤ 2 ^ b := Nat.pow_le_pow_right (by norm_num) hs.b_pos
      omega
  have hKM : K ≤ M := by rcases htier with ⟨h1, -⟩ | ⟨h1, -⟩ <;> omega
  unfold writeKey at h
  simp only [Option.bind_eq_bind] at h
  cases e1 : ks.clear.put (toChar p.unique_bytes) 8 with
  | none => simp [e1] at h
  | some k1 =>
    simp only [e1, Option.some_bind] at h
    cases e2 : k1.put (toChar p.unique_upto_target_fraction) 8 with
    | none => simp [e2] at h
    | some k2 =>
      simp only [e2, Option.some_bind] at h
      cases e3 : k2.put (toChar p.bits_per_target_character) 8 with
      | none => simp [e3] at h
      | some k3 =>
        simp only [e3, Option.some_bind] at h
        cases e4 : k3.put (toChar p.bits_per_remaining_characters) 8 with
        | none => simp [e4] at h
        | some k4 =>
          simp only [e4, Option.some_bind] at h
          obtain ⟨h1, -⟩ := (Holds.clear ks).put_eq e1
          obtain ⟨h2, -⟩ := h1.put_eq e2
          obtain ⟨h3, -⟩ := h2.put_eq e3
          obtain ⟨h4, -⟩ := h3.put_eq e4
          have hhead : [] ++ bitsOf 8 (toChar p.unique_bytes)
              ++ bitsOf 8 (toChar p.unique_upto_target_fraction)
              ++ bitsOf 8 (toChar p.bits_per_target_character)
              ++ bitsOf 8 (toChar p.bits_per_remaining_characters) = headerBits p := by
            simp [headerBits]
          rw [hhead] at h4
          rw [hs.upto, hs.bits, hs.unique, hl] at h
          simp only [Int.toNat_ofNat] at h
          cases e5 : writeShortWords (b : Int) K ((0 : Nat) : Int) p.ordering k4 with
          | none =>
            simp only [Nat.cast_zero] at e5
            simp [e5] at h
          | some r =>
            obtain ⟨n, k5⟩ := r
            have e5' := e5
            simp only [Nat.cast_zero] at e5'
            simp only [e5', Option.some_bind] at h
            obtain ⟨s1, s2, s3, s4⟩ := writeShortWords_holds (b : Int) K 0 p.ordering k4 _ n k5 h4 e5
            have hb8 := s4 (by omega)
            have hbu : toUShort (b : Int) = b := toUShort_natCast b (by have := hs.b_le; omega)
            rw [hbu] at hb8 s3
            have hlu : toUShort (l : Int) = l := toUShort_natCast l (by omega)
            have hd : 0 < M - K →
                toUShort ((l : Int) - (b : Int)) = toUShort (l : Int) - toUShort (b : Int) := by
              intro hpos
              rw [hbu, hlu]
              rcases htier with ⟨h2, -⟩ | ⟨-, -, h2, -⟩
              · omega
              · unfold toUShort; omega
            have hcnt : ((M : Int) - (K : Int)).toNat = M - K := by omega
            rw [hcnt] at h
            have h' : writeLongWords (K : Int) (b : Int) (l : Int) (M - K) ((0 : Nat) : Int) n k5
                = some key := by
              simp only [Nat.cast_zero]; exact h
            obtain ⟨t1, t2, t3⟩ := writeLongWords_holds K (b : Int) (l : Int) (M - K) 0 n k5 _ key
              s3 hd h'
            rw [hbu, hlu, s2] at t2
            refine ⟨?_, hb8.2, ?_⟩
            · have hcb : keyBits p = headerBits p
                  ++ (shortEntries b K 0 p.ordering).flatMap entryBits
                  ++ (longEntries K b l (M - K) 0 (p.ordering.drop K)).flatMap entryBits := by
                simp only [keyBits, codebook, hs.upto, hs.bits, hs.unique, hl, Int.toNat_ofNat,
                  hcnt, List.flatMap_append, List.append_assoc]
              rw [hcb]
              exact t2
            · intro l' hl' hlt
              have : l' = l := by
                have := hl.symm.trans hl'
                exact_mod_cast this.symm
              subst this
              have := t3 (by omega)
              rw [hd (by omega), hbu, hlu] at this
              omega

theorem shortEntries_map_fst (b : Nat) :
    ∀ (count i : Nat) (n : List Nat),
      (shortEntries b count i n).map (·.1) = n.take count := by
  intro count
  induction count with
  | zero => intro i n; simp [shortEntries]
  | succ count ih =>
    intro i n
    cases n with
    | nil => simp [shortEntries]
    | cons c n => simp [shortEntries, ih]

theorem longEntries_map_fst (i b l : Nat) :
    ∀ (count j : Nat) (n : List Nat),
      (longEntries i b l count j n).map (·.1) = n.take count := by
  intro count
  induction count with
  | zero => intro j n; simp [longEntries]
  | succ count ih =>
    intro j n
    cases n with
    | nil => simp [longEntries]
    | cons c n => simp [longEntries, ih]

theorem mem_shortEntries (b : Nat) :
    ∀ (count i : Nat) (n : List Nat) (e : Nat × Nat × Nat),
      e ∈ shortEntries b count i n →
      ∃ k, k < count ∧ n[k]? = some e.1 ∧ e.2 = ((i + k) % 2 ^ b, b) := by
  intro count
  induction count with
  | zero => intro i n e h; simp [shortEntries] at h
  | succ count ih =>
    intro i n e h
    cases n with
    | nil => simp [shortEntries] at h
    | cons c n =>
      simp only [shortEntries, List.mem_cons] at h
      rcases h with rfl | h
      · exact ⟨0, by omega, by simp, by simp⟩
      · obtain ⟨k, h1, h2, h3⟩ := ih (i + 1) n e h
        exact ⟨k + 1, by omega, by simpa using h2, by rw [h3]; congr 2; omega⟩

theorem mem_longEntries (i b l : Nat) :
    ∀ (count j : Nat) (n : List Nat) (e : Nat × Nat × Nat),
      e ∈ longEntries i b l count j n →
      ∃ k, k < count ∧ n[k]? = some e.1 ∧
        e.2 = (i % 2 ^ b * 2 ^ (l - b) + (j + k) % 2 ^ (l - b), l) := by
  intro count
  induction count with
  | zero => intro j n e h; simp [longEntries] at h
  | succ count ih =>
    intro j n e h
    cases n with
    | nil => simp [longEntries] at h
    | cons c n =>
      simp only [longEntries, List.mem_cons] at h
      rcases h with rfl | h
      · exact ⟨0, by omega, by simp, by simp⟩
      · obtain ⟨k, h1, h2, h3⟩ := ih (j + 1) n e h
        exact ⟨k + 1, by omega, by simpa using h2, by rw [h3]; congr 3; omega⟩

/-- An entry of the codebook of a plan with `K` short codewords of `b` bits: either a
short entry with index below `K`, or a long entry made of the escape pattern and an index
below `2 ^ (l - b)`. -/
theorem codebook_entry {p : Plan} {M K b : Nat} (hs : PlanShape p M K b)
    (l : Nat) (hl : p.bits_per_remaining_characters = (l : Int))
    (e : Nat × Nat × Nat) (he : e ∈ codebook p) :
    (∃ i, i < K ∧ p.ordering[i]? = some e.1 ∧ e.2 = (i, b)) ∨
    (∃ j, j < M - K ∧ K + 1 = 2 ^ b ∧ b < l ∧ j < 2 ^ (l - b) ∧
      p.ordering[K + j]? = some e.1 ∧ e.2 = ((2 ^ b - 1) * 2 ^ (l - b) + j, l)) := by
  obtain ⟨l', hl', -, htier⟩ := hs.long_bits
  have hll : l' = l := by
    have := hl'.symm.trans hl
    exact_mod_cast this
  subst hll
  have hcnt : ((M : Int) - (K : Int)).toNat = M - K := by omega
  simp only [codebook, hs.upto, hs.bits, hs.unique, hl, Int.toNat_ofNat, hcnt,
    List.mem_append] at he
  rcases he with he | he
  · left
    obtain ⟨k, h1, h2, h3⟩ := mem_shortEntries b K 0 p.ordering e he
    refine ⟨k, h1, h2, ?_⟩
    rw [h3, Nat.zero_add]
    have hK : K ≤ 2 ^ b := by
      rcases hs.tiers with ⟨-, h, -⟩ | ⟨-, h, -⟩ <;> omega
    rw [Nat.mod_eq_of_lt (by omega)]
  · right
    obtain ⟨k, h1, h2, h3⟩ := mem_longEntries K b l' (M - K) 0 (p.ordering.drop K) e he
    rcases htier with ⟨h, -⟩ | ⟨t1, t2, t3, t4, t5⟩
    · omega
    · have hd : l' - b = ceilLog2 (M - K) := by omega
      have hk : k < 2 ^ (l' - b) := by rw [hd]; omega
      have hpos : 0 < 2 ^ b := by positivity
      refine ⟨k, h1, t2, by omega, hk, ?_, ?_⟩
      · rw [← h2, List.getElem?_drop]
      · rw [h3, Nat.zero_add, Nat.mod_eq_of_lt hk, Nat.mod_eq_of_lt (by omega)]
        congr 3
        omega

theorem codebook_map_fst {p : Plan} {M K b : Nat} (hs : PlanShape p M K b) :
    (codebook p).map (·.1) = p.ordering := by
  have hcnt : ((M : Int) - (K : Int)).toNat = M - K := by omega
  have hKM : K ≤ M := by
    rcases hs.tiers with ⟨h, -⟩ | ⟨h, -⟩ <;> omega
  simp only [codebook, hs.upto, hs.bits, hs.unique, Int.toNat_ofNat, hcnt, List.map_append,
    shortEntries_map_fst, longEntries_map_fst]
  have : List.take (M - K) (List.drop K p.ordering) = List.drop K p.ordering :=
    List.take_of_length_le (by rw [List.length_drop, hs.len])
  rw [this, List.take_append_drop]

theorem ordering_nodup (s : ByteStream) (ord : List Nat)
    (h : ord.Perm ((List.range 256).filter (fun i => decide (0 < s.byteFrequency.getD i 0)))) :
    ord.Nodup :=
  h.nodup_iff.2 ((List.nodup_range 256).filter _)

theorem ordering_mem_loaded (B ord : List Nat) (hB : ∀ b ∈ B, b < 256)
    (h : ord.Perm ((List.range 256).filter
      (fun i => decide (0 < (loaded B).byteFrequency.getD i 0)))) (c : Nat) :
    c ∈ ord ↔ c ∈ B := by
  rw [h.mem_iff, List.mem_filter, List.mem_range, loaded_frequency B hB]
  simp only [decide_eq_true_eq, List.count_pos_iff]
  exact ⟨fun h => h.2, fun h => ⟨hB c h, h⟩⟩

theorem ordering_lt (s : ByteStream) (ord : List Nat)
    (h : ord.Perm ((List.range 256).filter (fun i => decide (0 < s.byteFrequency.getD i 0))))
    (c : Nat) (hc : c ∈ ord) : c < 256 := by
  rw [h.mem_iff, List.mem_filter, List.mem_range] at hc
  exact hc.1

theorem and_ff_of_lt (x : Nat) (h : x < 256) : x &&& 0xFF = x := by
  rw [and_ff]; exact Nat.mod_eq_of_lt h

theorem entryBits_length (e : Nat × Nat × Nat) : (entryBits e).length = 8 + e.2.2 := by
  simp [entryBits, bitsOf_length]

/-- The first loop of the key parser recovers short entries written one after the other. -/
theorem readShortWords_spec (key : ByteStream) (b : Nat) (hb1 : 1 ≤ b) (hb8 : b ≤ 8) :
    ∀ (es : List (Nat × Nat × Nat)) (pre post : List Bool) (map : encoding_map),
      Holds key (pre ++ es.flatMap entryBits ++ post) →
      (∀ e ∈ es, e.1 < 256 ∧ e.2.1 < 2 ^ b ∧ e.2.2 = b) →
      readShortWords key (b : Int) es.length map (pre.length : Int)
        = some (mapOf es map, ((pre ++ es.flatMap entryBits).length : Int)) := by
  intro es
  induction es with
  | nil =>
    intro pre post map _ _
    simp [readShortWords, mapOf]
  | cons e es ih =>
    intro pre post map h he
    obtain ⟨c, cw, len⟩ := e
    obtain ⟨hc, hcw, hlen⟩ := he (c, cw, len) (List.mem_cons_self _ _)
    simp only at hc hcw hlen
    subst hlen
    have hbits : pre ++ ((c, cw, len) :: es).flatMap entryBits ++ post
        = pre ++ (bitsOf 8 c ++ (bitsOf len cw ++ (es.flatMap entryBits ++ post))) := by
      simp [List.flatMap_cons, entryBits, List.append_assoc]
    have hr1 : key.read (pre.length : Int) 8 = some c := by
      rw [h.read _ 8 (by omega) (by omega) (by rw [hbits]; simp only [List.length_append, bitsOf_length]; omega), hbits,
        List.drop_left, List.take_left' (bitsOf_length _ _), natOfBits_bitsOf]
      exact congrArg some (Nat.mod_eq_of_lt hc)
    have hbits2 : pre ++ ((c, cw, len) :: es).flatMap entryBits ++ post
        = (pre ++ bitsOf 8 c) ++ (bitsOf len cw ++ (es.flatMap entryBits ++ post)) := by
      rw [hbits]; simp [List.append_assoc]
    have hoff : (pre.length : Int) + 8 = ((pre ++ bitsOf 8 c).length : Nat) := by
      simp [bitsOf_length]
    have hr2 : key.read ((pre.length : Int) + 8) len = some cw := by
      rw [hoff, h.read _ len hb1 hb8 (by rw [hbits2]; simp only [List.length_append, bitsOf_length]; omega), hbits2,
        List.drop_left, List.take_left' (bitsOf_length _ _), natOfBits_bitsOf]
      exact congrArg some (Nat.mod_eq_of_lt hcw)
    have hlenu : toUShort (len : Int) = len := toUShort_natCast _ (by omega)
    have hcw256 : cw < 256 :=
      lt_of_lt_of_le hcw (by
        calc 2 ^ len ≤ 2 ^ 8 := Nat.pow_le_pow_right (by norm_num) hb8
          _ = 256 := rfl)
    have hpre : (pre.length : Int) + 8 + (len : Int)
        = (((pre ++ entryBits (c, cw, len)).length : Nat) : Int) := by
      simp [entryBits, bitsOf_length]; omega
    have h' : Holds key ((pre ++ entryBits (c, cw, len)) ++ es.flatMap entryBits ++ post) := by
      simpa [List.flatMap_cons, List.append_assoc] using h
    have := ih (pre ++ entryBits (c, cw, len)) post (mapSet map c (cw, len)) h'
      (fun x hx => he x (List.mem_cons_of_mem _ hx))
    simp only [readShortWords, List.length_cons, hr1, hlenu, hr2, Option.bind_eq_bind,
      Option.some_bind, and_ff_of_lt cw hcw256, hpre, this]
    simp [mapOf, List.flatMap_cons, List.append_assoc]

/-- The second loop of the key parser recovers long entries written one after the other. -/
theorem readLongWords_spec (key : ByteStream) (l : Nat) (hl1 : 1 ≤ l) (hl16 : l ≤ 16) :
    ∀ (es : List (Nat × Nat × Nat)) (pre post : List Bool) (map : encoding_map),
      Holds key (pre ++ es.flatMap entryBits ++ post) →
      (∀ e ∈ es, e.1 < 256 ∧ e.2.1 < 2 ^ l ∧ e.2.2 = l) →
      readLongWords key (l : Int) es.length map (pre.length : Int)
        = some (mapOf es map, ((pre ++ es.flatMap entryBits).length : Int)) := by
  intro es
  induction es with
  | nil =>
    intro pre post map _ _
    simp [readLongWords, mapOf]
  | cons e es ih =>
    intro pre post map h he
    obtain ⟨c, cw, len⟩ := e
    obtain ⟨hc, hcw, hlen⟩ := he (c, cw, len) (List.mem_cons_self _ _)
    simp only at hc hcw hlen
    subst hlen
    have hbits : pre ++ ((c, cw, len) :: es).flatMap entryBits ++ post
        = pre ++ (bitsOf 8 c ++ (bitsOf len cw ++ (es.flatMap entryBits ++ post))) := by
      simp [List.flatMap_cons, entryBits, List.append_assoc]
    have hr1 : key.read (pre.length : Int) 8 = some c := by
      rw [h.read _ 8 (by omega) (by omega)
          (by rw [hbits]; simp only [List.length_append, bitsOf_length]; omega), hbits,
        List.drop_left, List.take_left' (bitsOf_length _ _), natOfBits_bitsOf]
      exact congrArg some (Nat.mod_eq_of_lt hc)
    have hoff : (pre.length : Int) + 8 = ((pre ++ bitsOf 8 c).length : Nat) := by
      simp [bitsOf_length]
    have hlenu : toUShort (len : Int) = len := toUShort_natCast _ (by omega)
    have hpre : (pre.length : Int) + 8 + (len : Int)
        = (((pre ++ entryBits (c, cw, len)).length : Nat) : Int) := by
      simp [entryBits, bitsOf_length]; omega
    have h' : Holds key ((pre ++ entryBits (c, cw, len)) ++ es.flatMap entryBits ++ post) := by
      simpa [List.flatMap_cons, List.append_assoc] using h
    have hrec := ih (pre ++ entryBits (c, cw, len)) post (mapSet map c (cw, len)) h'
      (fun x hx => he x (List.mem_cons_of_mem _ hx))
    by_cases hgt : len > 8
    · -- the codeword is read in two parts
      have hsplit : bitsOf len cw = bitsOf 8 (cw / 2 ^ (len - 8)) ++ bitsOf (len - 8) cw :=
        bitsOf_add_eq len 8 (len - 8) cw (by omega)
      have hbits2 : pre ++ ((c, cw, len) :: es).flatMap entryBits ++ post
          = (pre ++ bitsOf 8 c) ++ (bitsOf 8 (cw / 2 ^ (len - 8))
              ++ (bitsOf (len - 8) cw ++ (es.flatMap entryBits ++ post))) := by
        rw [hbits, hsplit]; simp [List.append_assoc]
      have hq : cw / 2 ^ (len - 8) < 256 := by
        rw [Nat.div_lt_iff_lt_mul (by positivity), show (256 : Nat) = 2 ^ 8 from rfl,
          two_pow_split 8 (len - 8) len (by omega)]
        exact hcw
      have hp1 : key.read ((pre.length : Int) + 8) 8 = some (cw / 2 ^ (len - 8)) := by
        rw [hoff, h.read _ 8 (by omega) (by omega)
            (by rw [hbits2]; simp only [List.length_append, bitsOf_length]; omega), hbits2,
          List.drop_left, List.take_left' (bitsOf_length _ _), natOfBits_bitsOf]
        exact congrArg some (Nat.mod_eq_of_lt hq)
      have hbits3 : pre ++ ((c, cw, len) :: es).flatMap entryBits ++ post
          = (pre ++ bitsOf 8 c ++ bitsOf 8 (cw / 2 ^ (len - 8)))
              ++ (bitsOf (len - 8) cw ++ (es.flatMap entryBits ++ post)) := by
        rw [hbits2]; simp [List.append_assoc]
      have hoff3 : (pre.length : Int) + 8 + 8
          = ((pre ++ bitsOf 8 c ++ bitsOf 8 (cw / 2 ^ (len - 8))).length : Nat) := by
        simp [bitsOf_length]; omega
      have hr : cw % 2 ^ (len - 8) < 256 :=
        lt_of_lt_of_le (Nat.mod_lt _ (by positivity))
          (by calc 2 ^ (len - 8) ≤ 2 ^ 8 := Nat.pow_le_pow_right (by norm_num) (by omega)
                _ = 256 := rfl)
      have hp2 : key.read ((pre.length : Int) + 8 + 8) (len - 8) = some (cw % 2 ^ (len - 8)) := by
        rw [hoff3, h.read _ (len - 8) (by omega) (by omega)
            (by rw [hbits3]; simp only [List.length_append, bitsOf_length]; omega), hbits3,
          List.drop_left, List.take_left' (bitsOf_length _ _), natOfBits_bitsOf]
      have hu : toUShort ((len : Int) - 8) = len - 8 := by unfold toUShort; omega
      have ht : ((len : Int) - 8).toNat = len - 8 := by omega
      have hcomb : ((cw / 2 ^ (len - 8)) <<< (len - 8)) % 4294967296 ||| cw % 2 ^ (len - 8)
          = cw := by
        have h1 : (cw / 2 ^ (len - 8)) <<< (len - 8) < 4294967296 := by
          rw [Nat.shiftLeft_eq]
          calc cw / 2 ^ (len - 8) * 2 ^ (len - 8) ≤ cw := Nat.div_mul_le_self _ _
            _ < 2 ^ len := hcw
            _ ≤ 2 ^ 16 := Nat.pow_le_pow_right (by norm_num) hl16
            _ ≤ 4294967296 := by norm_num
        rw [Nat.mod_eq_of_lt h1, Nat.shiftLeft_eq,
          or_low _ _ _ (Nat.mod_lt _ (by positivity)), Nat.div_add_mod']
      have hgt' : (len : Int) > 8 := by omega
      simp only [readLongWords, List.length_cons, hr1, Option.bind_eq_bind, Option.some_bind,
        hgt', if_true, hp1, hu, hp2, hlenu, and_ff_of_lt _ hq, and_ff_of_lt _ hr, ht, hcomb,
        Option.pure_def, hpre, hrec]
      simp [mapOf, List.flatMap_cons, List.append_assoc]
    · have hbits2 : pre ++ ((c, cw, len) :: es).flatMap entryBits ++ post
          = (pre ++ bitsOf 8 c) ++ (bitsOf len cw ++ (es.flatMap entryBits ++ post)) := by
        rw [hbits]; simp [List.append_assoc]
      have hr2 : key.read ((pre.length : Int) + 8) len = some cw := by
        rw [hoff, h.read _ len hl1 (by omega)
            (by rw [hbits2]; simp only [List.length_append, bitsOf_length]; omega), hbits2,
          List.drop_left, List.take_left' (bitsOf_length _ _), natOfBits_bitsOf]
        exact congrArg some (Nat.mod_eq_of_lt hcw)
      have hcw256 : cw < 256 :=
        lt_of_lt_of_le hcw (by
          calc 2 ^ len ≤ 2 ^ 8 := Nat.pow_le_pow_right (by norm_num) (by omega)
            _ = 256 := rfl)
      have hgt' : ¬ ((len : Int) > 8) := by omega
      simp only [readLongWords, List.length_cons, hr1, Option.bind_eq_bind, Option.some_bind,
        hgt', if_false, hlenu, hr2, and_ff_of_lt _ hcw256, Option.pure_def, hpre, hrec]
      simp [mapOf, List.flatMap_cons, List.append_assoc]

theorem Holds.getD {s : ByteStream} {bits : List Bool} (h : Holds s bits)
    (pre post : List Bool) (x i : Nat) (hbits : bits = pre ++ bitsOf 8 x ++ post)
    (hpre : pre.length = 8 * i) (hx : x < 256) : s.data.getD i 0 = x := by
  have hsz := h.size
  have hlen : bits.length = 8 * i + 8 + post.length := by
    rw [hbits]; simp only [List.length_append, bitsOf_length, hpre]
  have hi : i < s.data.length := by omega
  have hoff : (8 * i) / 8 = i := by omega
  have hmod : (8 * i) % 8 = 0 := by omega
  have h1 := drop_allBits s.data (8 * i) (by rw [hoff]; exact hi)
  rw [hoff, hmod, List.drop_zero, h.2.2, hbits] at h1
  have h2 : List.drop (8 * i) (pre ++ bitsOf 8 x ++ post
      ++ List.replicate (padLen (pre ++ bitsOf 8 x ++ post).length) false)
      = bitsOf 8 x ++ (post
        ++ List.replicate (padLen (pre ++ bitsOf 8 x ++ post).length) false) := by
    rw [← hpre]
    simp only [List.append_assoc]
    exact List.drop_left _ _
  rw [h2] at h1
  have h3 := (List.append_inj h1 (by simp [bitsOf_length])).1
  have hget : s.data.getD i 0 < 256 := by
    apply h.2.1
    rw [List.getD_eq_getElem?_getD, List.getElem?_eq_getElem hi]
    exact List.getElem_mem hi
  have h4 := congrArg natOfBits h3
  rw [natOfBits_bitsOf, natOfBits_bitsOf, Nat.mod_eq_of_lt (show x < 2 ^ 8 from hx),
    Nat.mod_eq_of_lt (show s.data.getD i 0 < 2 ^ 8 from hget)] at h4
  exact h4.symm

theorem charToInt_small (n : Nat) (h : n < 128) : charToInt (toChar (n : Int)) = (n : Int) := by
  have : toChar (n : Int) = n := toChar_natCast n (by omega)
  rw [this]
  unfold charToInt
  rw [if_pos h]

theorem flatMap_entryBits_length_ge (es : List (Nat × Nat × Nat)) :
    8 * es.length ≤ (es.flatMap entryBits).length := by
  induction es with
  | nil => simp
  | cons e es ih =>
    simp only [List.flatMap_cons, List.length_append, entryBits_length, List.length_cons]
    omega

theorem headerBits_length (p : Plan) : (headerBits p).length = 32 := by
  simp [headerBits, bitsOf_length]

theorem toChar_lt (x : Int) : toChar x < 256 := by unfold toChar; omega

/-- The key parser, run on a key that holds the serialisation of a plan with at most 127
distinct bytes, returns the codebook of the plan. -/
theorem readMap_key (p : Plan) (M K b l : Nat) (hs : PlanShape p M K b) (hM : M ≤ 127)
    (key : ByteStream) (hk : Holds key (keyBits p)) (hb8 : b ≤ 8)
    (hl : p.bits_per_remaining_characters = (l : Int))
    (hdl : K < M → 1 ≤ l - b ∧ l - b ≤ 8)
    (hbytes : ∀ c ∈ p.ordering, c < 256) :
    ReadMapFromKeyStream key
      = some (some { map := mapOf (codebook p) (fun _ => none),
                     bits_short := (b : Int), bits_long := (l : Int) }) := by
  obtain ⟨l', hl', -, htier⟩ := hs.long_bits
  have hll : l' = l := by
    have := hl'.symm.trans hl
    exact_mod_cast this
  subst hll
  have hKM : K ≤ M := by rcases htier with ⟨h1, -⟩ | ⟨h1, -⟩ <;> omega
  have hl16 : l' ≤ 16 := by
    rcases htier with ⟨-, h⟩ | ⟨h1, -, h3, -⟩
    · omega
    · have := hdl (by omega); omega
  have hcnt : ((M : Int) - (K : Int)).toNat = M - K := by omega
  -- the two parts of the codebook
  have hcb : codebook p = shortEntries b K 0 p.ordering
      ++ longEntries K b l' (M - K) 0 (p.ordering.drop K) := by
    simp only [codebook, hs.upto, hs.bits, hs.unique, hl, Int.toNat_ofNat, hcnt]
  have hSlen : (shortEntries b K 0 p.ordering).length = K := by
    have := congrArg List.length (shortEntries_map_fst b K 0 p.ordering)
    rw [List.length_map, List.length_take, hs.len] at this
    omega
  have hLlen : (longEntries K b l' (M - K) 0 (p.ordering.drop K)).length = M - K := by
    have := congrArg List.length (longEntries_map_fst K b l' (M - K) 0 (p.ordering.drop K))
    rw [List.length_map, List.length_take, List.length_drop, hs.len] at this
    omega
  have hS : ∀ e ∈ shortEntries b K 0 p.ordering, e.1 < 256 ∧ e.2.1 < 2 ^ b ∧ e.2.2 = b := by
    intro e he
    obtain ⟨k, -, h2, h3⟩ := mem_shortEntries b K 0 p.ordering e he
    refine ⟨hbytes _ (List.getElem?_mem h2), ?_, ?_⟩
    · rw [h3]; exact Nat.mod_lt _ (by positivity)
    · rw [h3]
  have hL : ∀ e ∈ longEntries K b l' (M - K) 0 (p.ordering.drop K),
      e.1 < 256 ∧ e.2.1 < 2 ^ l' ∧ e.2.2 = l' := by
    intro e he
    obtain ⟨k, hk1, h2, h3⟩ := mem_longEntries K b l' (M - K) 0 (p.ordering.drop K) e he
    have hbl := hdl (by omega)
    refine ⟨hbytes _ (List.mem_of_mem_drop (List.getElem?_mem h2)), ?_, ?_⟩
    · rw [h3]
      have h1 : K % 2 ^ b < 2 ^ b := Nat.mod_lt _ (by positivity)
      have h2 : (0 + k) % 2 ^ (l' - b) < 2 ^ (l' - b) := Nat.mod_lt _ (by positivity)
      calc K % 2 ^ b * 2 ^ (l' - b) + (0 + k) % 2 ^ (l' - b)
            < (K % 2 ^ b + 1) * 2 ^ (l' - b) := by rw [Nat.add_mul]; omega
        _ ≤ 2 ^ b * 2 ^ (l' - b) := Nat.mul_le_mul_right _ h1
        _ = 2 ^ l' := two_pow_split _ _ _ (by omega)
    · rw [h3]
  -- header bytes
  have hkb : keyBits p = bitsOf 8 (toChar (M : Int)) ++ bitsOf 8 (toChar (K : Int))
      ++ bitsOf 8 (toChar (b : Int)) ++ bitsOf 8 (toChar (l' : Int))
      ++ (codebook p).flatMap entryBits := by
    simp only [keyBits, headerBits, hs.unique, hs.upto, hs.bits, hl]
  have g0 : key.data.getD 0 0 = toChar (M : Int) :=
    hk.getD [] (bitsOf 8 (toChar (K : Int)) ++ bitsOf 8 (toChar (b : Int))
      ++ bitsOf 8 (toChar (l' : Int)) ++ (codebook p).flatMap entryBits) _ 0
      (by rw [hkb]; simp [List.append_assoc]) rfl (toChar_lt _)
  have g1 : key.data.getD 1 0 = toChar (K : Int) :=
    hk.getD (bitsOf 8 (toChar (M : Int))) (bitsOf 8 (toChar (b : Int))
      ++ bitsOf 8 (toChar (l' : Int)) ++ (codebook p).flatMap entryBits) _ 1
      (by rw [hkb]; simp [List.append_assoc]) (by simp [bitsOf_length]) (toChar_lt _)
  have g2 : key.data.getD 2 0 = toChar (b : Int) :=
    hk.getD (bitsOf 8 (toChar (M : Int)) ++ bitsOf 8 (toChar (K : Int)))
      (bitsOf 8 (toChar (l' : Int)) ++ (codebook p).flatMap entryBits) _ 2
      (by rw [hkb]; simp [List.append_assoc]) (by simp [bitsOf_length]) (toChar_lt _)
  have g3 : key.data.getD 3 0 = toChar (l' : Int) :=
    hk.getD (bitsOf 8 (toChar (M : Int)) ++ bitsOf 8 (toChar (K : Int))
        ++ bitsOf 8 (toChar (b : Int)))
      ((codebook p).flatMap entryBits) _ 3
      (by rw [hkb]) (by simp [bitsOf_length]) (toChar_lt _)
  have hsz := hk.size
  have hcblen : (codebook p).length = M := by
    rw [hcb, List.length_append, hSlen, hLlen]; omega
  have hkl : 32 + 8 * M ≤ (keyBits p).length := by
    have := flatMap_entryBits_length_ge (codebook p)
    rw [hcblen] at this
    simp only [keyBits, List.length_append, headerBits_length]
    omega
  have c1 : ¬ key.size < 4 := by unfold ByteStream.size; omega
  have hu : (4 + toUInt ((M : Nat) : Int)) % 4294967296 = 4 + M := by
    unfold toUInt; omega
  have c2 : ¬ key.size < 4 + M := by unfold ByteStream.size; omega
  have hks : Holds key (headerBits p ++ (shortEntries b K 0 p.ordering).flatMap entryBits
      ++ (longEntries K b l' (M - K) 0 (p.ordering.drop K)).flatMap entryBits) := by
    have : keyBits p = headerBits p ++ (shortEntries b K 0 p.ordering).flatMap entryBits
        ++ (longEntries K b l' (M - K) 0 (p.ordering.drop K)).flatMap entryBits := by
      simp only [keyBits, hcb, List.flatMap_append, List.append_assoc]
    rw [← this]; exact hk
  have hshort := readShortWords_spec key b hs.b_pos hb8 _ (headerBits p) _ (fun _ => none) hks hS
  rw [hSlen, headerBits_length] at hshort
  unfold ReadMapFromKeyStream
  rw [if_neg c1]
  simp only [g0, g1, g2, g3, charToInt_small M (by omega), charToInt_small K (by omega),
    charToInt_small b (by omega), charToInt_small l' (by omega), hu, if_neg c2,
    Int.toNat_ofNat, hcnt]
  have hptr : ((8 : Int) * 4) = ((32 : Nat) : Int) := by norm_num
  rw [hptr, hshort]
  simp only [Option.bind_eq_bind, Option.some_bind]
  by_cases hlong : K < M
  · have hbl := hdl hlong
    have hks' : Holds key ((headerBits p ++ (shortEntries b K 0 p.ordering).flatMap entryBits)
        ++ (longEntries K b l' (M - K) 0 (p.ordering.drop K)).flatMap entryBits ++ []) := by
      rw [List.append_nil]; exact hks
    have hlongr := readLongWords_spec key l' (by omega) hl16
      (longEntries K b l' (M - K) 0 (p.ordering.drop K))
      (headerBits p ++ (shortEntries b K 0 p.ordering).flatMap entryBits) []
      (mapOf (shortEntries b K 0 p.ordering) (fun _ => none)) hks' hL
    rw [hLlen] at hlongr
    rw [hlongr]
    simp only [Option.some_bind, Option.pure_def, hcb, mapOf, List.foldl_append]
  · have hz : M - K = 0 := by omega
    rw [hz]
    simp only [readLongWords, Option.some_bind, Option.pure_def, hcb, hz, longEntries, mapOf,
      List.append_nil]

theorem mapOf_cons (e : Nat × Nat × Nat) (es : List (Nat × Nat × Nat)) (m : encoding_map) :
    mapOf (e :: es) m = mapOf es (mapSet m e.1 e.2) := rfl

theorem mapOf_not_mem (es : List (Nat × Nat × Nat)) :
    ∀ (m : encoding_map) (c : Nat), c ∉ es.map (·.1) → mapOf es m c = m c := by
  induction es with
  | nil => intro m c _; rfl
  | cons e es ih =>
    intro m c hc
    simp only [List.map_cons, List.mem_cons, not_or] at hc
    rw [mapOf_cons, ih _ _ hc.2]
    simp [mapSet, hc.1]

theorem mapOf_mem (es : List (Nat × Nat × Nat)) :
    ∀ (m : encoding_map) (e : Nat × Nat × Nat), (es.map (·.1)).Nodup → e ∈ es →
      mapOf es m e.1 = some e.2 := by
  induction es with
  | nil => intro m e _ he; simp at he
  | cons x es ih =>
    intro m e hnd he
    simp only [List.map_cons, List.nodup_cons] at hnd
    rw [mapOf_cons]
    rcases List.mem_cons.1 he with rfl | he
    · rw [mapOf_not_mem es _ _ hnd.1]
      simp [mapSet]
    · exact ih _ e hnd.2 he

theorem mapOf_some (es : List (Nat × Nat × Nat)) :
    ∀ (m : encoding_map) (c : Nat) (pr : Nat × Nat), mapOf es m c = some pr →
      (c, pr) ∈ es ∨ m c = some pr := by
  induction es with
  | nil => intro m c pr h; right; exact h
  | cons x es ih =>
    intro m c pr h
    rw [mapOf_cons] at h
    rcases ih _ c pr h with h1 | h1
    · left; exact List.mem_cons_of_mem _ h1
    · simp only [mapSet] at h1
      by_cases hc : c = x.1
      · rw [if_pos hc] at h1
        left
        have : x = (c, pr) := by
          rw [hc]; ext <;> simp [(Option.some.inj h1).symm]
        rw [this]; exact List.mem_cons_self _ _
      · rw [if_neg hc] at h1
        right; exact h1

theorem mem_signedOrder (k : Nat) : k ∈ signedOrder ↔ k < 256 := by
  simp only [signedOrder, List.mem_append, List.mem_map, List.mem_range]
  constructor
  · rintro (⟨a, ha, rfl⟩ | h) <;> omega
  · intro h
    by_cases hk : k < 128
    · right; exact hk
    · left; exact ⟨k - 128, by omega, by omega⟩

theorem decodingFold_none (enc : encoding_map) (pr : Nat × Nat) :
    ∀ (L : List Nat) (d : decoding_map), (∀ k ∈ L, enc k ≠ some pr) →
      (L.foldl (fun d k => match enc k with
          | some p => mapSet d p (toUInt (charToInt k))
          | none => d) d) pr = d pr := by
  intro L
  induction L with
  | nil => intro d _; rfl
  | cons x xs ih =>
    intro d h
    simp only [List.foldl_cons]
    rw [ih _ (fun k hk => h k (List.mem_cons_of_mem _ hk))]
    have hx := h x (List.mem_cons_self _ _)
    cases hex : enc x with
    | none => rfl
    | some q =>
      have : pr ≠ q := fun hc => hx (by rw [hex, hc])
      simp [mapSet, this]

theorem decodingFold_some (enc : encoding_map) (pr : Nat × Nat) (k : Nat)
    (hk : enc k = some pr) :
    ∀ (L : List Nat) (d : decoding_map), k ∈ L →
      (∀ k' ∈ L, enc k' = some pr → k' = k) →
      (L.foldl (fun d k => match enc k with
          | some p => mapSet d p (toUInt (charToInt k))
          | none => d) d) pr = some (toUInt (charToInt k)) := by
  intro L
  induction L with
  | nil => intro d h; simp at h
  | cons x xs ih =>
    intro d hmem huniq
    simp only [List.foldl_cons]
    by_cases hin : k ∈ xs
    · exact ih _ hin (fun k' hk' => huniq k' (List.mem_cons_of_mem _ hk'))
    · have hxk : x = k := by
        rcases List.mem_cons.1 hmem with h | h
        · exact h.symm
        · exact absurd h hin
      subst hxk
      rw [decodingFold_none enc pr xs _ (fun k' hk' hc => hin
        ((huniq k' (List.mem_cons_of_mem _ hk') hc) ▸ hk'))]
      simp [hk, mapSet]

/-- The inverse map sends the codeword pair of a byte back to that byte, when no other
byte has the same pair. -/
theorem GetDecodingMap_some (enc : encoding_map) (pr : Nat × Nat) (k : Nat) (hk256 : k < 256)
    (hk : enc k = some pr) (huniq : ∀ k', k' < 256 → enc k' = some pr → k' = k) :
    GetDecodingMap enc pr = some (toUInt (charToInt k)) :=
  decodingFold_some enc pr k hk signedOrder _ ((mem_signedOrder k).2 hk256)
    (fun k' hk' => huniq k' ((mem_signedOrder k').1 hk'))

/-- A pair that no byte has is absent from the inverse map. -/
theorem GetDecodingMap_none (enc : encoding_map) (pr : Nat × Nat)
    (h : ∀ k, k < 256 → enc k ≠ some pr) : GetDecodingMap enc pr = none :=
  decodingFold_none enc pr signedOrder _ (fun k hk => h k ((mem_signedOrder k).1 hk))

theorem GetDecodingMap_mem (enc : encoding_map) (pr : Nat × Nat) (v : Nat)
    (h : GetDecodingMap enc pr = some v) :
    ∃ k, k < 256 ∧ enc k = some pr ∧ v = toUInt (charToInt k) := by
  by_contra hc
  push_neg at hc
  have key : ∀ (L : List Nat) (d : decoding_map), (∀ k ∈ L, k < 256) →
      (L.foldl (fun d k => match enc k with
          | some p => mapSet d p (toUInt (charToInt k))
          | none => d) d) pr = some v → d pr = some v := by
    intro L
    induction L with
    | nil => intro d _ h; exact h
    | cons x xs ih =>
      intro d hL h
      simp only [List.foldl_cons] at h
      have h1 := ih _ (fun k hk => hL k (List.mem_cons_of_mem _ hk)) h
      cases hex : enc x with
      | none => simpa [hex] using h1
      | some q =>
        simp only [hex, mapSet] at h1
        by_cases hq : pr = q
        · rw [if_pos hq] at h1
          exact absurd (Option.some.inj h1).symm
            (hc x (hL x (List.mem_cons_self _ _)) (by rw [hex, hq]))
        · rw [if_neg hq] at h1; exact h1
  have := key signedOrder (fun _ => none) (fun k hk => (mem_signedOrder k).1 hk) h
  cases this

theorem toUInt_charToInt : ∀ k < 256, toUInt (charToInt k) % 256 = k := by
  decide!

theorem put8 (s : ByteStream) (c : Nat) (h0 : s.nextBit = 0) (hc : c < 256) :
    s.put c 8 = some { s with data := s.data ++ [c] } := by
  unfold ByteStream.put
  rw [put_fresh 1 s c 8 h0 (by omega) (by omega)]
  have : c % 2 ^ 8 * 2 ^ (8 - 8) = c := by
    rw [Nat.mod_eq_of_lt (show c < 2 ^ 8 from hc)]; simp
  rw [this]
  cases s
  simp at h0
  simp [h0]

theorem toUInt_natCast (n : Nat) (h : n < 4294967296) : toUInt (n : Int) = n := by
  unfold toUInt; omega

theorem toUInt_escape (b : Nat) (hb : b ≤ 8) : toUInt ((2 : Int) ^ b - 1) = 2 ^ b - 1 := by
  have h1 : ((2 : Int) ^ b) = ((2 ^ b : Nat) : Int) := by push_cast; rfl
  have h2 : 2 ^ b ≤ 2 ^ 8 := Nat.pow_le_pow_right (by norm_num) hb
  have h3 : 0 < 2 ^ b := by positivity
  rw [h1]
  unfold toUInt
  omega

/-- Reading bits anywhere in the buffer, padding included. -/
theorem read_bits (s : ByteStream) (hs : ∀ x ∈ s.data, x < 256) (pre mid post : List Bool)
    (hbits : allBits s.data = pre ++ mid ++ post) (h1 : 1 ≤ mid.length) (h8 : mid.length ≤ 8) :
    s.read (pre.length : Int) mid.length = some (natOfBits mid) := by
  have hlen := congrArg List.length hbits
  rw [allBits_length] at hlen
  simp only [List.length_append] at hlen
  rw [read_spec s pre.length mid.length hs h1 h8 (by omega), hbits, List.append_assoc,
    List.drop_left, List.take_left]

theorem decodeStep_short (s : ByteStream) (hs : ∀ x ∈ s.data, x < 256) (b l i : Nat)
    (hb1 : 1 ≤ b) (hb8 : b ≤ 8) (hi : i < 2 ^ b) (hesc : l = 0 ∨ i ≠ 2 ^ b - 1)
    (pre post : List Bool) (hbits : allBits s.data = pre ++ bitsOf b i ++ post) :
    decodeStep s (b : Int) (l : Int) ((2 : Int) ^ b - 1) ((l : Int) - (b : Int))
        (pre.length : Int)
      = some (Step.emit ((pre.length : Int) + (b : Int)) i (toUInt (b : Int))) := by
  have hr := read_bits s hs pre (bitsOf b i) post hbits (by rw [bitsOf_length]; exact hb1)
    (by rw [bitsOf_length]; exact hb8)
  rw [bitsOf_length, natOfBits_bitsOf, Nat.mod_eq_of_lt hi] at hr
  have hi256 : i < 256 := lt_of_lt_of_le hi
    (by calc 2 ^ b ≤ 2 ^ 8 := Nat.pow_le_pow_right (by norm_num) hb8
          _ = 256 := rfl)
  have hc : ¬ (i = 2 ^ b - 1 ∧ (l : Int) ≠ 0) := by
    rintro ⟨h1, h2⟩
    rcases hesc with h | h
    · exact h2 (by exact_mod_cast h)
    · exact h h1
  simp only [decodeStep, toUShort_natCast b (by omega), hr, Option.bind_eq_bind,
    Option.some_bind, and_ff_of_lt i hi256, toUInt_escape b hb8, hc, if_false, Option.pure_def]

theorem decodeStep_long (s : ByteStream) (hs : ∀ x ∈ s.data, x < 256) (b l j : Nat)
    (hb1 : 1 ≤ b) (hb8 : b ≤ 8) (hbl : b < l) (hl8 : l ≤ b + 8) (hj : j < 2 ^ (l - b))
    (pre post : List Bool) (hpost : post ≠ [])
    (hbits : allBits s.data = pre ++ bitsOf l ((2 ^ b - 1) * 2 ^ (l - b) + j) ++ post) :
    decodeStep s (b : Int) (l : Int) ((2 : Int) ^ b - 1) ((l : Int) - (b : Int))
        (pre.length : Int)
      = some (Step.emit ((pre.length : Int) + (l : Int)) ((2 ^ b - 1) * 2 ^ (l - b) + j)
          (toUInt (l : Int))) := by
  have hsplit : bitsOf l ((2 ^ b - 1) * 2 ^ (l - b) + j)
      = bitsOf b (2 ^ b - 1) ++ bitsOf (l - b) j :=
    bitsOf_cat_eq l b (l - b) _ _ (by omega) hj
  have hlen := congrArg List.length hbits
  rw [allBits_length] at hlen
  simp only [List.length_append, bitsOf_length] at hlen
  have hpl : 1 ≤ post.length := by
    cases post with
    | nil => exact absurd rfl hpost
    | cons _ _ => simp
  have hbits1 : allBits s.data = pre ++ bitsOf b (2 ^ b - 1) ++ (bitsOf (l - b) j ++ post) := by
    rw [hbits, hsplit]; simp [List.append_assoc]
  have hr1 := read_bits s hs pre (bitsOf b (2 ^ b - 1)) _ hbits1
    (by rw [bitsOf_length]; exact hb1) (by rw [bitsOf_length]; exact hb8)
  have hpos : 0 < 2 ^ b := by positivity
  rw [bitsOf_length, natOfBits_bitsOf, Nat.mod_eq_of_lt (by omega)] at hr1
  have hbits2 : allBits s.data = (pre ++ bitsOf b (2 ^ b - 1)) ++ bitsOf (l - b) j ++ post := by
    rw [hbits, hsplit]; simp [List.append_assoc]
  have hr2 := read_bits s hs (pre ++ bitsOf b (2 ^ b - 1)) (bitsOf (l - b) j) post hbits2
    (by rw [bitsOf_length]; omega) (by rw [bitsOf_length]; omega)
  rw [bitsOf_length, natOfBits_bitsOf, Nat.mod_eq_of_lt hj, List.length_append,
    bitsOf_length] at hr2
  have hoff : ((pre.length + b : Nat) : Int) = (pre.length : Int) + (b : Int) := by push_cast; rfl
  rw [hoff] at hr2
  have h28 : 2 ^ b ≤ 256 :=
    calc 2 ^ b ≤ 2 ^ 8 := Nat.pow_le_pow_right (by norm_num) hb8
      _ = 256 := rfl
  have hd8 : 2 ^ (l - b) ≤ 256 :=
    calc 2 ^ (l - b) ≤ 2 ^ 8 := Nat.pow_le_pow_right (by norm_num) (by omega)
      _ = 256 := rfl
  have hl0 : (l : Int) ≠ 0 := by omega
  have hguard : ¬ ((pre.length : Int) + (l : Int) ≥ (s.size : Int) * 8) := by
    unfold ByteStream.size; omega
  have hdu : toUShort ((l : Int) - (b : Int)) = l - b := by unfold toUShort; omega
  have hdt : ((l : Int) - (b : Int)).toNat = l - b := by omega
  have hcomb : ((2 ^ b - 1) <<< (l - b)) % 4294967296 ||| j = (2 ^ b - 1) * 2 ^ (l - b) + j := by
    have h1 : (2 ^ b - 1) <<< (l - b) < 4294967296 := by
      rw [Nat.shiftLeft_eq]
      calc (2 ^ b - 1) * 2 ^ (l - b) ≤ 256 * 256 := Nat.mul_le_mul (by omega) hd8
        _ < 4294967296 := by norm_num
    rw [Nat.mod_eq_of_lt h1, Nat.shiftLeft_eq, or_low _ _ _ hj]
  have hfin : (pre.length : Int) + (b : Int) + ((l : Int) - (b : Int))
      = (pre.length : Int) + (l : Int) := by omega
  simp only [decodeStep, toUShort_natCast b (by omega), hr1, Option.bind_eq_bind,
    Option.some_bind, and_ff_of_lt (2 ^ b - 1) (by omega), toUInt_escape b hb8, hl0,
    true_and, ne_eq, not_false_eq_true, and_self, if_true, hfin, hguard, if_false, hdu, hr2,
    and_ff_of_lt j (by omega), hdt, hcomb, Option.pure_def]

theorem decodeLoop_succ (s : ByteStream) (decoder : decoding_map) (bs bl ek diff : Int)
    (fuel : Nat) (bit_ptr : Int) (out : ByteStream) :
    decodeLoop s decoder bs bl ek diff (fuel + 1) bit_ptr out
      = if bit_ptr + bs < (s.size : Int) * 8 then
          (decodeStep s bs bl ek diff bit_ptr).bind (fun step =>
            match step with
            | Step.stop => some out
            | Step.emit bit_ptr1 codeword bitcount =>
              (out.put (((decoder (codeword, bitcount % 65536)).getD 0) % 256) 8).bind
                (fun out1 => decodeLoop s decoder bs bl ek diff fuel bit_ptr1 out1))
        else some out := by
  rfl

/-- The loop of `Decode` turns a run of codewords that is followed by at least one more
bit back into the bytes they stand for. -/
theorem decodeLoop_symbols (s : ByteStream) (hs : ∀ x ∈ s.data, x < 256)
    (map : encoding_map) (decoder : decoding_map) (b l : Nat) (hb1 : 1 ≤ b) (hb8 : b ≤ 8)
    (hl8 : l ≤ b + 8) (tail : List Bool) (htail : tail ≠ []) :
    ∀ (rest : List Nat) (pre : List Bool) (out : ByteStream) (fuel : Nat),
      (∀ c ∈ rest, SymOK map decoder b l c) →
      allBits s.data = pre ++ rest.flatMap (codeBits map) ++ tail →
      out.nextBit = 0 →
      decodeLoop s decoder (b : Int) (l : Int) ((2 : Int) ^ b - 1) ((l : Int) - (b : Int))
          (rest.length + fuel) (pre.length : Int) out
        = decodeLoop s decoder (b : Int) (l : Int) ((2 : Int) ^ b - 1) ((l : Int) - (b : Int))
            fuel ((pre ++ rest.flatMap (codeBits map)).length : Int)
            { out with data := out.data ++ rest } := by
  intro rest
  induction rest with
  | nil =>
    intro pre out fuel _ _ _
    simp
  | cons c rest ih =>
    intro pre out fuel hsym hbits hout
    obtain ⟨hc256, cw, len, hm, ⟨v, hdec, hv⟩, hshape⟩ := hsym c (List.mem_cons_self _ _)
    have hcb : codeBits map c = bitsOf len cw := by simp [codeBits, hm]
    have hbits' : allBits s.data
        = pre ++ bitsOf len cw ++ (rest.flatMap (codeBits map) ++ tail) := by
      rw [hbits, List.flatMap_cons, hcb]; simp [List.append_assoc]
    have hlen := congrArg List.length hbits'
    rw [allBits_length] at hlen
    simp only [List.length_append, bitsOf_length] at hlen
    have htl : 1 ≤ tail.length := by
      cases tail with
      | nil => exact absurd rfl htail
      | cons _ _ => simp
    have hfuel : (c :: rest).length + fuel = (rest.length + fuel) + 1 := by
      simp only [List.length_cons]; omega
    have hout' : ({ out with data := out.data ++ [c] } : ByteStream).nextBit = 0 := hout
    have hbits'' : allBits s.data
        = (pre ++ codeBits map c) ++ rest.flatMap (codeBits map) ++ tail := by
      rw [hbits, List.flatMap_cons]; simp [List.append_assoc]
    have hrec := ih (pre ++ codeBits map c) { out with data := out.data ++ [c] } fuel
      (fun x hx => hsym x (List.mem_cons_of_mem _ hx)) hbits'' hout'
    have hfinal : ((pre ++ codeBits map c) ++ rest.flatMap (codeBits map)).length
        = (pre ++ (c :: rest).flatMap (codeBits map)).length := by
      simp [List.flatMap_cons, List.append_assoc]
    have hdata : ({ out with data := out.data ++ [c] } : ByteStream).data ++ rest
        = out.data ++ c :: rest := by simp
    rw [hfinal] at hrec
    simp only [hdata] at hrec
    have hplen : ((pre ++ codeBits map c).length : Int) = (pre.length : Int) + (len : Int) := by
      rw [hcb]; simp [bitsOf_length]
    rw [hfuel, decodeLoop_succ]
    rcases hshape with ⟨hl, hcw, hesc⟩ | ⟨hl, hbl, j, hj, hcwj⟩
    · subst hl
      have hguard : (pre.length : Int) + (len : Int) < (s.size : Int) * 8 := by
        unfold ByteStream.size; omega
      rw [if_pos hguard, decodeStep_short s hs len l cw hb1 hb8 hcw hesc pre _ hbits']
      simp only [Option.some_bind, toUInt_natCast len (by omega),
        Nat.mod_eq_of_lt (show len < 65536 by omega), hdec, Option.getD_some, hv,
        put8 out c hout hc256]
      rw [← hplen]
      exact hrec
    · subst hl
      subst hcwj
      have hguard : (pre.length : Int) + (b : Int) < (s.size : Int) * 8 := by
        unfold ByteStream.size; omega
      have hpost : rest.flatMap (codeBits map) ++ tail ≠ [] := by
        intro h0
        exact htail (List.append_eq_nil.1 h0).2
      rw [if_pos hguard, decodeStep_long s hs b len j hb1 hb8 hbl hl8 hj pre _ hpost hbits']
      simp only [Option.some_bind, toUInt_natCast len (by omega),
        Nat.mod_eq_of_lt (show len < 65536 by omega), hdec, Option.getD_some, hv,
        put8 out c hout hc256]
      rw [← hplen]
      exact hrec

/-- After the last codeword the loop of `Decode` turns the zero pad bits into copies of
the byte with codeword 0, as long as more than `b` bits remain. -/
theorem decodeLoop_padding (s : ByteStream) (hs : ∀ x ∈ s.data, x < 256)
    (decoder : decoding_map) (b l c0 : Nat) (hb1 : 1 ≤ b) (hb8 : b ≤ 8) (hc0 : c0 < 256)
    (hdec : ∃ v, decoder (0, b) = some v ∧ v % 256 = c0) :
    ∀ (n t : Nat) (pre : List Bool) (out : ByteStream) (fuel : Nat),
      (t - 1) / b = n → n + 1 ≤ fuel →
      allBits s.data = pre ++ List.replicate t false →
      out.nextBit = 0 →
      decodeLoop s decoder (b : Int) (l : Int) ((2 : Int) ^ b - 1) ((l : Int) - (b : Int))
          fuel (pre.length : Int) out
        = some { out with data := out.data ++ List.replicate n c0 } := by
  obtain ⟨v, hv1, hv2⟩ := hdec
  intro n
  induction n with
  | zero =>
    intro t pre out fuel hn hfuel hbits hout
    obtain ⟨f, rfl⟩ : ∃ f, fuel = f + 1 := ⟨fuel - 1, by omega⟩
    have hlen := congrArg List.length hbits
    rw [allBits_length] at hlen
    simp only [List.length_append, List.length_replicate] at hlen
    have ht : t ≤ b := by
      by_contra hc
      have : 1 ≤ (t - 1) / b := (Nat.one_le_div_iff (by omega)).2 (by omega)
      omega
    have hguard : ¬ ((pre.length : Int) + (b : Int) < (s.size : Int) * 8) := by
      unfold ByteStream.size; omega
    rw [decodeLoop_succ, if_neg hguard]
    simp
  | succ n ih =>
    intro t pre out fuel hn hfuel hbits hout
    obtain ⟨f, rfl⟩ : ∃ f, fuel = f + 1 := ⟨fuel - 1, by omega⟩
    have hlen := congrArg List.length hbits
    rw [allBits_length] at hlen
    simp only [List.length_append, List.length_replicate] at hlen
    have ht : b < t := by
      by_contra hc
      have : (t - 1) / b = 0 := Nat.div_eq_of_lt (by omega)
      omega
    have hguard : (pre.length : Int) + (b : Int) < (s.size : Int) * 8 := by
      unfold ByteStream.size; omega
    have hrep : List.replicate t false = bitsOf b 0 ++ List.replicate (t - b) false := by
      rw [bitsOf_zero_val, ← List.replicate_add]; congr 1; omega
    have hbits' : allBits s.data = pre ++ bitsOf b 0 ++ List.replicate (t - b) false := by
      rw [hbits, hrep]; simp [List.append_assoc]
    have hpos : 0 < 2 ^ b := by positivity
    have h2 : 2 ≤ 2 ^ b :=
      calc 2 = 2 ^ 1 := rfl
        _ ≤ 2 ^ b := Nat.pow_le_pow_right (by norm_num) hb1
    have hstep := decodeStep_short s hs b l 0 hb1 hb8 hpos (Or.inr (by omega)) pre _ hbits'
    have hn' : (t - b - 1) / b = n := by
      have : t - 1 = (t - b - 1) + b := by omega
      rw [this, Nat.add_div_right _ (by omega)] at hn
      omega
    have hbits'' : allBits s.data = (pre ++ bitsOf b 0) ++ List.replicate (t - b) false := hbits'
    have hrec := ih (t - b) (pre ++ bitsOf b 0) { out with data := out.data ++ [c0] } f hn'
      (by omega) hbits'' hout
    have hplen : ((pre ++ bitsOf b 0).length : Int) = (pre.length : Int) + (b : Int) := by
      simp [bitsOf_length]
    rw [hplen] at hrec
    rw [decodeLoop_succ, if_pos hguard, hstep]
    simp only [Option.some_bind, toUInt_natCast b (by omega),
      Nat.mod_eq_of_lt (show b < 65536 by omega), hv1, Option.getD_some, hv2,
      put8 out c0 hout hc0, hrec]
    simp [List.replicate_succ]

/-- What a completed run of `GenerateKey` on a loaded buffer establishes. -/
theorem build_facts (A : Arith) (tf : A.F) (B : List Nat) (hB : ∀ x ∈ B, x < 256)
    (ks key : ByteStream) (h : GenerateKey A tf (loaded B) ks = some key) :
    ∃ (p : Plan) (M K b l : Nat), planKey A tf (loaded B) = some p ∧ writeKey p ks = some key ∧
      PlanShape p M K b ∧
      p.bits_per_remaining_characters = (l : Int) ∧ Holds key (keyBits p) ∧ b ≤ 8 ∧
      (K < M → 1 ≤ l - b ∧ l - b ≤ 8) ∧ (K = M → l = 0) ∧ p.ordering.Nodup ∧
      (∀ c, c ∈ p.ordering ↔ c ∈ B) ∧ (A.lt A.zero tf = true → 2 ≤ b) := by
  unfold GenerateKey at h
  simp only [Option.bind_eq_bind] at h
  cases hp : planKey A tf (loaded B) with
  | none => simp [hp] at h
  | some p =>
    simp only [hp, Option.some_bind] at h
    obtain ⟨M, K, b, hs, hb2, hperm, -⟩ := planKey_shape A tf (loaded B) p hp
    obtain ⟨l, hl, -, htier⟩ := hs.long_bits
    obtain ⟨hk, hb8, hdl⟩ := writeKey_holds p M K b hs ks key h
    refine ⟨p, M, K, b, l, rfl, h, hs, hl, hk, hb8, hdl l hl, ?_, ordering_nodup _ _ hperm,
      ordering_mem_loaded B _ hB hperm, hb2⟩
    intro hKM
    rcases htier with ⟨-, h0⟩ | ⟨h1, -⟩
    · exact h0
    · omega

theorem codebook_pair_inj {p : Plan} {M K b : Nat} (hs : PlanShape p M K b)
    (l : Nat) (hl : p.bits_per_remaining_characters = (l : Int))
    (e e' : Nat × Nat × Nat) (he : e ∈ codebook p) (he' : e' ∈ codebook p)
    (hpair : e.2 = e'.2) : e = e' := by
  have h1 := codebook_entry hs l hl e he
  have h2 := codebook_entry hs l hl e' he'
  have hfst : e.1 = e'.1 := by
    rcases h1 with ⟨i, -, hi2, hi3⟩ | ⟨j, -, -, hbl, hj, hj2, hj3⟩
    · rcases h2 with ⟨i', -, hi2', hi3'⟩ | ⟨j', -, -, hbl', -, -, hj3'⟩
      · rw [hi3, hi3'] at hpair
        have : i = i' := (Prod.mk.inj hpair).1
        subst this
        rw [hi2] at hi2'
        exact Option.some.inj hi2'
      · rw [hi3, hj3'] at hpair
        have : b = l := (Prod.mk.inj hpair).2
        omega
    · rcases h2 with ⟨i', -, -, hi3'⟩ | ⟨j', -, -, -, hj', hj2', hj3'⟩
      · rw [hj3, hi3'] at hpair
        have : l = b := (Prod.mk.inj hpair).2
        omega
      · rw [hj3, hj3'] at hpair
        have : j = j' := by
          have := (Prod.mk.inj hpair).1
          omega
        subst this
        rw [hj2] at hj2'
        exact Option.some.inj hj2'
  exact Prod.ext hfst hpair

/-- Every byte of the ordering is handled by the codec built from the codebook. -/
theorem sym_ok {p : Plan} {M K b : Nat} (hs : PlanShape p M K b)
    (l : Nat) (hl : p.bits_per_remaining_characters = (l : Int)) (hl0 : K = M → l = 0)
    (hnd : p.ordering.Nodup) (hlt : ∀ c ∈ p.ordering, c < 256) (c : Nat)
    (hc : c ∈ p.ordering) :
    SymOK (planMap p) (GetDecodingMap (planMap p)) b l c := by
  have hnd' : ((codebook p).map (·.1)).Nodup := by rw [codebook_map_fst hs]; exact hnd
  have hmem : c ∈ (codebook p).map (·.1) := by rw [codebook_map_fst hs]; exact hc
  obtain ⟨e, he, rfl⟩ := List.mem_map.1 hmem
  have hm : planMap p e.1 = some e.2 := mapOf_mem _ _ e hnd' he
  have huniq : ∀ k', k' < 256 → planMap p k' = some e.2 → k' = e.1 := by
    intro k' _ hk'
    rcases mapOf_some _ _ _ _ hk' with h | h
    · have := codebook_pair_inj hs l hl (k', e.2) e h he rfl
      rw [← this]
    · cases h
  have hdec := GetDecodingMap_some (planMap p) e.2 e.1 (hlt _ hc) hm huniq
  refine ⟨hlt _ hc, e.2.1, e.2.2, hm, ⟨_, hdec, toUInt_charToInt _ (hlt _ hc)⟩, ?_⟩
  rcases codebook_entry hs l hl e he with ⟨i, hi, -, hi3⟩ | ⟨j, -, -, hbl, hj, -, hj3⟩
  · left
    rw [hi3]
    rcases hs.tiers with ⟨t1, t2, -⟩ | ⟨t1, t2, -⟩
    · exact ⟨rfl, by simp only; omega, Or.inl (hl0 t1)⟩
    · exact ⟨rfl, by simp only; omega, Or.inr (by simp only; omega)⟩
  · right
    rw [hj3]
    exact ⟨rfl, hbl, j, hj, rfl⟩

/-- The first byte of the ordering has the codeword 0. -/
theorem zero_codeword {p : Plan} {M K b : Nat} (hs : PlanShape p M K b)
    (l : Nat) (hl : p.bits_per_remaining_characters = (l : Int))
    (hnd : p.ordering.Nodup) (hlt : ∀ c ∈ p.ordering, c < 256) :
    p.ordering.headD 0 < 256 ∧
    ∃ v, GetDecodingMap (planMap p) (0, b) = some v ∧ v % 256 = p.ordering.headD 0 := by
  have hK1 : 1 ≤ K := by
    rcases hs.tiers with ⟨h1, -⟩ | ⟨-, h2, -⟩
    · have := hs.M_pos; omega
    · have : 2 ≤ 2 ^ b :=
        calc 2 = 2 ^ 1 := rfl
          _ ≤ 2 ^ b := Nat.pow_le_pow_right (by norm_num) hs.b_pos
      omega
  have hlen := hs.len
  have hMp := hs.M_pos
  cases hord : p.ordering with
  | nil => rw [hord] at hlen; simp at hlen; omega
  | cons c0 rest =>
    have hc0 : c0 ∈ p.ordering := by rw [hord]; exact List.mem_cons_self _ _
    obtain ⟨K', rfl⟩ : ∃ K', K = K' + 1 := ⟨K - 1, by omega⟩
    have he : (c0, 0, b) ∈ codebook p := by
      simp only [codebook, hs.upto, hs.bits, Int.toNat_ofNat, hord, shortEntries,
        List.mem_append]
      left
      simp
    have hnd' : ((codebook p).map (·.1)).Nodup := by rw [codebook_map_fst hs]; exact hnd
    have hm : planMap p c0 = some (0, b) := mapOf_mem _ _ (c0, 0, b) hnd' he
    have huniq : ∀ k', k' < 256 → planMap p k' = some (0, b) → k' = c0 := by
      intro k' _ hk'
      rcases mapOf_some _ _ _ _ hk' with h | h
      · have := codebook_pair_inj hs l hl (k', 0, b) (c0, 0, b) h he rfl
        exact (Prod.mk.inj this).1
      · cases h
    have hdec := GetDecodingMap_some (planMap p) (0, b) c0 (hlt _ hc0) hm huniq
    exact ⟨hlt _ hc0, _, hdec, toUInt_charToInt _ (hlt _ hc0)⟩

theorem extendedKey_small (b : Nat) (hb : b ≤ 8) :
    extendedKey (b : Int) = some ((2 : Int) ^ b - 1) := by
  unfold extendedKey
  rw [if_neg (by omega), if_pos (by omega), Int.toNat_ofNat]

theorem ordering_length_dedup (B ord : List Nat) (hnd : ord.Nodup)
    (hmem : ∀ c, c ∈ ord ↔ c ∈ B) : ord.length = B.dedup.length := by
  apply List.Perm.length_eq
  rw [List.perm_ext_iff_of_nodup hnd (List.nodup_dedup B)]
  intro a
  rw [hmem, List.mem_dedup]

/-- Decoding an encoding whose bit count is not a multiple of 8. -/
theorem decode_encoded (p : Plan) (M K b l : Nat) (hs : PlanShape p M K b)
    (hb8 : b ≤ 8) (hl : p.bits_per_remaining_characters = (l : Int))
    (hdl : K < M → 1 ≤ l - b ∧ l - b ≤ 8) (hl0 : K = M → l = 0)
    (hnd : p.ordering.Nodup) (hlt : ∀ c ∈ p.ordering, c < 256)
    (key : ByteStream)
    (hread : ReadMapFromKeyStream key
      = some (some { map := planMap p, bits_short := (b : Int), bits_long := (l : Int) }))
    (B : List Nat) (hB : ∀ c ∈ B, c ∈ p.ordering)
    (inS outS : ByteStream) (hin : Holds inS (B.flatMap (codeBits (planMap p))))
    (hN : encodedBitCount p B % 8 ≠ 0) (fuel : Nat) (hfuel : B.length + 8 ≤ fuel) :
    ∃ out, Decode fuel inS outS key = some (true, out) ∧
      out.data = B ++ List.replicate ((padLen (encodedBitCount p B) - 1) / b)
        (p.ordering.headD 0) := by
  have hNlen : (B.flatMap (codeBits (planMap p))).length = encodedBitCount p B :=
    flatMap_codeBits_length _ _
  have hbits := hin.2.2
  rw [hNlen] at hbits
  have hpad : 1 ≤ padLen (encodedBitCount p B) := by unfold padLen; omega
  have hpad8 := padLen_lt (encodedBitCount p B)
  have htail : List.replicate (padLen (encodedBitCount p B)) false ≠ [] := by
    intro h0
    have := congrArg List.length h0
    simp at this
    omega
  have hl8 : l ≤ b + 8 := by
    by_cases h : K < M
    · have := hdl h; omega
    · have : K = M := by
        rcases hs.tiers with ⟨h1, -⟩ | ⟨h1, -⟩ <;> omega
      have := hl0 this; omega
  obtain ⟨hc0, hzero⟩ := zero_codeword hs l hl hnd hlt
  have hsym : ∀ c ∈ B, SymOK (planMap p) (GetDecodingMap (planMap p)) b l c :=
    fun c hc => sym_ok hs l hl hl0 hnd hlt c (hB c hc)
  obtain ⟨f, rfl⟩ : ∃ f, fuel = B.length + f := ⟨fuel - B.length, by omega⟩
  have hbits1 : allBits inS.data = [] ++ B.flatMap (codeBits (planMap p))
      ++ List.replicate (padLen (encodedBitCount p B)) false := by
    rw [List.nil_append]; exact hbits
  have h1 := decodeLoop_symbols inS hin.2.1 (planMap p) (GetDecodingMap (planMap p)) b l
    hs.b_pos hb8 hl8 _ htail B [] outS.clear f hsym hbits1 rfl
  have hn : (padLen (encodedBitCount p B) - 1) / b + 1 ≤ f := by
    have : (padLen (encodedBitCount p B) - 1) / b ≤ padLen (encodedBitCount p B) - 1 :=
      Nat.div_le_self _ _
    omega
  have h2 := decodeLoop_padding inS hin.2.1 (GetDecodingMap (planMap p)) b l
    (p.ordering.headD 0) hs.b_pos hb8 hc0 hzero _ (padLen (encodedBitCount p B))
    ([] ++ B.flatMap (codeBits (planMap p)))
    { outS.clear with data := outS.clear.data ++ B } f rfl hn hbits1 rfl
  rw [h2] at h1
  obtain ⟨res, hres, hdata⟩ : ∃ res, decodeLoop inS (GetDecodingMap (planMap p)) (b : Int)
      (l : Int) ((2 : Int) ^ b - 1) ((l : Int) - (b : Int)) (B.length + f) 0 outS.clear
        = some res ∧ res.data = B ++ List.replicate
          ((padLen (encodedBitCount p B) - 1) / b) (p.ordering.headD 0) :=
    ⟨_, h1, by simp [ByteStream.clear]⟩
  refine ⟨res.bytes_changed true, ?_, ?_⟩
  · unfold Decode
    simp only [hread, extendedKey_small b hb8, Option.bind_eq_bind, Option.some_bind, hres]
    rfl
  · rw [bytes_changed_data, hdata]

theorem Holds.assign {s : ByteStream} {bs : List Bool} (h : Holds s bs) (t : ByteStream) :
    Holds (t.assign s) bs := h

/-- The chain GenerateKey, Encode, Decode on a buffer with at most 127 distinct byte
values whose encoding does not fill its last byte. -/
theorem roundTrip_padded_aux (A : Arith) (tf : A.F) (B : List Nat) (fuel : Nat) (p : Plan)
    (hB : ∀ x ∈ B, x < 256)
    (hplan : planKey A tf (loaded B) = some p)
    (hkey : (GenerateKey A tf (loaded B) ByteStream.new).isSome = true)
    (hM : B.dedup.length ≤ 127)
    (hN : encodedBitCount p B % 8 ≠ 0)
    (hfuel : B.length + 8 ≤ fuel) :
    roundTrip A tf fuel B
      = some (true, B ++ List.replicate
          ((padLen (encodedBitCount p B) - 1) / p.bits_per_target_character.toNat)
          (p.ordering.headD 0)) := by
  obtain ⟨key, hk⟩ := Option.isSome_iff_exists.1 hkey
  obtain ⟨p', M, K, b, l, hp', -, hs, hl, hkh, hb8, hdl, hl0, hnd, hmem, -⟩ :=
    build_facts A tf B hB ByteStream.new key hk
  rw [hplan] at hp'
  cases hp'
  have hlt : ∀ c ∈ p.ordering, c < 256 := fun c hc => hB c ((hmem c).1 hc)
  have hM' : M ≤ 127 := by
    rw [← hs.len, ordering_length_dedup B p.ordering hnd hmem]; exact hM
  have hread := readMap_key p M K b l hs hM' key hkh hb8 hl hdl hlt
  have hmap : ∀ c ∈ (loaded B).data, ∃ cw len,
      (KeyData.mk (planMap p) (b : Int) (l : Int)).map c = some (cw, len)
        ∧ 1 ≤ len ∧ len ≤ 16 := by
    intro c hc
    rw [loaded_data] at hc
    obtain ⟨-, cw, len, hm, -, hshape⟩ :=
      sym_ok hs l hl hl0 hnd hlt c ((hmem c).2 hc)
    refine ⟨cw, len, hm, ?_⟩
    have hb1 := hs.b_pos
    rcases hshape with ⟨h1, -⟩ | ⟨h1, h2, -⟩
    · omega
    · have hKM : K < M := by
        by_contra hc'
        have : K = M := by
          rcases hs.tiers with ⟨t, -⟩ | ⟨t, -⟩ <;> omega
        have := hl0 this
        omega
      have := hdl hKM
      omega
  obtain ⟨enc, henc, hench⟩ := encode_holds (loaded B) ByteStream.new key _ hread hmap
  rw [loaded_data] at hench
  obtain ⟨out, hdec, hout⟩ := decode_encoded p M K b l hs hb8 hl hdl hl0 hnd hlt key
    (by exact hread) B (fun c hc => (hmem c).2 hc) ((loaded B).assign enc) enc
    (hench.assign _) hN fuel hfuel
  unfold roundTrip
  simp only [hk, henc, hdec, Option.bind_eq_bind, Option.some_bind, if_true, Option.pure_def,
    hout, hs.bits, Int.toNat_ofNat]

/-- Bytes that the loop of `Decode` can emit with a given encoding map: the byte of an
entry, or 0 for a codeword pair without entry. -/
theorem decoded_byte_cases (enc : encoding_map) (pr : Nat × Nat) :
    (∃ k, k < 256 ∧ enc k = some pr ∧ ((GetDecodingMap enc pr).getD 0) % 256 = k) ∨
    (GetDecodingMap enc pr = none ∧ ((GetDecodingMap enc pr).getD 0) % 256 = 0) := by
  cases h : GetDecodingMap enc pr with
  | none => right; exact ⟨rfl, rfl⟩
  | some v =>
    left
    obtain ⟨k, hk, hm, hv⟩ := GetDecodingMap_mem enc pr v h
    exact ⟨k, hk, hm, by rw [Option.getD_some, hv, toUInt_charToInt k hk]⟩

theorem decodeLoop_bytes (s : ByteStream) (enc : encoding_map) (bs bl ek diff : Int)
    (P : Nat → Prop)
    (hP : ∀ pr, P (((GetDecodingMap enc pr).getD 0) % 256)) :
    ∀ (fuel : Nat) (bit_ptr : Int) (out res : ByteStream),
      out.nextBit = 0 → (∀ x ∈ out.data, P x) →
      decodeLoop s (GetDecodingMap enc) bs bl ek diff fuel bit_ptr out = some res →
      res.nextBit = 0 ∧ ∀ x ∈ res.data, P x := by
  intro fuel
  induction fuel with
  | zero => intro bit_ptr out res _ _ h; simp [decodeLoop] at h
  | succ fuel ih =>
    intro bit_ptr out res h0 hall h
    rw [decodeLoop_succ] at h
    by_cases hg : bit_ptr + bs < (s.size : Int) * 8
    · rw [if_pos hg] at h
      cases hstep : decodeStep s bs bl ek diff bit_ptr with
      | none => simp [hstep] at h
      | some step =>
        rw [hstep, Option.some_bind] at h
        cases step with
        | stop =>
          simp only [Option.some.injEq] at h
          subst h
          exact ⟨h0, hall⟩
        | emit bit_ptr1 codeword bitcount =>
          simp only at h
          have hlt : ((GetDecodingMap enc (codeword, bitcount % 65536)).getD 0) % 256 < 256 :=
            Nat.mod_lt _ (by norm_num)
          rw [put8 out _ h0 hlt, Option.some_bind] at h
          refine ih bit_ptr1 { out with data := out.data
            ++ [((GetDecodingMap enc (codeword, bitcount % 65536)).getD 0) % 256] } res h0 ?_ h
          intro x hx
          simp only [List.mem_append, List.mem_singleton] at hx
          rcases hx with hx | hx
          · exact hall x hx
          · rw [hx]; exact hP _
    · rw [if_neg hg] at h
      simp only [Option.some.injEq] at h
      subst h
      exact ⟨h0, hall⟩

/-- `Decode` has no failure for an unknown codeword: when it returns, the key was parsed,
the flag is `true`, and every output byte is the byte of an entry of the parsed map or
the default 0. -/
theorem decode_unknown_aux (fuel : Nat) (inStream outStream keyStream : ByteStream)
    (ok : Bool) (out : ByteStream)
    (h : Decode fuel inStream outStream keyStream = some (ok, out)) :
    (ok = false ∧ ReadMapFromKeyStream keyStream = some none ∧ out.data = []) ∨
    (ok = true ∧ ∃ kd, ReadMapFromKeyStream keyStream = some (some kd) ∧
      ∀ x ∈ out.data, (∃ k pr, k < 256 ∧ kd.map k = some pr ∧ x = k) ∨ x = 0) := by
  unfold Decode at h
  cases hr : ReadMapFromKeyStream keyStream with
  | none => simp [hr] at h
  | some r =>
    cases r with
    | none =>
      simp only [hr, Option.some.injEq, Prod.mk.injEq] at h
      left
      exact ⟨h.1.symm, rfl, by rw [← h.2]; rfl⟩
    | some kd =>
      simp only [hr, Option.bind_eq_bind] at h
      right
      cases hek : extendedKey kd.bits_short with
      | none => simp [hek] at h
      | some ek =>
        simp only [hek, Option.some_bind] at h
        cases hl : decodeLoop inStream (GetDecodingMap kd.map) kd.bits_short kd.bits_long ek
            (kd.bits_long - kd.bits_short) fuel 0 outStream.clear with
        | none => simp [hl] at h
        | some res =>
          simp only [hl, Option.some_bind, Option.pure_def, Option.some.injEq,
            Prod.mk.injEq] at h
          refine ⟨h.1.symm, kd, rfl, ?_⟩
          have hP : ∀ pr, (fun x => (∃ k pr, k < 256 ∧ kd.map k = some pr ∧ x = k) ∨ x = 0)
              (((GetDecodingMap kd.map pr).getD 0) % 256) := by
            intro pr
            rcases decoded_byte_cases kd.map pr with ⟨k, hk, hm, hv⟩ | ⟨-, hv⟩
            · left; exact ⟨k, pr, hk, hm, hv⟩
            · right; exact hv
          have := (decodeLoop_bytes inStream kd.map _ _ _ _
            (fun x => (∃ k pr, k < 256 ∧ kd.map k = some pr ∧ x = k) ∨ x = 0) hP fuel 0
            outStream.clear res rfl (by intro x hx; simp [ByteStream.clear] at hx) hl).2
          rw [← h.2, bytes_changed_data]
          exact this

theorem buildOrdering_append (s : ByteStream) :
    ∀ (l1 l2 ord : List Nat),
      buildOrdering s (l1 ++ l2) ord = (buildOrdering s l1 ord).bind (buildOrdering s l2) := by
  intro l1
  induction l1 with
  | nil => intro l2 ord; simp [buildOrdering]
  | cons i l1 ih =>
    intro l2 ord
    simp only [List.cons_append, buildOrdering, Option.bind_eq_bind]
    cases hf : s.byte_frequency (i : Int) with
    | none => simp
    | some f =>
      simp only [Option.some_bind]
      by_cases hpos : f > 0
      · simp only [hpos, if_true]
        cases hins : insertByte s i ord with
        | none => simp
        | some ord1 => simp only [Option.some_bind]; exact ih l2 ord1
      · simp only [hpos, if_false]
        exact ih l2 ord

theorem low_of_frequency {s : ByteStream} {x f : Nat} (hx : x < 256)
    (h : s.byte_frequency (charToInt x) = some f) : x < 128 := by
  have := (byte_frequency_some h).1
  unfold charToInt at this
  by_contra hc
  rw [if_neg hc] at this
  omega

/-- Where the insertion sort puts a byte: every element in front of it, and the element
right behind it, has been compared with it. -/
theorem insertByte_split (s : ByteStream) (i : Nat) :
    ∀ (ord ord' : List Nat), (∀ x ∈ ord, x < 256) → insertByte s i ord = some ord' →
      ∃ a b, ord = a ++ b ∧ ord' = a ++ toChar i :: b ∧ (∀ x ∈ a, x < 128) ∧
        (∀ x ∈ b.head?, x < 128) := by
  intro ord
  induction ord with
  | nil =>
    intro ord' _ h
    simp only [insertByte, Option.some.injEq] at h
    exact ⟨[], [], rfl, by rw [← h]; rfl, by simp, by simp⟩
  | cons j rest ih =>
    intro ord' hlt h
    have hj : j < 256 := hlt j (List.mem_cons_self _ _)
    simp only [insertByte, Option.bind_eq_bind] at h
    cases hfi : s.byte_frequency (i : Int) with
    | none => simp [hfi] at h
    | some fi =>
      cases hfj : s.byte_frequency (charToInt j) with
      | none => simp [hfi, hfj] at h
      | some fj =>
        have hjlow := low_of_frequency hj hfj
        simp only [hfi, hfj, Option.some_bind] at h
        by_cases hgt : fi > fj
        · simp only [hgt, if_true, Option.some.injEq] at h
          exact ⟨[], j :: rest, rfl, by rw [← h]; rfl, by simp, by simpa using hjlow⟩
        · simp only [hgt, if_false] at h
          cases hr : insertByte s i rest with
          | none => simp [hr] at h
          | some r =>
            simp only [hr, Option.map_some', Option.some.injEq] at h
            obtain ⟨a, b, e1, e2, e3, e4⟩ :=
              ih r (fun x hx => hlt x (List.mem_cons_of_mem _ hx)) hr
            refine ⟨j :: a, b, by rw [e1]; rfl, by rw [← h, e2]; rfl, ?_, e4⟩
            intro x hx
            rcases List.mem_cons.1 hx with rfl | hx
            · exact hjlow
            · exact e3 x hx

theorem countP_high_low (w : List Nat) (h : ∀ x ∈ w, x < 128) :
    w.countP (fun x => decide (128 ≤ x)) = 0 := by
  rw [List.countP_eq_zero]
  intro a ha
  have := h a ha
  simp only [decide_eq_true_eq]
  omega

theorem prefix_length_le {α : Type} (w r a b : List α) (h : w ++ r = a ++ b)
    (hlen : a.length < w.length) : ∃ t, w = a ++ b.take 1 ++ t ∧ b ≠ [] := by
  have hpre : a <+: w ++ r := ⟨b, h.symm⟩
  have hpw : a <+: w := by
    rw [List.prefix_iff_eq_take] at hpre ⊢
    rw [hpre, List.take_append_of_le_length (by omega)]
    simp
  obtain ⟨t, rfl⟩ := hpw
  rw [List.append_assoc] at h
  have hb := List.append_cancel_left h
  simp only [List.length_append] at hlen
  cases t with
  | nil => simp at hlen
  | cons x t' =>
    rw [List.cons_append] at hb
    rw [← hb]
    exact ⟨t', by simp, by simp⟩

theorem HighInvariant.insert {s : ByteStream} {i : Nat} {ord ord' : List Nat}
    (hinv : HighInvariant ord) (hi : 128 ≤ i) (hi256 : i < 256)
    (h : insertByte s i ord = some ord') : HighInvariant ord' := by
  obtain ⟨hlt, hlen, hJ⟩ := hinv
  obtain ⟨a, b, e1, e2, e3, e4⟩ := insertByte_split s i ord ord' hlt h
  have hti : toChar (i : Int) = i := toChar_natCast i hi256
  rw [hti] at e2
  have hcount : ord'.countP (fun x => decide (128 ≤ x))
      = ord.countP (fun x => decide (128 ≤ x)) + 1 := by
    rw [e2, e1]
    simp only [List.countP_append, List.countP_cons, decide_eq_true_eq, if_pos hi]
    omega
  have hl1 : ord.length = a.length + b.length := by rw [e1, List.length_append]
  have hl2 : ord'.length = a.length + b.length + 1 := by
    rw [e2]; simp only [List.length_append, List.length_cons]; omega
  refine ⟨?_, ?_, ?_⟩
  · intro x hx
    rw [e2] at hx
    simp only [List.mem_append, List.mem_cons] at hx
    rcases hx with hx | rfl | hx
    · exact hlt x (by rw [e1]; exact List.mem_append_left _ hx)
    · exact hi256
    · exact hlt x (by rw [e1]; exact List.mem_append_right _ hx)
  · rw [hcount, hl2]
    omega
  · intro w rest hw hwlow
    rw [hcount]
    -- a prefix of low bytes of the new list lies inside `a`
    have hwa : w.length ≤ a.length := by
      by_contra hc
      obtain ⟨t, ht, -⟩ := prefix_length_le w rest a (i :: b) (by rw [← hw, e2])
        (by omega)
      have : i ∈ w := by rw [ht]; simp
      have := hwlow i this
      omega
    by_cases hz : ord.countP (fun x => decide (128 ≤ x)) = 0
    · rw [hz]
      rw [hz] at hlen
      omega
    · -- the old list has a byte from 0x80 on, so `b` is not empty and its head is low
      have hb : b ≠ [] := by
        intro hb0
        apply hz
        rw [e1, hb0, List.append_nil]
        exact countP_high_low a e3
      cases b with
      | nil => exact absurd rfl hb
      | cons x b' =>
        have hx : x < 128 := e4 x (by simp)
        have := hJ (a ++ [x]) b' (by rw [e1]; simp) (by
          intro y hy
          simp only [List.mem_append, List.mem_singleton] at hy
          rcases hy with hy | rfl
          · exact e3 y hy
          · exact hx)
        simp only [List.length_append, List.length_singleton] at this
        omega

theorem buildOrdering_high (s : ByteStream) :
    ∀ (is ord ord' : List Nat), (∀ i ∈ is, 128 ≤ i ∧ i < 256) → HighInvariant ord →
      buildOrdering s is ord = some ord' → HighInvariant ord' := by
  intro is
  induction is with
  | nil =>
    intro ord ord' _ hinv h
    simp only [buildOrdering, Option.some.injEq] at h
    rw [← h]; exact hinv
  | cons i rest ih =>
    intro ord ord' his hinv h
    have hi := his i (List.mem_cons_self _ _)
    simp only [buildOrdering, Option.bind_eq_bind] at h
    cases hf : s.byte_frequency (i : Int) with
    | none => simp [hf] at h
    | some f =>
      simp only [hf, Option.some_bind] at h
      by_cases hpos : f > 0
      · simp only [hpos, if_true] at h
        cases hins : insertByte s i ord with
        | none => simp [hins] at h
        | some ord1 =>
          simp only [hins, Option.some_bind] at h
          exact ih ord1 ord' (fun k hk => his k (List.mem_cons_of_mem _ hk))
            (hinv.insert hi.1 hi.2 hins) h
      · simp only [hpos, if_false] at h
        exact ih ord ord' (fun k hk => his k (List.mem_cons_of_mem _ hk)) hinv h

theorem planKey_ordering (A : Arith) (tf : A.F) (s : ByteStream) (p : Plan)
    (h : planKey A tf s = some p) :
    buildOrdering s (List.range 256) [] = some p.ordering := by
  unfold planKey at h
  simp only [Option.bind_eq_bind] at h
  cases hord : buildOrdering s (List.range 256) [] with
  | none => simp [hord] at h
  | some ordering =>
    simp only [hord, Option.some_bind] at h
    by_cases hz : (ordering.length : Int) = 0
    · simp [hz] at h
    · simp only [hz, if_false] at h
      cases hw : walkTarget A s tf ordering A.zero 0 with
      | none => simp [hw] at h
      | some r1 =>
        obtain ⟨it1, fraction1, count1⟩ := r1
        simp only [hw, Option.some_bind] at h
        cases hx : walkExtra A s (extraCharacters (targetBits count1) count1).toNat it1
            fraction1 count1 with
        | none => simp [hx] at h
        | some r2 =>
          obtain ⟨it2, fraction2, count2⟩ := r2
          simp only [hx, Option.some_bind] at h
          cases hf : foldSingle s (ordering.length : Int) (targetBits count1) it2 count2 with
          | none => simp [hf] at h
          | some count3 =>
            simp only [hf, Option.some_bind, Option.pure_def, Option.some.injEq] at h
            subst h
            rfl

theorem range_256_split :
    List.range 256 = List.range 128 ++ (List.range 128).map (fun i => i + 128) := by
  decide!

theorem ordering_highInvariant (s : ByteStream) (ord : List Nat)
    (h : buildOrdering s (List.range 256) [] = some ord) : HighInvariant ord := by
  rw [range_256_split, buildOrdering_append] at h
  cases h1 : buildOrdering s (List.range 128) [] with
  | none => simp [h1] at h
  | some ord1 =>
    simp only [h1, Option.some_bind] at h
    have hperm := buildOrdering_perm s (List.range 128) [] ord1
      (fun i hi => by have := List.mem_range.1 hi; omega) h1
    rw [List.append_nil] at hperm
    have hlow : ∀ x ∈ ord1, x < 128 := by
      intro x hx
      rw [hperm.mem_iff, List.mem_filter, List.mem_range] at hx
      exact hx.1
    have hlen : ord1.length ≤ 128 := by
      rw [hperm.length_eq]
      exact le_trans (List.length_filter_le _ _) (by simp)
    have hinv : HighInvariant ord1 := by
      refine ⟨fun x hx => by have := hlow x hx; omega, by omega, ?_⟩
      intro w rest hw _
      rw [countP_high_low ord1 hlow]
      have : w.length ≤ ord1.length := by rw [hw]; simp
      omega
    refine buildOrdering_high s _ ord1 ord ?_ hinv h
    intro i hi
    obtain ⟨k, hk, rfl⟩ := List.mem_map.1 hi
    have := List.mem_range.1 hk
    omega

/-- A completed plan for a positive target fraction covers at most 254 byte values. -/
theorem planKey_M_le (A : Arith) (tf : A.F) (s : ByteStream) (p : Plan)
    (h : planKey A tf s = some p) (htf : A.lt A.zero tf = true) :
    p.ordering.length ≤ 254 := by
  obtain ⟨M, K, b, hs, hb2, hperm, w, rest, hw, hwlow, hwl⟩ := planKey_shape A tf s p h
  obtain ⟨hlt, hlen, hJ⟩ := ordering_highInvariant s p.ordering (planKey_ordering A tf s p h)
  have hb := hb2 htf
  have hwlow' : ∀ x ∈ w, x < 128 :=
    fun x hx => hwlow x hx (hlt x (by rw [hw]; exact List.mem_append_left _ hx))
  have hJw := hJ w rest hw hwlow'
  rcases hwl with hr | hr
  · subst hr
    rw [List.append_nil] at hw
    rw [hw, countP_high_low w hwlow'] at hlen
    rw [hw]
    omega
  · have h4 : 4 ≤ 2 ^ b :=
      calc 4 = 2 ^ 2 := rfl
        _ ≤ 2 ^ b := Nat.pow_le_pow_right (by norm_num) hb
    omega

theorem bitsOf_ones (b : Nat) : bitsOf b (2 ^ b - 1) = List.replicate b true := by
  have key : ∀ n, n ≤ b → bitsOf n (2 ^ b - 1) = List.replicate n true := by
    intro n
    induction n with
    | zero => intro _; rfl
    | succ n ih =>
      intro hn
      rw [bitsOf, ih (by omega), Nat.testBit_two_pow_sub_one, List.replicate_succ]
      simp only [List.cons.injEq, decide_eq_true_eq, and_true]
      omega
  exact key b le_rfl

theorem shortEntries_bits (b : Nat) :
    ∀ (count i : Nat) (n : List Nat), count ≤ n.length →
      (shortEntries b count i n).flatMap entryBits
        = (List.range count).flatMap (fun k => bitsOf 8 (n.getD k 0) ++ bitsOf b (i + k)) := by
  intro count
  induction count with
  | zero => intro i n _; simp [shortEntries]
  | succ count ih =>
    intro i n hn
    cases n with
    | nil => simp at hn
    | cons c n =>
      simp only [List.length_cons] at hn
      rw [List.range_succ_eq_map]
      simp only [shortEntries, List.flatMap_cons, List.flatMap_map, entryBits,
        bitsOf_mod _ _ _ le_rfl, ih (i + 1) n (by omega)]
      congr 1
      apply List.flatMap_congr
      intro k _
      simp only [Function.comp_apply, Nat.succ_eq_add_one, List.getD_cons_succ]
      congr 2
      omega

theorem longEntries_bits (K b l : Nat) (hbl : b ≤ l) :
    ∀ (count j : Nat) (n : List Nat), count ≤ n.length →
      (longEntries K b l count j n).flatMap entryBits
        = (List.range count).flatMap (fun k =>
            bitsOf 8 (n.getD k 0) ++ bitsOf b K ++ bitsOf (l - b) (j + k)) := by
  intro count
  induction count with
  | zero => intro j n _; simp [longEntries]
  | succ count ih =>
    intro j n hn
    cases n with
    | nil => simp at hn
    | cons c n =>
      simp only [List.length_cons] at hn
      rw [List.range_succ_eq_map]
      have hlt : j % 2 ^ (l - b) < 2 ^ (l - b) := Nat.mod_lt _ (by positivity)
      simp only [longEntries, List.flatMap_cons, List.flatMap_map, entryBits,
        bitsOf_cat_eq l b (l - b) _ _ (by omega) hlt,
        bitsOf_mod _ _ _ le_rfl, ih (j + 1) n (by omega)]
      simp only [List.getD_cons_zero, Nat.add_zero, List.append_assoc]
      congr 3
      apply List.flatMap_congr
      intro k _
      simp only [Function.comp_apply, Nat.succ_eq_add_one, List.getD_cons_succ,
        List.append_assoc]
      congr 3
      omega

theorem getD_drop (l : List Nat) (k j : Nat) : (l.drop k).getD j 0 = l.getD (k + j) 0 := by
  simp [List.getD_eq_getElem?_getD, List.getElem?_drop]

/-- The bit string of a key is the layout the specification describes. -/
theorem keyBits_eq_spec {p : Plan} {M K b : Nat} (hs : PlanShape p M K b)
    (l : Nat) (hl : p.bits_per_remaining_characters = (l : Int)) :
    keyBits p = specKeyBits p.ordering M K b l := by
  obtain ⟨l', hl', -, htier⟩ := hs.long_bits
  have hll : l' = l := by
    have := hl'.symm.trans hl
    exact_mod_cast this
  subst hll
  have hcnt : ((M : Int) - (K : Int)).toNat = M - K := by omega
  have hKM : K ≤ M := by rcases htier with ⟨h1, -⟩ | ⟨h1, -⟩ <;> omega
  have hshort := shortEntries_bits b K 0 p.ordering (by rw [hs.len]; exact hKM)
  simp only [Nat.zero_add] at hshort
  have hlong : (longEntries K b l' (M - K) 0 (p.ordering.drop K)).flatMap entryBits
      = (List.range (M - K)).flatMap (fun j =>
          bitsOf 8 (p.ordering.getD (K + j) 0) ++ List.replicate b true
            ++ bitsOf (l' - b) j) := by
    rcases htier with ⟨h1, -⟩ | ⟨h1, h2, h3, -⟩
    · have : M - K = 0 := by omega
      rw [this]; simp [longEntries]
    · rw [longEntries_bits K b l' (by omega) (M - K) 0 (p.ordering.drop K)
        (by rw [List.length_drop, hs.len])]
      apply List.flatMap_congr
      intro k _
      have hK : K = 2 ^ b - 1 := by omega
      rw [getD_drop, Nat.zero_add]
      conv_lhs => rw [hK, bitsOf_ones, ← hK]
  simp only [keyBits, headerBits, codebook, hs.upto, hs.bits, hs.unique, hl, Int.toNat_ofNat,
    hcnt, List.flatMap_append, hshort, hlong, specKeyBits, bitsOf_toChar _ _ (le_refl 8),
    List.append_assoc]

theorem take_four (l : List Nat) (h : 4 ≤ l.length) :
    l.take 4 = [l.getD 0 0, l.getD 1 0, l.getD 2 0, l.getD 3 0] := by
  match l, h with
  | a :: b :: c :: d :: rest, _ => simp

theorem key_header (p : Plan) (key : ByteStream) (hk : Holds key (keyBits p)) :
    key.data.take 4 = [toChar p.unique_bytes, toChar p.unique_upto_target_fraction,
      toChar p.bits_per_target_character, toChar p.bits_per_remaining_characters] := by
  have hkb : keyBits p = bitsOf 8 (toChar p.unique_bytes)
      ++ bitsOf 8 (toChar p.unique_upto_target_fraction)
      ++ bitsOf 8 (toChar p.bits_per_target_character)
      ++ bitsOf 8 (toChar p.bits_per_remaining_characters)
      ++ (codebook p).flatMap entryBits := by
    simp only [keyBits, headerBits]
  have g0 := hk.getD [] (bitsOf 8 (toChar p.unique_upto_target_fraction)
      ++ bitsOf 8 (toChar p.bits_per_target_character)
      ++ bitsOf 8 (toChar p.bits_per_remaining_characters)
      ++ (codebook p).flatMap entryBits) (toChar p.unique_bytes) 0
      (by rw [hkb]; simp [List.append_assoc]) rfl (toChar_lt _)
  have g1 := hk.getD (bitsOf 8 (toChar p.unique_bytes))
      (bitsOf 8 (toChar p.bits_per_target_character)
      ++ bitsOf 8 (toChar p.bits_per_remaining_characters)
      ++ (codebook p).flatMap entryBits) (toChar p.unique_upto_target_fraction) 1
      (by rw [hkb]; simp [List.append_assoc]) (by simp [bitsOf_length]) (toChar_lt _)
  have g2 := hk.getD (bitsOf 8 (toChar p.unique_bytes)
        ++ bitsOf 8 (toChar p.unique_upto_target_fraction))
      (bitsOf 8 (toChar p.bits_per_remaining_characters) ++ (codebook p).flatMap entryBits)
      (toChar p.bits_per_target_character) 2
      (by rw [hkb]; simp [List.append_assoc]) (by simp [bitsOf_length]) (toChar_lt _)
  have g3 := hk.getD (bitsOf 8 (toChar p.unique_bytes)
        ++ bitsOf 8 (toChar p.unique_upto_target_fraction)
        ++ bitsOf 8 (toChar p.bits_per_target_character))
      ((codebook p).flatMap entryBits) (toChar p.bits_per_remaining_characters) 3
      (by rw [hkb]) (by simp [bitsOf_length]) (toChar_lt _)
  have hsz := hk.size
  have hlen : 32 ≤ (keyBits p).length := by
    simp only [keyBits, List.length_append, headerBits_length]; omega
  rw [take_four _ (by omega), g0, g1, g2, g3]

/-- A frequency query with an index in range is answered once the statistics are
fresh. -/
theorem byte_frequency_fresh (s : ByteStream) (hs : s.bytesChanged = false) (i : Nat)
    (hi : i < 256) : s.byte_frequency (i : Int) = some (s.byteFrequency.getD i 0) := by
  unfold ByteStream.byte_frequency
  rw [if_pos ⟨by omega, by omega⟩, hs]
  simp

theorem byte_probability_fresh (s : ByteStream) (hs : s.bytesChanged = false) (i : Nat)
    (hi : i < 256) : ∃ pr, s.byte_probability (i : Int) = some pr := by
  unfold ByteStream.byte_probability
  rw [if_pos ⟨by omega, by omega⟩, hs]
  exact ⟨_, rfl⟩

theorem charToInt_low (j : Nat) (hj : j < 128) : charToInt j = (j : Int) := by
  unfold charToInt
  rw [if_pos hj]

/-- The inner loop of the insertion sort completes when the ordering holds bytes below
`0x80` only. -/
theorem insertByte_total (s : ByteStream) (hs : s.bytesChanged = false) (i : Nat)
    (hi : i < 256) :
    ∀ ord : List Nat, (∀ j ∈ ord, j < 128) → ∃ ord', insertByte s i ord = some ord' := by
  intro ord
  induction ord with
  | nil => intro _; exact ⟨_, rfl⟩
  | cons j rest ih =>
    intro hlow
    have hj := hlow j (List.mem_cons_self _ _)
    obtain ⟨r, hr⟩ := ih (fun x hx => hlow x (List.mem_cons_of_mem _ hx))
    simp only [insertByte, Option.bind_eq_bind]
    rw [byte_frequency_fresh s hs i hi, charToInt_low j hj,
      byte_frequency_fresh s hs j (by omega)]
    simp only [Option.some_bind]
    split
    · exact ⟨_, rfl⟩
    · rw [hr]; exact ⟨_, rfl⟩

/-- The insertion sort completes when every byte value of positive frequency is below
`0x80`. -/
theorem buildOrdering_total (s : ByteStream) (hs : s.bytesChanged = false)
    (hlow : ∀ i, i < 256 → 0 < s.byteFrequency.getD i 0 → i < 128) :
    ∀ (is ord : List Nat), (∀ i ∈ is, i < 256) → (∀ j ∈ ord, j < 128) →
      ∃ ord', buildOrdering s is ord = some ord' := by
  intro is
  induction is with
  | nil => intro ord _ _; exact ⟨ord, rfl⟩
  | cons i is ih =>
    intro ord his hord
    have hi := his i (List.mem_cons_self _ _)
    have his' : ∀ k ∈ is, k < 256 := fun k hk => his k (List.mem_cons_of_mem _ hk)
    simp only [buildOrdering, Option.bind_eq_bind]
    rw [byte_frequency_fresh s hs i hi]
    simp only [Option.some_bind]
    by_cases hf : s.byteFrequency.getD i 0 > 0
    · rw [if_pos hf]
      obtain ⟨ord1, h1⟩ := insertByte_total s hs i hi ord hord
      rw [h1, Option.some_bind]
      apply ih ord1 his'
      intro j hj
      have hp := (insertByte_perm s i ord ord1 h1).mem_iff.1 hj
      rcases List.mem_cons.1 hp with h | h
      · rw [h, toChar_natCast i hi]; exact hlow i hi hf
      · exact hord j h
    · rw [if_neg hf]
      exact ih ord his' hord

theorem walkTarget_total (A : Arith) (s : ByteStream) (hs : s.bytesChanged = false)
    (tf : A.F) :
    ∀ (l : List Nat) (acc : A.F) (cnt : Nat), (∀ c ∈ l, c < 128) →
      ∃ r, walkTarget A s tf l acc cnt = some r := by
  intro l
  induction l with
  | nil => intro acc cnt _; exact ⟨_, rfl⟩
  | cons c rest ih =>
    intro acc cnt hlow
    have hc := hlow c (List.mem_cons_self _ _)
    simp only [walkTarget]
    split
    · obtain ⟨pr, hpr⟩ := byte_probability_fresh s hs c (by omega)
      rw [charToInt_low c hc, hpr]
      simp only [Option.bind_eq_bind, Option.some_bind]
      exact ih _ _ (fun x hx => hlow x (List.mem_cons_of_mem _ hx))
    · exact ⟨_, rfl⟩

theorem walkExtra_total (A : Arith) (s : ByteStream) (hs : s.bytesChanged = false) :
    ∀ (extra : Nat) (l : List Nat) (acc : A.F) (cnt : Nat), (∀ c ∈ l, c < 128) →
      ∃ r, walkExtra A s extra l acc cnt = some r := by
  intro extra
  induction extra with
  | zero => intro l acc cnt _; exact ⟨_, rfl⟩
  | succ extra ih =>
    intro l acc cnt hlow
    cases l with
    | nil => exact ⟨_, rfl⟩
    | cons c rest =>
      have hc := hlow c (List.mem_cons_self _ _)
      obtain ⟨pr, hpr⟩ := byte_probability_fresh s hs c (by omega)
      simp only [walkExtra, Option.bind_eq_bind]
      rw [charToInt_low c hc, hpr]
      simp only [Option.some_bind]
      exact ih _ _ _ (fun x hx => hlow x (List.mem_cons_of_mem _ hx))

theorem foldSingle_total (s : ByteStream) (hs : s.bytesChanged = false) (M b : Nat)
    (it : List Nat) (count : Nat) (hlow : ∀ c ∈ it, c < 128)
    (hit : M = 2 ^ b → it ≠ []) :
    ∃ count3, foldSingle s (M : Int) (b : Int) it count = some count3 := by
  unfold foldSingle
  rw [extraCharacters_nat]
  split
  · rename_i hcond
    have hM : M = 2 ^ b := by omega
    cases it with
    | nil => exact absurd rfl (hit hM)
    | cons c rest =>
      have hc := hlow c (List.mem_cons_self _ _)
      obtain ⟨pr, hpr⟩ := byte_probability_fresh s hs c (by omega)
      simp only [Option.bind_eq_bind]
      rw [charToInt_low c hc, hpr]
      exact ⟨_, rfl⟩
  · exact ⟨_, rfl⟩

/-- The analysis part of `GenerateKey` completes on a buffer with fresh statistics that
has at least one byte and in which every byte value of positive frequency is below
`0x80`. -/
theorem planKey_total (A : Arith) (tf : A.F) (s : ByteStream) (hs : s.bytesChanged = false)
    (hlow : ∀ i, i < 256 → 0 < s.byteFrequency.getD i 0 → i < 128)
    (hne : ∃ i, i < 256 ∧ 0 < s.byteFrequency.getD i 0) :
    ∃ p, planKey A tf s = some p := by
  obtain ⟨ordering, hord⟩ := buildOrdering_total s hs hlow (List.range 256) []
    (fun i hi => List.mem_range.1 hi) (fun j hj => by cases hj)
  have hperm := buildOrdering_perm s (List.range 256) [] ordering
    (fun i hi => List.mem_range.1 hi) hord
  rw [List.append_nil] at hperm
  have hmem : ∀ c, c ∈ ordering ↔ c < 256 ∧ 0 < s.byteFrequency.getD c 0 := by
    intro c
    rw [hperm.mem_iff, List.mem_filter, List.mem_range]
    simp
  have hordlow : ∀ c ∈ ordering, c < 128 := fun c hc =>
    hlow c ((hmem c).1 hc).1 ((hmem c).1 hc).2
  obtain ⟨i0, hi0, hf0⟩ := hne
  have hne' : ordering ≠ [] := by
    intro h0
    have := (hmem i0).2 ⟨hi0, hf0⟩
    rw [h0] at this
    cases this
  have hz : ¬ ((ordering.length : Int) = 0) := by
    intro h0
    apply hne'
    exact List.length_eq_zero.1 (by exact_mod_cast h0)
  have hMle : ordering.length ≤ 256 := by
    rw [hperm.length_eq]
    exact le_trans (List.length_filter_le _ _) (by simp)
  obtain ⟨⟨it1, fraction1, count1⟩, hw⟩ := walkTarget_total A s hs tf ordering A.zero 0 hordlow
  obtain ⟨w1, e1, c1, -, -⟩ := walkTarget_split A s tf _ _ _ _ _ _ hw
  simp only [Nat.zero_add] at c1
  have hit1 : ∀ c ∈ it1, c < 128 := fun c hc =>
    hordlow c (by rw [e1]; exact List.mem_append_right _ hc)
  have hM : ordering.length = count1 + it1.length := by
    rw [e1, List.length_append, c1]
  obtain ⟨b, hb, hb1, hb9, -, hbc⟩ := targetBits_spec count1 (by omega)
  have hpow : (((2 ^ b : Nat) : Int) - (count1 : Int) - 1).toNat = 2 ^ b - count1 - 1 := by
    omega
  obtain ⟨⟨it2, fraction2, count2⟩, hx⟩ :=
    walkExtra_total A s hs (2 ^ b - count1 - 1) it1 fraction1 count1 hit1
  obtain ⟨w2, e2, c2, -, l2, -⟩ := walkExtra_split A s _ _ _ _ _ _ _ hx
  have hit2 : ∀ c ∈ it2, c < 128 := fun c hc =>
    hit1 c (by rw [e2]; exact List.mem_append_right _ hc)
  have hfold : ordering.length = 2 ^ b → it2 ≠ [] := by
    intro hMb h0
    rw [h0, List.append_nil] at e2
    rw [e2] at hM
    omega
  obtain ⟨count3, hf⟩ := foldSingle_total s hs ordering.length b it2 count2 hit2 hfold
  refine ⟨{ ordering := ordering, unique_bytes := (ordering.length : Int),
             unique_upto_target_fraction := (count3 : Int),
             bits_per_target_character := (b : Int),
             bits_per_remaining_characters :=
               remainingBits (ordering.length : Int) (b : Int) count3 }, ?_⟩
  unfold planKey
  simp only [Option.bind_eq_bind, hord, Option.some_bind, hz, if_false, hw, hb,
    extraCharacters_nat, hpow, hx, hf, Option.pure_def]

/-- The short width is at most 8 when the plan has at most 255 byte values. -/
theorem planKey_bits_le (A : Arith) (tf : A.F) (s : ByteStream) (p : Plan)
    (h : planKey A tf s = some p) (hM : p.ordering.length ≤ 255) :
    p.bits_per_target_character ≤ 8 := by
  unfold planKey at h
  simp only [Option.bind_eq_bind] at h
  cases hord : buildOrdering s (List.range 256) [] with
  | none => simp [hord] at h
  | some ordering =>
    simp only [hord, Option.some_bind] at h
    by_cases hz : (ordering.length : Int) = 0
    · simp [hz] at h
    · simp only [hz, if_false] at h
      cases hw : walkTarget A s tf ordering A.zero 0 with
      | none => simp [hw] at h
      | some r1 =>
        obtain ⟨it1, fraction1, count1⟩ := r1
        simp only [hw, Option.some_bind] at h
        obtain ⟨w1, e1, c1, -, -⟩ := walkTarget_split A s tf _ _ _ _ _ _ hw
        simp only [Nat.zero_add] at c1
        cases hx : walkExtra A s (extraCharacters (targetBits count1) count1).toNat it1
            fraction1 count1 with
        | none => simp [hx] at h
        | some r2 =>
          obtain ⟨it2, fraction2, count2⟩ := r2
          simp only [hx, Option.some_bind] at h
          cases hf : foldSingle s (ordering.length : Int) (targetBits count1) it2 count2 with
          | none => simp [hf] at h
          | some count3 =>
            simp only [hf, Option.some_bind, Option.pure_def, Option.some.injEq] at h
            subst h
            simp only at hM ⊢
            have hc : count1 ≤ 255 := by
              have := congrArg List.length e1
              rw [List.length_append] at this
              omega
            have h8 : ceilLog2 (count1 + 1) ≤ 8 := ceilLog2_le _ 8 (by norm_num; omega)
            unfold targetBits
            simp only
            split <;> omega

/-- The first write loop completes when the short width is in `1..8` and the iterator
has enough elements. -/
theorem writeShortWords_total (b : Nat) (hb1 : 1 ≤ b) (hb8 : b ≤ 8) :
    ∀ (count : Nat) (i : Int) (n : List Nat) (ks : ByteStream) (bs : List Bool),
      Holds ks bs → count ≤ n.length →
      ∃ n' ks' bs', writeShortWords (b : Int) count i n ks = some (n', ks') ∧ Holds ks' bs' := by
  intro count
  induction count with
  | zero => intro i n ks bs h _; exact ⟨n, ks, bs, rfl, h⟩
  | succ count ih =>
    intro i n ks bs h hlen
    cases n with
    | nil => simp at hlen
    | cons c n =>
      obtain ⟨k1, e1, h1, -⟩ := h.put c 8 (by omega) (by omega)
      obtain ⟨k2, e2, h2, -⟩ := h1.put (toChar i) b hb1 hb8
      obtain ⟨n', ks', bs', e3, h3⟩ := ih (i + 1) n k2 _ h2
        (by simp only [List.length_cons] at hlen; omega)
      refine ⟨n', ks', bs', ?_, h3⟩
      simp only [writeShortWords, Option.bind_eq_bind, e1, Option.some_bind,
        toUShort_natCast b (by omega), e2, e3]

/-- The second write loop completes when both widths it appends are in `1..8` and the
iterator has enough elements. -/
theorem writeLongWords_total (i : Int) (b l : Nat) (hb1 : 1 ≤ b) (hb8 : b ≤ 8)
    (hd1 : 1 ≤ l - b) (hd8 : l - b ≤ 8) :
    ∀ (count : Nat) (j : Int) (n : List Nat) (ks : ByteStream) (bs : List Bool),
      Holds ks bs → count ≤ n.length →
      ∃ ks', writeLongWords i (b : Int) (l : Int) count j n ks = some ks' := by
  have hd : toUShort ((l : Int) - (b : Int)) = l - b := by
    have e : (l : Int) - (b : Int) = ((l - b : Nat) : Int) := by omega
    rw [e, toUShort_natCast _ (by omega)]
  intro count
  induction count with
  | zero => intro j n ks bs _ _; exact ⟨ks, rfl⟩
  | succ count ih =>
    intro j n ks bs h hlen
    cases n with
    | nil => simp at hlen
    | cons c n =>
      obtain ⟨k1, e1, h1, -⟩ := h.put c 8 (by omega) (by omega)
      obtain ⟨k2, e2, h2, -⟩ := h1.put (toChar i) b hb1 hb8
      obtain ⟨k3, e3, h3, -⟩ := h2.put (toChar j) (l - b) hd1 hd8
      obtain ⟨ks', e4⟩ := ih (j + 1) n k3 _ h3
        (by simp only [List.length_cons] at hlen; omega)
      refine ⟨ks', ?_⟩
      simp only [writeLongWords, Option.bind_eq_bind, e1, Option.some_bind,
        toUShort_natCast b (by omega), e2, hd, e3, e4]

/-- The serialisation part of `GenerateKey` completes on every plan whose short width
is at most 8. -/
theorem writeKey_total (p : Plan) (M K b : Nat) (hs : PlanShape p M K b) (hb8 : b ≤ 8)
    (ks : ByteStream) : ∃ key, writeKey p ks = some key := by
  obtain ⟨l, hl, -, htier⟩ := hs.long_bits
  have hKM : K ≤ M := by rcases htier with ⟨h1, -⟩ | ⟨h1, -⟩ <;> omega
  have hb1 := hs.b_pos
  obtain ⟨k1, e1, h1, -⟩ := (Holds.clear ks).put (toChar p.unique_bytes) 8 (by omega) (by omega)
  obtain ⟨k2, e2, h2, -⟩ := h1.put (toChar p.unique_upto_target_fraction) 8 (by omega) (by omega)
  obtain ⟨k3, e3, h3, -⟩ := h2.put (toChar p.bits_per_target_character) 8 (by omega) (by omega)
  obtain ⟨k4, e4, h4, -⟩ := h3.put (toChar p.bits_per_remaining_characters) 8 (by omega)
    (by omega)
  obtain ⟨n, k5, bs5, e5, h5⟩ := writeShortWords_total b hb1 hb8 K 0 p.ordering k4 _ h4
    (by rw [hs.len]; exact hKM)
  have e5' : writeShortWords (b : Int) K ((0 : Nat) : Int) p.ordering k4 = some (n, k5) := by
    simp only [Nat.cast_zero]; exact e5
  obtain ⟨-, hn, -, -⟩ := writeShortWords_holds (b : Int) K 0 p.ordering k4 _ n k5 h4 e5'
  have hcnt : ((M : Int) - (K : Int)).toNat = M - K := by omega
  have hlong : ∃ key, writeLongWords (K : Int) (b : Int) (l : Int) (M - K) 0 n k5 = some key := by
    rcases htier with ⟨h1, -⟩ | ⟨h1, -, h3, h4, -⟩
    · have : M - K = 0 := by omega
      rw [this]
      exact ⟨k5, rfl⟩
    · have hle : ceilLog2 (M - K) ≤ 8 :=
        ceilLog2_le _ 8 (by have := hs.M_le; norm_num; omega)
      exact writeLongWords_total (K : Int) b l hb1 hb8 (by omega) (by omega) (M - K) 0 n k5 _
        h5 (by rw [hn, List.length_drop, hs.len])
  obtain ⟨key, e6⟩ := hlong
  refine ⟨key, ?_⟩
  rw [hs.unique] at e1
  rw [hs.upto] at e2
  rw [hs.bits] at e3
  rw [hl] at e4
  unfold writeKey
  simp only [Option.bind_eq_bind, hs.upto, hs.bits, hs.unique, hl, Int.toNat_ofNat, hcnt,
    e1, e2, e3, e4, e5, e6, Option.some_bind]

/-- Whenever the analysis part completes with at most 255 byte values, `GenerateKey`
completes. -/
theorem GenerateKey_of_planKey (A : Arith) (tf : A.F) (s : ByteStream) (p : Plan)
    (h : planKey A tf s = some p) (hM : p.ordering.length ≤ 255) (ks : ByteStream) :
    ∃ key, GenerateKey A tf s ks = some key := by
  obtain ⟨M, K, b, hs, -, -, -⟩ := planKey_shape A tf s p h
  have hb8 : b ≤ 8 := by
    have := planKey_bits_le A tf s p h hM
    rw [hs.bits] at this
    omega
  obtain ⟨key, hkey⟩ := writeKey_total p M K b hs hb8 ks
  exact ⟨key, by unfold GenerateKey; simp only [Option.bind_eq_bind, h, Option.some_bind, hkey]⟩

/-- Build completes on every non-empty buffer of bytes below `0x80`. -/
theorem GenerateKey_total (A : Arith) (tf : A.F) (B : List Nat) (hne : B ≠ [])
    (hB : ∀ x ∈ B, x < 128) (ks : ByteStream) :
    ∃ key, GenerateKey A tf (loaded B) ks = some key := by
  have hB256 : ∀ x ∈ B, x < 256 := fun x hx => lt_trans (hB x hx) (by norm_num)
  have hlow : ∀ i, i < 256 → 0 < (loaded B).byteFrequency.getD i 0 → i < 128 := by
    intro i _ hf
    rw [loaded_frequency B hB256] at hf
    exact hB i (List.count_pos_iff.1 hf)
  have hex : ∃ i, i < 256 ∧ 0 < (loaded B).byteFrequency.getD i 0 := by
    cases B with
    | nil => exact absurd rfl hne
    | cons x rest =>
      refine ⟨x, hB256 x (List.mem_cons_self _ _), ?_⟩
      rw [loaded_frequency _ hB256]
      exact List.count_pos_iff.2 (List.mem_cons_self _ _)
  obtain ⟨p, hp⟩ := planKey_total A tf (loaded B) (loaded_bytesChanged B) hlow hex
  obtain ⟨M, K, b, hs, -, hperm, -⟩ := planKey_shape A tf (loaded B) p hp
  have hnd := ordering_nodup (loaded B) p.ordering hperm
  have hmem := ordering_mem_loaded B p.ordering hB256 hperm
  have hsub : p.ordering ⊆ List.range 128 := by
    intro c hc
    exact List.mem_range.2 (hB c ((hmem c).1 hc))
  have hlen : p.ordering.length ≤ 128 := by
    have := (hnd.subperm hsub).length_le
    simpa using this
  exact GenerateKey_of_planKey A tf (loaded B) p hp (by omega) ks

theorem flatMap_length_le {α β : Type} (f : α → List β) (c : Nat) :
    ∀ es : List α, (∀ e ∈ es, (f e).length ≤ c) → (es.flatMap f).length ≤ c * es.length := by
  intro es
  induction es with
  | nil => intro _; simp
  | cons e es ih =>
    intro h
    have h1 := h e (List.mem_cons_self _ _)
    have h2 := ih (fun x hx => h x (List.mem_cons_of_mem _ hx))
    simp only [List.flatMap_cons, List.length_append, List.length_cons]
    rw [Nat.mul_succ]
    omega

/-- A key that serialises a plan has at most 837 bytes. -/
theorem key_size_le {p : Plan} {M K b : Nat} (hs : PlanShape p M K b) (key : ByteStream)
    (hk : Holds key (keyBits p)) : key.size ≤ 837 := by
  obtain ⟨l, hl, hl18, -⟩ := hs.long_bits
  have hlen : (codebook p).length = M := by
    have := congrArg List.length (codebook_map_fst hs)
    rw [List.length_map, hs.len] at this
    exact this
  have hentry : ∀ e ∈ codebook p, (entryBits e).length ≤ 26 := by
    intro e he
    rw [entryBits_length]
    have hb := hs.b_le
    rcases codebook_entry hs l hl e he with ⟨i, -, -, hi⟩ | ⟨j, -, -, -, -, -, hj⟩
    · rw [hi]; simp only; omega
    · rw [hj]; simp only; omega
  have hflat := flatMap_length_le entryBits 26 (codebook p) hentry
  rw [hlen] at hflat
  have hsz := hk.size
  have hM := hs.M_le
  have hpad := padLen_lt (keyBits p).length
  have hkb : (keyBits p).length = 32 + ((codebook p).flatMap entryBits).length := by
    unfold keyBits
    rw [List.length_append, headerBits_length]
  have : key.size = key.data.length := rfl
  omega

/-- The parser takes the count byte `M` of the header as a signed `char`: on a key whose
first byte is in `128..251` the size check compares with `2 ^ 32 - 252 + M` and the
parser returns `false`. -/
theorem parser_rejects_signed_count (key : ByteStream) (m : Nat) (h4 : 4 ≤ key.size)
    (hsz : key.size < 4294967040) (hm : key.data.getD 0 0 = m) (h128 : 128 ≤ m)
    (h252 : m < 252) : ReadMapFromKeyStream key = some none := by
  unfold ReadMapFromKeyStream
  rw [if_neg (by omega)]
  simp only
  have hc : charToInt m = (m : Int) - 256 := by
    unfold charToInt
    rw [if_neg (by omega)]
  have hu : toUInt ((m : Int) - 256) = 4294967040 + m := by
    unfold toUInt
    omega
  rw [hm, hc, hu, if_pos (by omega)]

/-- Build keys with 128 to 251 distinct byte values are rejected by the parser. -/
theorem build_key_rejected (A : Arith) (tf : A.F) (B : List Nat) (hB : ∀ x ∈ B, x < 256)
    (ks key : ByteStream) (h : GenerateKey A tf (loaded B) ks = some key)
    (h128 : 128 ≤ B.dedup.length) (h252 : B.dedup.length < 252) :
    key.data.getD 0 0 = B.dedup.length ∧ ReadMapFromKeyStream key = some none := by
  obtain ⟨p, M, K, b, l, hp, -, hs, hl, hk, -, -, -, hnd, hmem, -⟩ :=
    build_facts A tf B hB ks key h
  have hMd : M = B.dedup.length := by
    rw [← hs.len]; exact ordering_length_dedup B p.ordering hnd hmem
  have hhead := key_header p key hk
  rw [hs.unique, toChar_natCast M (by omega)] at hhead
  have hlen4 : 4 ≤ key.data.length := by
    have := congrArg List.length hhead
    simp only [List.length_take, List.length_cons, List.length_nil] at this
    omega
  have h0 : key.data.getD 0 0 = M := by
    have := congrArg (fun x => x.getD 0 0) hhead
    simp only [List.getD_eq_getElem?_getD, List.getElem?_take, List.getElem?_cons_zero] at this
    simpa [List.getD_eq_getElem?_getD] using this
  have hsize := key_size_le hs key hk
  refine ⟨by rw [h0, hMd], ?_⟩
  exact parser_rejects_signed_count key M hlen4 (by omega) h0 (by omega) (by omega)

theorem scenario_key :
    GenerateKey exactArith (1, 2) (loaded scenario) ByteStream.new = some scenarioKey := by
  decide!

/-- Build on `[0x41, 0x42, 0x43, 0x44]` with target 1/2, evaluated. -/
theorem folded_plan :
    planKey exactArith (1, 2) (loaded [0x41, 0x42, 0x43, 0x44])
      = some ⟨[0x41, 0x42, 0x43, 0x44], 4, 4, 2, 0⟩ := by
  decide!

theorem folded_key :
    GenerateKey exactArith (1, 2) (loaded [0x41, 0x42, 0x43, 0x44]) ByteStream.new
      = some foldedKey := by
  decide!

/-- Build on `[0x41]` with target 1/2, evaluated. -/
theorem single_plan :
    planKey exactArith (1, 2) (loaded [0x41]) = some ⟨[0x41], 1, 1, 2, 0⟩ := by
  decide!

/-- The chain Build, Encode, Decode on the two sample buffers, evaluated. -/
theorem scenario_roundTrip :
    roundTrip exactArith (1, 2) 100 scenario = some (true, [0x41, 0x41, 0x42]) := by
  decide!

theorem single_roundTrip :
    roundTrip exactArith (1, 2) 100 [0x41] = some (true, [0x41, 0x41, 0x41]) := by
  decide!

/-- C2. Bit-pack/unpack inverse: after any sequence of calls `put(v_1, n_1)`, ...,
`put(v_k, n_k)` on an empty buffer (no bytes, cursor 0), every `n_i` in `1..8`, all
calls succeed and each `read(n_1 + ... + n_(i-1), n_i)` succeeds and returns the low
`n_i` bits of `v_i`, wherever the boundary falls inside a byte or across two bytes. -/
theorem put_read_inverse (s0 : ByteStream) (calls : List (Nat × Nat))
    (hdata : s0.data = []) (hbit : s0.nextBit = 0)
    (hn : ∀ c ∈ calls, 1 ≤ c.2 ∧ c.2 ≤ 8) :
    ∃ s, putAll calls s0 = some s ∧
      ∀ i (hi : i < calls.length),
        s.read (bitOffset calls i : Int) (calls[i]).2
          = some ((calls[i]).1 % 2 ^ (calls[i]).2) :=
  put_read_inverse_aux s0 calls (Holds.empty s0 hdata hbit) hn

/-- C2, concrete instance: three calls whose bits straddle byte boundaries. -/
theorem put_read_inverse_witness :
    ∃ s, putAll [(5, 3), (0xA7, 8), (0x1B, 7)] ByteStream.new = some s ∧
      s.read 0 3 = some 5 ∧ s.read 3 8 = some 0xA7 ∧ s.read 11 7 = some 0x1B := by
  obtain ⟨s, hs, hr⟩ := put_read_inverse ByteStream.new [(5, 3), (0xA7, 8), (0x1B, 7)]
    rfl rfl (by decide)
  exact ⟨s, hs, hr 0 (by decide), hr 1 (by decide), hr 2 (by decide)⟩

/-- C8. Encoded stream layout: when the key parser returns a map that has an entry of bit
length `1..16` for every input byte, `Encode` succeeds and its output is the
concatenation, in input order, of the codewords written most significant bit first in
their bit length, followed by zero bits up to the byte boundary; the output has
`ceil(N / 8)` bytes for `N` the sum of the bit lengths. -/
theorem encode_layout (inStream outStream keyStream : ByteStream) (kd : KeyData)
    (hkey : ReadMapFromKeyStream keyStream = some (some kd))
    (hmap : ∀ c ∈ inStream.data, ∃ cw len, kd.map c = some (cw, len) ∧ 1 ≤ len ∧ len ≤ 16) :
    ∃ out, Encode inStream outStream keyStream = some (true, out) ∧
      allBits out.data = inStream.data.flatMap (codeBits kd.map)
        ++ List.replicate (8 * ((((inStream.data.map (codeLen kd.map)).sum) + 7) / 8)
            - (inStream.data.map (codeLen kd.map)).sum) false ∧
      out.size = ((inStream.data.map (codeLen kd.map)).sum + 7) / 8 :=
  encode_layout_aux inStream outStream keyStream kd hkey hmap

/-- C8, concrete instance: the key of the buffer `[0x41, 0x41, 0x42, 0x43]` and the input
`[0x42, 0x43, 0x41]`. -/
theorem encode_layout_witness :
    ∃ kd, ReadMapFromKeyStream scenarioKey = some (some kd) ∧
      ∃ out, Encode (loaded [0x42, 0x43, 0x41]) ByteStream.new scenarioKey = some (true, out) ∧
        allBits out.data = (loaded [0x42, 0x43, 0x41]).data.flatMap (codeBits kd.map)
          ++ List.replicate
            (8 * (((((loaded [0x42, 0x43, 0x41]).data.map (codeLen kd.map)).sum) + 7) / 8)
              - ((loaded [0x42, 0x43, 0x41]).data.map (codeLen kd.map)).sum) false ∧
        out.size = (((loaded [0x42, 0x43, 0x41]).data.map (codeLen kd.map)).sum + 7) / 8 := by
  have hsome : ((ReadMapFromKeyStream scenarioKey).join).isSome = true := by decide!
  obtain ⟨kd, hkd⟩ := Option.isSome_iff_exists.1 hsome
  have hkey : ReadMapFromKeyStream scenarioKey = some (some kd) := by
    cases h : ReadMapFromKeyStream scenarioKey with
    | none => rw [h] at hkd; cases hkd
    | some r =>
      cases r with
      | none => rw [h] at hkd; cases hkd
      | some kd' => rw [h] at hkd; cases hkd; rfl
  have hlook : ∀ c, (((ReadMapFromKeyStream scenarioKey).join).bind (fun k => k.map c))
      = kd.map c := by
    intro c; rw [hkd]; rfl
  have h42 : kd.map 0x42 = some (1, 2) := by rw [← hlook]; decide!
  have h43 : kd.map 0x43 = some (2, 2) := by rw [← hlook]; decide!
  have h41 : kd.map 0x41 = some (0, 2) := by rw [← hlook]; decide!
  refine ⟨kd, hkey, encode_layout (loaded [0x42, 0x43, 0x41]) ByteStream.new scenarioKey kd
    hkey ?_⟩
  intro c hc
  rw [loaded_data] at hc
  simp only [List.mem_cons, List.mem_singleton, List.not_mem_nil, or_false] at hc
  rcases hc with rfl | rfl | rfl
  · exact ⟨1, 2, h42, by decide, by decide⟩
  · exact ⟨2, 2, h43, by decide, by decide⟩
  · exact ⟨0, 2, h41, by decide, by decide⟩

theorem codebook_tiers (p : Plan) : codebook p = shortTier p ++ longTier p := rfl

/-- Entries of the short tier: index `i < K` of the ordering, codeword `i`, width `b`. -/
theorem shortTier_entry {p : Plan} {M K b : Nat} (hs : PlanShape p M K b)
    (e : Nat × Nat × Nat) (he : e ∈ shortTier p) :
    ∃ i, i < K ∧ K ≤ 2 ^ b ∧ p.ordering[i]? = some e.1 ∧ e.2 = (i, b) := by
  simp only [shortTier, hs.upto, hs.bits, Int.toNat_ofNat] at he
  obtain ⟨k, hk, hget, hpair⟩ := mem_shortEntries b K 0 p.ordering e he
  have hK : K ≤ 2 ^ b := by
    rcases hs.tiers with ⟨-, h, -⟩ | ⟨-, h, -⟩ <;> omega
  rw [Nat.zero_add, Nat.mod_eq_of_lt (by omega)] at hpair
  exact ⟨k, hk, hK, hget, hpair⟩

/-- Entries of the long tier: the escape pattern followed by an index of `l - b` bits. -/
theorem longTier_entry {p : Plan} {M K b : Nat} (hs : PlanShape p M K b)
    (l : Nat) (hl : p.bits_per_remaining_characters = (l : Int))
    (e : Nat × Nat × Nat) (he : e ∈ longTier p) :
    ∃ j, j < M - K ∧ K + 1 = 2 ^ b ∧ b < l ∧ j < 2 ^ (l - b) ∧
      e.2 = ((2 ^ b - 1) * 2 ^ (l - b) + j, l) := by
  have hmem : e ∈ codebook p := by rw [codebook_tiers]; exact List.mem_append_right _ he
  have hcnt : ((M : Int) - (K : Int)).toNat = M - K := by omega
  simp only [longTier, hs.upto, hs.bits, hs.unique, hl, Int.toNat_ofNat, hcnt] at he
  obtain ⟨k, hk, -, hpair⟩ := mem_longEntries K b l (M - K) 0 (p.ordering.drop K) e he
  rcases codebook_entry hs l hl e hmem with ⟨i, -, -, hi⟩ | ⟨j, hj, hKb, hbl, hj2, -, hj3⟩
  · exfalso
    rw [hi] at hpair
    have h2 := (Prod.mk.inj hpair).2
    rcases hs.tiers with ⟨h1, -, h3⟩ | ⟨h1, -, h3⟩
    · omega
    · rw [hl] at h3
      have hc := ceilLog2_pos (M - K) (by omega)
      omega
  · exact ⟨j, hj, hKb, hbl, hj2, hj3⟩

/-- C4 (amended). Escape reservation: in the codebook of a completed `GenerateKey`, a
short-tier entry has the all-ones codeword `2 ^ bitsShort - 1` only when there is no
long tier: then `bitsLong = 0` and the short tier holds all `M = 2 ^ bitsShort` byte
values (the single leftover byte folded in).  With a long tier present no short-tier
entry has the escape pattern. -/
theorem escape_reserved_with_long_tier (A : Arith) (tf : A.F) (B : List Nat)
    (hB : ∀ x ∈ B, x < 256) (ks key : ByteStream)
    (h : GenerateKey A tf (loaded B) ks = some key) :
    ∃ p, planKey A tf (loaded B) = some p ∧ Holds key (keyBits p) ∧
      ∀ e ∈ shortTier p, e.2.1 = 2 ^ p.bits_per_target_character.toNat - 1 →
        longTier p = [] ∧ p.bits_per_remaining_characters = 0 ∧
        p.unique_upto_target_fraction = p.unique_bytes ∧
        p.unique_bytes = 2 ^ p.bits_per_target_character.toNat := by
  obtain ⟨p, M, K, b, l, hp, -, hs, -, hk, -, -, -, -, -, -⟩ :=
    build_facts A tf B hB ks key h
  refine ⟨p, hp, hk, ?_⟩
  intro e he hesc
  obtain ⟨i, hi, hK, -, hpair⟩ := shortTier_entry hs e he
  rw [hs.bits, Int.toNat_ofNat, hpair] at hesc
  simp only at hesc
  have hpos : 0 < 2 ^ b := Nat.two_pow_pos b
  rcases hs.tiers with ⟨h1, -, h3⟩ | ⟨-, h2, -⟩
  · have hKb : K = 2 ^ b := by omega
    refine ⟨?_, h3, ?_, ?_⟩
    · simp only [longTier, hs.upto, hs.unique, h1, sub_self, Int.toNat_zero, longEntries]
    · rw [hs.upto, hs.unique, h1]
    · rw [hs.unique, hs.bits, Int.toNat_ofNat, ← h1, hKb]; push_cast; rfl
  · omega

/-- C4, concrete instance: four equally frequent byte values; the fourth is folded into
the short tier of width 2 and has codeword 3. -/
theorem escape_reserved_with_long_tier_witness :
    ∃ p, planKey exactArith (1, 2) (loaded [0x41, 0x42, 0x43, 0x44]) = some p ∧
      Holds foldedKey (keyBits p) ∧
      ∀ e ∈ shortTier p, e.2.1 = 2 ^ p.bits_per_target_character.toNat - 1 →
        longTier p = [] ∧ p.bits_per_remaining_characters = 0 ∧
        p.unique_upto_target_fraction = p.unique_bytes ∧
        p.unique_bytes = 2 ^ p.bits_per_target_character.toNat :=
  escape_reserved_with_long_tier exactArith (1, 2) [0x41, 0x42, 0x43, 0x44] (by decide)
    ByteStream.new foldedKey folded_key

/-- C4 as stated fails: for the buffer `[0x41, 0x42, 0x43, 0x44]` and target 1/2,
`GenerateKey` completes with `bitsShort = 2`, `bitsLong = 0` and a short tier of four
entries, the last of which, for the folded byte `0x44`, has the codeword `3 = 2 ^ 2 - 1`:
a short-tier entry with the escape pattern exists. -/
theorem escape_assigned_to_folded_byte :
    GenerateKey exactArith (1, 2) (loaded [0x41, 0x42, 0x43, 0x44]) ByteStream.new
      = some foldedKey ∧
    ∃ p, planKey exactArith (1, 2) (loaded [0x41, 0x42, 0x43, 0x44]) = some p ∧
      p.bits_per_target_character = 2 ∧ p.bits_per_remaining_characters = 0 ∧
      shortTier p = [(0x41, 0, 2), (0x42, 1, 2), (0x43, 2, 2), (0x44, 3, 2)] ∧
      ∃ e ∈ shortTier p, e.2.1 = 2 ^ p.bits_per_target_character.toNat - 1 :=
  ⟨folded_key, _, folded_plan, rfl, rfl, by decide, (0x44, 3, 2), by decide, by decide⟩

/-- C5. Codeword uniqueness: in the codebook of a completed `GenerateKey` no two entries
have the same (codeword, bit length) pair; every short-tier entry has bit length
`bitsShort` and a codeword below `2 ^ bitsShort`, every long-tier entry has bit length
`bitsLong` and a codeword below `2 ^ bitsLong`. -/
theorem codewords_unique (A : Arith) (tf : A.F) (B : List Nat) (hB : ∀ x ∈ B, x < 256)
    (ks key : ByteStream) (h : GenerateKey A tf (loaded B) ks = some key) :
    ∃ p, planKey A tf (loaded B) = some p ∧ Holds key (keyBits p) ∧
      ((codebook p).map (fun e => e.2)).Nodup ∧
      (∀ e ∈ shortTier p, e.2.2 = p.bits_per_target_character.toNat ∧ e.2.1 < 2 ^ e.2.2) ∧
      (∀ e ∈ longTier p, e.2.2 = p.bits_per_remaining_characters.toNat ∧ e.2.1 < 2 ^ e.2.2) := by
  obtain ⟨p, M, K, b, l, hp, -, hs, hl, hk, -, -, -, hnd, -, -⟩ :=
    build_facts A tf B hB ks key h
  refine ⟨p, hp, hk, ?_, ?_, ?_⟩
  · have hnd1 : ((codebook p).map (fun e => e.1)).Nodup := by
      rw [codebook_map_fst hs]; exact hnd
    exact List.Nodup.map_on (fun e he e' he' hpair => codebook_pair_inj hs l hl e e' he he' hpair)
      (List.Nodup.of_map _ hnd1)
  · intro e he
    obtain ⟨i, hi, hK, -, hpair⟩ := shortTier_entry hs e he
    rw [hs.bits, Int.toNat_ofNat, hpair]
    exact ⟨rfl, by simp only; omega⟩
  · intro e he
    obtain ⟨j, -, -, hbl, hj, hpair⟩ := longTier_entry hs l hl e he
    rw [hl, Int.toNat_ofNat, hpair]
    refine ⟨rfl, ?_⟩
    simp only
    have hsplit : 2 ^ l = 2 ^ b * 2 ^ (l - b) := by
      rw [← pow_add]; congr 1; omega
    have hpos : 0 < 2 ^ b := Nat.two_pow_pos b
    rw [hsplit]
    calc (2 ^ b - 1) * 2 ^ (l - b) + j < (2 ^ b - 1) * 2 ^ (l - b) + 2 ^ (l - b) := by omega
      _ = (2 ^ b - 1 + 1) * 2 ^ (l - b) := by ring
      _ = 2 ^ b * 2 ^ (l - b) := by rw [Nat.sub_add_cancel hpos]

/-- C5, concrete instance: the buffer `[0x41, 0x41, 0x42, 0x43]` with target 1/2. -/
theorem codewords_unique_witness :
    ∃ p, planKey exactArith (1, 2) (loaded scenario) = some p ∧ Holds scenarioKey (keyBits p) ∧
      ((codebook p).map (fun e => e.2)).Nodup ∧
      (∀ e ∈ shortTier p, e.2.2 = p.bits_per_target_character.toNat ∧ e.2.1 < 2 ^ e.2.2) ∧
      (∀ e ∈ longTier p, e.2.2 = p.bits_per_remaining_characters.toNat ∧ e.2.1 < 2 ^ e.2.2) :=
  codewords_unique exactArith (1, 2) scenario (by decide) ByteStream.new scenarioKey
    scenario_key

/-- One pass of the body of the `Decode` loop never fails on a key with sane widths: it
stops, or it emits a codeword and moves the bit pointer forward. -/
theorem decodeStep_total (s : ByteStream) (hs : ∀ x ∈ s.data, x < 256) (b l : Nat) (ek : Int)
    (hb1 : 1 ≤ b) (hb8 : b ≤ 8) (hl : l = 0 ∨ (b < l ∧ l ≤ b + 8)) (off : Nat)
    (hoff : off + b < 8 * s.data.length) :
    decodeStep s (b : Int) (l : Int) ek ((l : Int) - (b : Int)) (off : Int) = some Step.stop ∨
    ∃ (ptr cw bc : Nat), off < ptr ∧
      decodeStep s (b : Int) (l : Int) ek ((l : Int) - (b : Int)) (off : Int)
        = some (Step.emit (ptr : Int) cw bc) := by
  unfold decodeStep
  rw [toUShort_natCast b (by omega), read_spec s off b hs hb1 hb8 (by omega)]
  simp only [Option.bind_eq_bind, Option.some_bind, Option.pure_def]
  split
  · rename_i hc
    have hl0 : l ≠ 0 := by
      intro h0; apply hc.2; rw [h0]; rfl
    have hbl : b < l ∧ l ≤ b + 8 := by
      rcases hl with h | h
      · exact absurd h hl0
      · exact h
    split
    · left; rfl
    · rename_i hge
      right
      have hsz : (s.size : Int) = (s.data.length : Int) := rfl
      rw [hsz] at hge
      have hd : (l : Int) - (b : Int) = ((l - b : Nat) : Int) := by omega
      have hp : (off : Int) + (b : Int) = ((off + b : Nat) : Int) := by push_cast; rfl
      rw [hd, hp, toUShort_natCast (l - b) (by omega),
        read_spec s (off + b) (l - b) hs (by omega) (by omega) (by omega)]
      simp only [Option.some_bind]
      exact ⟨off + b + (l - b), _, _, by omega, by push_cast; rfl⟩
  · right
    exact ⟨off + b, _, _, by omega, by push_cast; rfl⟩

/-- The loop of `Decode` ends within `8 * size + 1` iterations on a key with sane
widths. -/
theorem decodeLoop_total (s : ByteStream) (hs : ∀ x ∈ s.data, x < 256)
    (decoder : decoding_map) (b l : Nat) (ek : Int)
    (hb1 : 1 ≤ b) (hb8 : b ≤ 8) (hl : l = 0 ∨ (b < l ∧ l ≤ b + 8)) :
    ∀ (fuel off : Nat) (out : ByteStream), out.nextBit = 0 →
      8 * s.data.length - off < fuel →
      ∃ res, decodeLoop s decoder (b : Int) (l : Int) ek ((l : Int) - (b : Int)) fuel
        (off : Int) out = some res := by
  intro fuel
  induction fuel with
  | zero => intro off out _ h; omega
  | succ fuel ih =>
    intro off out h0 hfuel
    rw [decodeLoop_succ]
    have hsz : (s.size : Int) = (s.data.length : Int) := rfl
    by_cases hg : (off : Int) + (b : Int) < (s.size : Int) * 8
    · rw [if_pos hg]
      rw [hsz] at hg
      rcases decodeStep_total s hs b l ek hb1 hb8 hl off (by omega) with hstop | h
      · rw [hstop]; exact ⟨out, rfl⟩
      · obtain ⟨ptr, cw, bc, hptr, hstep⟩ := h
        rw [hstep, Option.some_bind]
        simp only
        rw [put8 out _ h0 (Nat.mod_lt _ (by norm_num)), Option.some_bind]
        exact ih ptr _ h0 (by omega)
    · rw [if_neg hg]; exact ⟨out, rfl⟩

/-- `Decode` returns on every input when the parsed key has sane widths. -/
theorem decode_total (fuel : Nat) (inStream outStream keyStream : ByteStream) (kd : KeyData)
    (b l : Nat) (hin : ∀ x ∈ inStream.data, x < 256)
    (hkey : ReadMapFromKeyStream keyStream = some (some kd))
    (hb : kd.bits_short = (b : Int)) (hl : kd.bits_long = (l : Int))
    (hb1 : 1 ≤ b) (hb8 : b ≤ 8) (hlong : l = 0 ∨ (b < l ∧ l ≤ b + 8))
    (hfuel : 8 * inStream.size < fuel) :
    ∃ out, Decode fuel inStream outStream keyStream = some (true, out) := by
  obtain ⟨res, hres⟩ := decodeLoop_total inStream hin (GetDecodingMap kd.map) b l
    ((2 : Int) ^ b - 1) hb1 hb8 hlong fuel 0 outStream.clear rfl
    (by have : inStream.size = inStream.data.length := rfl
        omega)
  refine ⟨res.bytes_changed true, ?_⟩
  unfold Decode
  simp only [hkey, hb, hl, extendedKey_small b hb8, Option.bind_eq_bind, Option.some_bind]
  have h0 : ((0 : Nat) : Int) = 0 := rfl
  rw [h0] at hres
  rw [hres]
  rfl

/-- C1 (amended). Round trip with padding: when `GenerateKey` completes on a buffer `B`
that has at most 127 distinct byte values and whose codewords total a number of bits `N`
that is not a multiple of 8, then `Decode` after `Encode`, with enough loop fuel,
returns success and its output is `B` followed by `n` copies of the first byte of the
ordering (the byte with codeword 0), where the `n` groups of `bitsShort` bits fit in
the `P = 8 * ceil(N / 8) - N` pad bits and leave at most `bitsShort` of them. -/
theorem round_trip_with_padding (A : Arith) (tf : A.F) (B : List Nat) (fuel : Nat) (p : Plan)
    (hB : ∀ x ∈ B, x < 256)
    (hplan : planKey A tf (loaded B) = some p)
    (hkey : (GenerateKey A tf (loaded B) ByteStream.new).isSome = true)
    (hM : B.dedup.length ≤ 127)
    (hN : encodedBitCount p B % 8 ≠ 0)
    (hfuel : B.length + 8 ≤ fuel) :
    ∃ n, roundTrip A tf fuel B = some (true, B ++ List.replicate n (p.ordering.headD 0)) ∧
      n * p.bits_per_target_character.toNat ≤ padLen (encodedBitCount p B) ∧
      padLen (encodedBitCount p B) ≤ (n + 1) * p.bits_per_target_character.toNat := by
  obtain ⟨M, K, b, hs, -, -, -⟩ := planKey_shape A tf (loaded B) p hplan
  have hb1 := hs.b_pos
  have hbits : p.bits_per_target_character.toNat = b := by rw [hs.bits, Int.toNat_ofNat]
  have hpad : 1 ≤ padLen (encodedBitCount p B) := by unfold padLen; omega
  refine ⟨_, roundTrip_padded_aux A tf B fuel p hB hplan hkey hM hN hfuel, ?_, ?_⟩
  · rw [hbits]
    calc (padLen (encodedBitCount p B) - 1) / b * b ≤ padLen (encodedBitCount p B) - 1 :=
          Nat.div_mul_le_self _ _
      _ ≤ padLen (encodedBitCount p B) := Nat.sub_le _ _
  · rw [hbits]
    have h : padLen (encodedBitCount p B) - 1
        < (padLen (encodedBitCount p B) - 1) / b * b + b := Nat.lt_div_mul_add (by omega)
    have e : ((padLen (encodedBitCount p B) - 1) / b + 1) * b
        = (padLen (encodedBitCount p B) - 1) / b * b + b := by ring
    omega

/-- C1, concrete instance: the one-byte buffer `[0x41]` (2 codeword bits, 6 pad bits)
comes back as three bytes. -/
theorem round_trip_with_padding_witness :
    ∃ n, roundTrip exactArith (1, 2) 100 [0x41]
        = some (true, [0x41] ++ List.replicate n
            ((⟨[0x41], 1, 1, 2, 0⟩ : Plan).ordering.headD 0)) ∧
      n * (⟨[0x41], 1, 1, 2, 0⟩ : Plan).bits_per_target_character.toNat
        ≤ padLen (encodedBitCount ⟨[0x41], 1, 1, 2, 0⟩ [0x41]) ∧
      padLen (encodedBitCount ⟨[0x41], 1, 1, 2, 0⟩ [0x41])
        ≤ (n + 1) * (⟨[0x41], 1, 1, 2, 0⟩ : Plan).bits_per_target_character.toNat :=
  round_trip_with_padding exactArith (1, 2) [0x41] 100 ⟨[0x41], 1, 1, 2, 0⟩ (by decide)
    single_plan
    (Option.isSome_iff_exists.2
      (GenerateKey_total exactArith (1, 2) [0x41] (by decide) (by decide) ByteStream.new))
    (by decide) (by decide!) (by decide)

/-- C1 as stated fails: on the buffer `[0x41, 0x41, 0x42, 0x43]` with target 1/2 the
chain returns success with the three bytes `[0x41, 0x41, 0x42]`, and on `[0x41]` it
returns the three bytes `[0x41, 0x41, 0x41]`; neither output is the input. -/
theorem round_trip_not_identity :
    roundTrip exactArith (1, 2) 100 scenario = some (true, [0x41, 0x41, 0x42]) ∧
    roundTrip exactArith (1, 2) 100 scenario ≠ some (true, scenario) ∧
    roundTrip exactArith (1, 2) 100 [0x41] = some (true, [0x41, 0x41, 0x41]) ∧
    roundTrip exactArith (1, 2) 100 [0x41] ≠ some (true, [0x41]) := by
  refine ⟨scenario_roundTrip, ?_, single_roundTrip, ?_⟩
  · rw [scenario_roundTrip]; decide
  · rw [single_roundTrip]; decide

/-- C6, at the failing input: for the buffer of the 128 byte values `0x00 .. 0x7F` and
target 1/2, `GenerateKey` completes and writes `M = 0x80` as the first header byte, and
the key parser, which takes the header bytes as signed `char`, returns `false` on that
key. -/
theorem key_of_128_values_rejected :
    ∃ key, GenerateKey exactArith (1, 2) (loaded (List.range 128)) ByteStream.new = some key ∧
      key.data.getD 0 0 = 0x80 ∧ ReadMapFromKeyStream key = some none ∧
      keyAccepted key = some false := by
  obtain ⟨key, hkey⟩ := GenerateKey_total exactArith (1, 2) (List.range 128) (by simp)
    (fun x hx => List.mem_range.1 hx) ByteStream.new
  have hd : (List.range 128).dedup.length = 128 := by
    rw [(List.nodup_range 128).dedup, List.length_range]
  obtain ⟨h0, hr⟩ := build_key_rejected exactArith (1, 2) (List.range 128)
    (fun x hx => lt_trans (List.mem_range.1 hx) (by norm_num)) ByteStream.new key hkey
    (by omega) (by omega)
  refine ⟨key, hkey, by rw [h0, hd], hr, ?_⟩
  unfold keyAccepted
  rw [hr]
  rfl

/-- C9, evaluated at the failing input: `[0x41, 0x41, 0x42, 0x43]` has the key
`scenarioKey` (`bitsShort = 2`, `bitsLong = 0`) and the one-byte encoding `[0x06]`, four
complete groups of 2 bits; `Decode` on that byte emits three bytes, not four: the group
that ends at the last bit of the input is not read. -/
theorem decode_drops_final_group :
    GenerateKey exactArith (1, 2) (loaded scenario) ByteStream.new = some scenarioKey ∧
    (Encode (loaded scenario) ByteStream.new scenarioKey).map (fun r => (r.1, r.2.data))
      = some (true, [0x06]) ∧
    (Decode 100 (loaded [0x06]) ByteStream.new scenarioKey).map (fun r => (r.1, r.2.data))
      = some (true, [0x41, 0x41, 0x42]) := by
  refine ⟨scenario_key, by decide!, by decide!⟩

/-- C10 as stated fails: in the key of `[0x41, 0x41, 0x42, 0x43]` the pair (3, 2) has no
entry, and on the input `[0xFF]`, whose bits are groups `11`, `Decode` returns success
with the output `[0, 0, 0]`. -/
theorem decode_unknown_codeword_succeeds :
    ((ReadMapFromKeyStream scenarioKey).join.map
        (fun kd => (GetDecodingMap kd.map (3, 2), kd.bits_short, kd.bits_long)))
      = some (none, 2, 0) ∧
    (Decode 100 (loaded [0xFF]) ByteStream.new scenarioKey).map (fun r => (r.1, r.2.data))
      = some (true, [0, 0, 0]) := by
  refine ⟨by decide!, by decide!⟩

/-- `put` leaves the dirty flag as it found it. -/
theorem putAux_bytesChanged : ∀ (depth : Nat) (s s' : ByteStream) (d n : Nat),
    ByteStream.putAux depth s d n = some s' → s'.bytesChanged = s.bytesChanged := by
  intro depth
  induction depth with
  | zero => intro s s' d n h; simp [ByteStream.putAux] at h
  | succ depth ih =>
    intro s s' d n h
    unfold ByteStream.putAux at h
    simp only at h
    split at h
    · cases h
    · split at h
      · split at h
        · exact (ih _ _ _ _ h).trans rfl
        · split at h <;> (cases h; rfl)
      · split at h <;> (cases h; rfl)

theorem put_bytesChanged (s s' : ByteStream) (d n : Nat) (h : s.put d n = some s') :
    s'.bytesChanged = s.bytesChanged :=
  putAux_bytesChanged 2 s s' d n h

/-- C16, at the failing input: the buffer `[0x41]` with refreshed statistics, then
`put(0x42, 8)`.  The call succeeds, the buffer holds `[0x41, 0x42]`, the dirty flag is
still clear, and `byte_frequency(0x42)` is answered with the stale count 0. -/
theorem put_leaves_statistics_fresh :
    ((loaded [0x41]).put 0x42 8).map
        (fun s => (s.data, s.bytesChanged, s.byte_frequency 0x42, s.byte_probability 0x42))
      = some ([0x41, 0x42], false, some 0, some (0, 1)) := by
  decide!

/-- C17. Read range check: for every buffer, every `firstBit >= 0` and every bit count
in `1..8`, `read(firstBit, bitCount)` succeeds exactly when
`firstBit + bitCount <= 8 * size()`; and `read` with bit count 0 returns 0. -/
theorem read_range_check (s : ByteStream) (firstBit : Int) (n : Nat) (h0 : 0 ≤ firstBit)
    (h1 : 1 ≤ n) (h8 : n ≤ 8) :
    ((s.read firstBit n).isSome = true ↔ firstBit + (n : Int) ≤ 8 * (s.size : Int)) ∧
      s.read firstBit 0 = some 0 := by
  refine ⟨?_, rfl⟩
  have hsz : s.size = s.data.length := rfl
  unfold ByteStream.read
  rw [if_neg (by omega), if_neg (by omega), if_neg (by omega)]
  simp only
  by_cases hlen : s.data.length > firstBit.toNat / 8
  · rw [if_neg (by omega)]
    rw [Option.isSome_map']
    by_cases hshift : (8 : Int) - ((n : Int) + ((firstBit.toNat % 8 : Nat) : Int)) ≥ 0
    · rw [if_pos hshift]
      simp only [Option.isSome_some, true_iff]
      omega
    · rw [if_neg hshift]
      by_cases hnext : s.data.length > firstBit.toNat / 8 + 1
      · rw [if_neg (by omega)]
        simp only [Option.isSome_some, true_iff]
        omega
      · rw [if_pos hnext]
        simp only [Option.isSome_none, Bool.false_eq_true, false_iff]
        omega
  · rw [if_pos hlen]
    simp only [Option.isSome_none, Bool.false_eq_true, false_iff]
    omega

/-- C17, concrete instance: a two-byte buffer read across the byte boundary. -/
theorem read_range_check_witness :
    (((loaded [0xA5, 0x3C]).read 5 8).isSome = true
        ↔ (5 : Int) + ((8 : Nat) : Int) ≤ 8 * ((loaded [0xA5, 0x3C]).size : Int)) ∧
      (loaded [0xA5, 0x3C]).read 5 0 = some 0 :=
  read_range_check (loaded [0xA5, 0x3C]) 5 8 (by decide) (by decide) (by decide)

theorem sum_indicator_range (x : Nat) :
    ∀ n, ((List.range n).map (fun b => if x = b then 1 else 0)).sum = if x < n then 1 else 0 := by
  intro n
  induction n with
  | zero => simp
  | succ n ih =>
    rw [List.range_succ, List.map_append, List.sum_append, ih]
    simp only [List.map_cons, List.map_nil, List.sum_cons, List.sum_nil, Nat.add_zero]
    by_cases h1 : x < n
    · rw [if_pos h1, if_neg (by omega), if_pos (by omega)]
    · rw [if_neg h1]
      by_cases h2 : x = n
      · rw [if_pos h2, if_pos (by omega)]
      · rw [if_neg h2, if_neg (by omega)]

/-- The counts of the values `0 .. n - 1` in a list of numbers below `n` add up to its
length. -/
theorem sum_count_range (n : Nat) :
    ∀ B : List Nat, (∀ x ∈ B, x < n) → ((List.range n).map (fun b => B.count b)).sum = B.length := by
  intro B
  induction B with
  | nil => intro _; simp
  | cons x B ih =>
    intro hB
    have hx := hB x (List.mem_cons_self _ _)
    have hrest := ih (fun y hy => hB y (List.mem_cons_of_mem _ hy))
    have hfun : (fun b => (x :: B).count b)
        = (fun b => B.count b + (if x = b then 1 else 0)) := by
      funext b
      rw [List.count_cons]
      by_cases h : x = b
      · simp [h]
      · simp [h]
    rw [hfun, List.sum_map_add, hrest, sum_indicator_range x n, if_pos hx, List.length_cons]

theorem refreshed_frequency (s : ByteStream) (hb : ∀ x ∈ s.data, x < 256) (k : Nat) :
    (s.bytes_changed true).byteFrequency.getD k 0 = s.data.count k := by
  have := (foldl_bump s.data hb (List.replicate 256 0) (List.length_replicate _ _) k).1
  rw [getD_replicate_zero, Nat.zero_add] at this
  exact this

theorem refreshed_frequency_length (s : ByteStream) (hb : ∀ x ∈ s.data, x < 256) :
    (s.bytes_changed true).byteFrequency.length = 256 :=
  (foldl_bump s.data hb (List.replicate 256 0) (List.length_replicate _ _) 0).2

theorem refreshed_byte_frequency (s : ByteStream) (hb : ∀ x ∈ s.data, x < 256) (b : Nat)
    (h : b < 256) :
    (s.bytes_changed true).byte_frequency (b : Int) = some (s.data.count b) := by
  unfold ByteStream.byte_frequency
  rw [if_pos ⟨by omega, by omega⟩]
  have hflag : (s.bytes_changed true).bytesChanged = false := rfl
  rw [hflag, Int.toNat_ofNat, refreshed_frequency s hb]
  rfl

theorem refreshed_byte_probability (s : ByteStream) (hb : ∀ x ∈ s.data, x < 256) (b : Nat)
    (h : b < 256) :
    (s.bytes_changed true).byte_probability (b : Int) = some (s.data.count b, s.size) := by
  unfold ByteStream.byte_probability
  rw [if_pos ⟨by omega, by omega⟩]
  have hflag : (s.bytes_changed true).bytesChanged = false := rfl
  have hprob : (s.bytes_changed true).byteProbability
      = (s.bytes_changed true).byteFrequency.map (fun n => (n, s.data.length)) := rfl
  have hlen := refreshed_frequency_length s hb
  have hfreq := refreshed_frequency s hb b
  rw [hflag, Int.toNat_ofNat, hprob]
  simp only [Bool.false_eq_true, if_false]
  rw [List.getD_eq_getElem?_getD, List.getElem?_map,
    List.getElem?_eq_getElem (by rw [hlen]; exact h)]
  rw [List.getD_eq_getElem?_getD, List.getElem?_eq_getElem (by rw [hlen]; exact h)] at hfreq
  simp only [Option.getD_some] at hfreq
  simp only [Option.map_some', Option.getD_some, hfreq]
  rfl

/-- C18. Statistics normalisation: after `bytes_changed(true)` on a non-empty buffer,
`byte_frequency(b)` is the number of positions that hold `b`, for every `b` in
`0..255`; the 256 frequencies add up to `size()`; `byte_probability(b)` is the quotient
of that frequency by `size()`, and as exact rationals the 256 probabilities add up
to 1. -/
theorem statistics_normalised (s : ByteStream) (hb : ∀ x ∈ s.data, x < 256)
    (hne : s.data ≠ []) :
    (∀ b : Nat, b < 256 →
      (s.bytes_changed true).byte_frequency (b : Int) = some (s.data.count b)) ∧
    ((List.range 256).map
      (fun (b : Nat) => ((s.bytes_changed true).byte_frequency (b : Int)).getD 0)).sum
        = (s.bytes_changed true).size ∧
    (∀ b : Nat, b < 256 →
      (s.bytes_changed true).byte_probability (b : Int) = some (s.data.count b, s.size)) ∧
    ((List.range 256).map
      (fun (b : Nat) => (((s.bytes_changed true).byte_probability (b : Int)).map ratioOf).getD 0)).sum
        = 1 := by
  have hsize : (s.bytes_changed true).size = s.data.length := rfl
  have hsz : s.size = s.data.length := rfl
  have hpos : (s.data.length : ℚ) ≠ 0 := by
    have : s.data.length ≠ 0 := fun h => hne (List.length_eq_zero.1 h)
    exact_mod_cast this
  refine ⟨refreshed_byte_frequency s hb, ?_, refreshed_byte_probability s hb, ?_⟩
  · have hmap : (List.range 256).map
        (fun (b : Nat) => ((s.bytes_changed true).byte_frequency (b : Int)).getD 0)
        = (List.range 256).map (fun b => s.data.count b) := by
      apply List.map_congr_left
      intro b hb'
      rw [refreshed_byte_frequency s hb b (List.mem_range.1 hb')]
      rfl
    rw [hmap, sum_count_range 256 s.data hb, hsize]
  · have hmap : (List.range 256).map
        (fun (b : Nat) => (((s.bytes_changed true).byte_probability (b : Int)).map ratioOf).getD 0)
        = (List.range 256).map (fun b => (s.data.count b : ℚ) / (s.data.length : ℚ)) := by
      apply List.map_congr_left
      intro b hb'
      rw [refreshed_byte_probability s hb b (List.mem_range.1 hb')]
      simp only [Option.map_some', Option.getD_some, ratioOf, hsz]
    have hdiv : (List.range 256).map (fun b => (s.data.count b : ℚ) / (s.data.length : ℚ))
        = (List.range 256).map (fun b => (s.data.count b : ℚ) * (s.data.length : ℚ)⁻¹) := by
      apply List.map_congr_left
      intro b _
      rw [div_eq_mul_inv]
    have hcast : ((List.range 256).map (fun b => (s.data.count b : ℚ))).sum
        = ((((List.range 256).map (fun b => s.data.count b)).sum : Nat) : ℚ) := by
      rw [Nat.cast_list_sum, List.map_map]; rfl
    rw [hmap, hdiv, List.sum_map_mul_right, hcast, sum_count_range 256 s.data hb,
      ← div_eq_mul_inv]
    exact div_self hpos

/-- C18, concrete instance: the buffer `[0x41, 0x41, 0x42, 0x43]`. -/
theorem statistics_normalised_witness :
    (∀ b : Nat, b < 256 →
      ((loaded scenario).bytes_changed true).byte_frequency (b : Int)
        = some ((loaded scenario).data.count b)) ∧
    ((List.range 256).map
      (fun (b : Nat) => (((loaded scenario).bytes_changed true).byte_frequency (b : Int)).getD 0)).sum
        = ((loaded scenario).bytes_changed true).size ∧
    (∀ b : Nat, b < 256 →
      ((loaded scenario).bytes_changed true).byte_probability (b : Int)
        = some ((loaded scenario).data.count b, (loaded scenario).size)) ∧
    ((List.range 256).map
      (fun (b : Nat) => ((((loaded scenario).bytes_changed true).byte_probability
        (b : Int)).map ratioOf).getD 0)).sum = 1 :=
  statistics_normalised (loaded scenario) (by decide) (by decide)

/-- Build on `sampleLong` with target 1/2, evaluated. -/
theorem sampleLong_key :
    GenerateKey exactArith (1, 2) (loaded sampleLong) ByteStream.new = some sampleLongKey := by
  decide!

/-- The header of a key written by `GenerateKey` with a positive target fraction. -/
theorem build_header (A : Arith) (tf : A.F) (B : List Nat) (hB : ∀ x ∈ B, x < 256)
    (htf : A.lt A.zero tf = true) (ks key : ByteStream)
    (h : GenerateKey A tf (loaded B) ks = some key) :
    ∃ (p : Plan) (M K b l : Nat), planKey A tf (loaded B) = some p ∧ PlanShape p M K b ∧
      p.bits_per_remaining_characters = (l : Int) ∧ M = B.dedup.length ∧ 2 ≤ b ∧
      Holds key (keyBits p) ∧ key.data.take 4 = [M, K, b, l] := by
  obtain ⟨p, M, K, b, l, hp, -, hs, hl, hk, hb8, -, -, hnd, hmem, hb2⟩ :=
    build_facts A tf B hB ks key h
  have hM254 := planKey_M_le A tf (loaded B) p hp htf
  have hlen := hs.len
  have hMd : M = B.dedup.length := by
    rw [← hs.len]; exact ordering_length_dedup B p.ordering hnd hmem
  obtain ⟨l', hl', hl18, htier⟩ := hs.long_bits
  have hll : l' = l := by
    have := hl'.symm.trans hl
    exact_mod_cast this
  subst hll
  have hKM : K ≤ M := by rcases htier with ⟨h1, -⟩ | ⟨h1, -⟩ <;> omega
  have hhead := key_header p key hk
  rw [hs.unique, hs.upto, hs.bits, hl, toChar_natCast M (by omega), toChar_natCast K (by omega),
    toChar_natCast b (by omega), toChar_natCast l' (by omega)] at hhead
  exact ⟨p, M, K, b, l', hp, hs, hl, hMd, hb2 htf, hk, hhead⟩

/-- C14. Long codewords carry the escape prefix: when `GenerateKey` completes and the
codebook has a non-empty long tier, then `bitsLong > bitsShort`, the short-tier count
`K`, which the code writes as the prefix, is `2 ^ bitsShort - 1`, and every long entry
has bit length `bitsLong` and a codeword whose first `bitsShort` bits are all ones. -/
theorem long_codewords_start_with_escape (A : Arith) (tf : A.F) (B : List Nat)
    (hB : ∀ x ∈ B, x < 256) (ks key : ByteStream)
    (h : GenerateKey A tf (loaded B) ks = some key) :
    ∃ (p : Plan) (K b l : Nat), planKey A tf (loaded B) = some p ∧ Holds key (keyBits p) ∧
      p.unique_upto_target_fraction = (K : Int) ∧ p.bits_per_target_character = (b : Int) ∧
      p.bits_per_remaining_characters = (l : Int) ∧
      (longTier p ≠ [] → b < l ∧ K = 2 ^ b - 1 ∧
        ∀ e ∈ longTier p, e.2.2 = l ∧ (bitsOf l e.2.1).take b = List.replicate b true ∧
          e.2.1 / 2 ^ (l - b) = 2 ^ b - 1) := by
  obtain ⟨p, M, K, b, l, hp, -, hs, hl, hk, -, -, -, -, -, -⟩ :=
    build_facts A tf B hB ks key h
  refine ⟨p, K, b, l, hp, hk, hs.upto, hs.bits, hl, ?_⟩
  intro hne
  have hall : ∀ e ∈ longTier p, b < l ∧ K + 1 = 2 ^ b ∧ e.2.2 = l ∧
      (bitsOf l e.2.1).take b = List.replicate b true ∧ e.2.1 / 2 ^ (l - b) = 2 ^ b - 1 := by
    intro e he
    obtain ⟨j, -, hKb, hbl, hj, hpair⟩ := longTier_entry hs l hl e he
    rw [hpair]
    refine ⟨hbl, hKb, rfl, ?_, ?_⟩
    · simp only
      rw [bitsOf_cat_eq l b (l - b) (2 ^ b - 1) j (by omega) hj, bitsOf_ones,
        List.take_left' (List.length_replicate _ _)]
    · simp only
      have hpos : 0 < 2 ^ (l - b) := Nat.two_pow_pos _
      rw [Nat.mul_comm, Nat.mul_add_div hpos, Nat.div_eq_of_lt hj, Nat.add_zero]
  cases hlt : longTier p with
  | nil => exact absurd hlt hne
  | cons e rest =>
    have he : e ∈ longTier p := by rw [hlt]; exact List.mem_cons_self _ _
    obtain ⟨h1, h2, -⟩ := hall e he
    refine ⟨h1, by omega, ?_⟩
    intro e' he'
    rw [← hlt] at he'
    obtain ⟨-, -, h3, h4, h5⟩ := hall e' he'
    exact ⟨h3, h4, h5⟩

/-- C14, concrete instance: `sampleLong` with target 1/2 has the long entries
`(0x44, 1100), (0x45, 1101), (0x46, 1110)`. -/
theorem long_codewords_start_with_escape_witness :
    ∃ (p : Plan) (K b l : Nat), planKey exactArith (1, 2) (loaded sampleLong) = some p ∧
      Holds sampleLongKey (keyBits p) ∧
      p.unique_upto_target_fraction = (K : Int) ∧ p.bits_per_target_character = (b : Int) ∧
      p.bits_per_remaining_characters = (l : Int) ∧
      (longTier p ≠ [] → b < l ∧ K = 2 ^ b - 1 ∧
        ∀ e ∈ longTier p, e.2.2 = l ∧ (bitsOf l e.2.1).take b = List.replicate b true ∧
          e.2.1 / 2 ^ (l - b) = 2 ^ b - 1) :=
  long_codewords_start_with_escape exactArith (1, 2) sampleLong (by decide) ByteStream.new
    sampleLongKey sampleLong_key

/-- A key shorter than the header is rejected by the parser. -/
theorem readMap_short (k : ByteStream) (h : k.size < 4) :
    ReadMapFromKeyStream k = some none := by
  unfold ReadMapFromKeyStream
  rw [if_pos h]

/-- C11, at the failing input: the key of `[0x41, 0x41, 0x42, 0x43]` cut to 7 bytes.  The
size check of the parser (`size < 4 + M`, here `7 < 7`) lets it pass, the read of the
third entry at bit 52 runs past the last byte and its assertion fails; the parser,
`Encode` and `Decode` do not return `false`. -/
theorem truncated_key_read_past_end :
    truncatedKey.size = 7 ∧ truncatedKey.read 52 8 = none ∧
    ReadMapFromKeyStream truncatedKey = none ∧
    Encode (loaded scenario) ByteStream.new truncatedKey = none ∧
    Decode 100 (loaded [0x06]) ByteStream.new truncatedKey = none := by
  have h : ReadMapFromKeyStream truncatedKey = none :=
    Option.isNone_iff_eq_none.1 (by decide!)
  refine ⟨rfl, by decide, h, ?_, ?_⟩
  · unfold Encode; rw [h]
  · unfold Decode; rw [h]

/-- C12, at the failing input: the buffer `[0x80, 0x81]` with fresh statistics.  The
insertion sort passes the `char` `0x80` of its ordering, promoted to the `int` -128, to
`byte_frequency`, whose index assertion fails: `GenerateKey` does not complete. -/
theorem build_fails_on_high_bytes :
    (loaded [0x80, 0x81]).byte_frequency (charToInt 0x80) = none ∧
    buildOrdering (loaded [0x80, 0x81]) (List.range 256) [] = none ∧
    GenerateKey exactArith (1, 2) (loaded [0x80, 0x81]) ByteStream.new = none := by
  have h : buildOrdering (loaded [0x80, 0x81]) (List.range 256) [] = none := by decide!
  refine ⟨by decide, h, ?_⟩
  unfold GenerateKey planKey
  rw [h]
  rfl

/-- `Encode` on an empty input returns success with an empty output, for every key the
parser accepts. -/
theorem encode_empty (inStream outStream keyStream : ByteStream) (kd : KeyData)
    (hkey : ReadMapFromKeyStream keyStream = some (some kd)) (hin : inStream.data = []) :
    ∃ out, Encode inStream outStream keyStream = some (true, out) ∧ out.data = [] := by
  refine ⟨(outStream.clear).bytes_changed true, ?_, rfl⟩
  unfold Encode
  simp only [hkey, hin, encodeLoop, Option.bind_eq_bind, Option.some_bind, Option.pure_def]

/-- `Decode` on an empty input returns success with an empty output when the width
`bitsShort` of the parsed key is in `0..30`. -/
theorem decode_empty (fuel : Nat) (inStream outStream keyStream : ByteStream) (kd : KeyData)
    (hkey : ReadMapFromKeyStream keyStream = some (some kd)) (hin : inStream.data = [])
    (h0 : 0 ≤ kd.bits_short) (h31 : kd.bits_short < 31) :
    ∃ out, Decode (fuel + 1) inStream outStream keyStream = some (true, out) ∧ out.data = [] := by
  refine ⟨(outStream.clear).bytes_changed true, ?_, rfl⟩
  have hsz : (inStream.size : Int) = 0 := by
    have : inStream.size = 0 := by unfold ByteStream.size; rw [hin]; rfl
    rw [this]; rfl
  have hek : extendedKey kd.bits_short = some (2 ^ kd.bits_short.toNat - 1) := by
    unfold extendedKey
    rw [if_neg (by omega), if_pos h31]
  unfold Decode
  simp only [hkey, hek, Option.bind_eq_bind, Option.some_bind]
  rw [decodeLoop_succ, if_neg (by rw [hsz]; omega)]
  rfl

/-- C19, at the failing input: the four-byte key `[0, 0, 0xFF, 0]` has no entries and the
parser accepts it, with `bitsShort` read as -1.  `Encode` on the empty input returns
success with an empty output; `Decode` on the empty input enters its loop, since
`0 + (-1) < 0`, calls `read(0, 65535)` and fails the assertion of `read`. -/
theorem decode_empty_input_negative_width :
    keyAccepted negativeWidthKey = some true ∧
    ((ReadMapFromKeyStream negativeWidthKey).join.map (fun kd => (kd.bits_short, kd.bits_long)))
      = some (-1, 0) ∧
    (Encode ByteStream.new ByteStream.new negativeWidthKey).map (fun r => (r.1, r.2.data))
      = some (true, []) ∧
    ByteStream.new.read 0 (toUShort (-1)) = none ∧
    Decode 100 ByteStream.new ByteStream.new negativeWidthKey = none := by
  refine ⟨by decide!, by decide!, by decide!, by decide!, by decide!⟩

/-- With `bitsShort = 0` and `bitsLong = 0` one pass of the `Decode` loop over a
non-empty input appends a byte and leaves the bit pointer at 0. -/
theorem decodeLoop_zero_width (s : ByteStream) (hs : 0 < s.size) (decoder : decoding_map) :
    ∀ (fuel : Nat) (out : ByteStream), out.nextBit = 0 →
      decodeLoop s decoder 0 0 0 0 fuel 0 out = none := by
  intro fuel
  induction fuel with
  | zero => intro out _; rfl
  | succ fuel ih =>
    intro out h0
    have hcond : (0 : Int) + 0 < (s.size : Int) * 8 := by omega
    have hstep : decodeStep s 0 0 0 0 0 = some (Step.emit 0 0 0) := by
      unfold decodeStep
      have hr : s.read 0 (toUShort 0) = some 0 := rfl
      rw [hr]
      rfl
    rw [decodeLoop_succ, if_pos hcond, hstep, Option.some_bind]
    simp only
    rw [put8 out _ h0 (Nat.mod_lt _ (by norm_num)), Option.some_bind]
    exact ih _ h0

/-- C20, at the failing input: the four-byte key `[0, 0, 0, 0]` has no entries and the
parser accepts it with `bitsShort = 0`; on the one-byte input `[0x00]` each pass of the
`Decode` loop emits a byte and leaves the bit pointer at 0, so the loop does not end:
no number of iterations makes `Decode` return. -/
theorem decode_zero_width_never_returns :
    keyAccepted zeroWidthKey = some true ∧
    decodeStep (loaded [0x00]) 0 0 0 0 0 = some (Step.emit 0 0 0) ∧
    ∀ fuel, Decode fuel (loaded [0x00]) ByteStream.new zeroWidthKey = none := by
  have hkey : ReadMapFromKeyStream zeroWidthKey
      = some (some { map := fun _ => none, bits_short := 0, bits_long := 0 }) := rfl
  refine ⟨by decide!, rfl, ?_⟩
  intro fuel
  unfold Decode
  simp only [hkey]
  have hek : extendedKey 0 = some 0 := rfl
  rw [hek]
  simp only [Option.bind_eq_bind, Option.some_bind, sub_self]
  rw [decodeLoop_zero_width (loaded [0x00]) (by decide) _ fuel _ rfl]
  rfl

/-- The structural search `ceilLog2` computes the ceiling of the binary logarithm. -/
theorem ceilLog2_eq_clog (n : Nat) : ceilLog2 n = Nat.clog 2 n := by
  obtain ⟨h1, h2⟩ := ceilLog2_spec n
  apply le_antisymm
  · by_contra hc
    have hlt : Nat.clog 2 n < ceilLog2 n := by omega
    have := h2 _ hlt
    have := Nat.le_pow_clog (by norm_num : 1 < 2) n
    omega
  · exact (Nat.le_pow_iff_clog_le (by norm_num : 1 < 2)).1 h1

/-- C23. Buffer shape invariant: after any sequence of `put` calls with bit counts in
`1..8`, `N` bits in all, on an empty buffer (new or cleared), `size()` is
`ceil(N / 8)`, the cursor is `N mod 8`, below 8, non-zero only when the buffer has a
byte, and when it is non-zero the `8 - cursor` low-order bits of the last byte are
zero. -/
theorem buffer_shape (s0 : ByteStream) (calls : List (Nat × Nat))
    (hdata : s0.data = []) (hbit : s0.nextBit = 0)
    (hn : ∀ c ∈ calls, 1 ≤ c.2 ∧ c.2 ≤ 8) :
    ∃ s, putAll calls s0 = some s ∧
      s.size = ((calls.map (fun c => c.2)).sum + 7) / 8 ∧
      s.nextBit = (calls.map (fun c => c.2)).sum % 8 ∧ s.nextBit < 8 ∧
      (s.nextBit ≠ 0 → s.data ≠ []) ∧
      (s.nextBit ≠ 0 → ∃ last, s.data.getLast? = some last ∧
        last < 256 ∧ last % 2 ^ (8 - s.nextBit) = 0) := by
  obtain ⟨s, e, h, -⟩ := putAll_holds calls s0 [] (Holds.empty s0 hdata hbit) hn
  rw [List.nil_append] at h
  have hN : (callBits calls).length = (calls.map (fun c => c.2)).sum := callBits_length calls
  have hsz := h.size
  have hnb := h.1
  rw [hN] at hsz hnb
  have hsize : s.size = s.data.length := rfl
  have hlast : s.nextBit ≠ 0 → ∃ last, s.data.getLast? = some last ∧
      last < 256 ∧ last % 2 ^ (8 - s.nextBit) = 0 := by
    intro hne
    obtain ⟨full, p, hd, hp, -⟩ := h.last_byte (by rw [hN, ← hnb]; omega)
    rw [hN, ← hnb] at hd hp
    refine ⟨p * 2 ^ (8 - s.nextBit), by rw [hd]; simp, ?_, Nat.mul_mod_left _ _⟩
    exact h.2.1 _ (by rw [hd]; simp)
  refine ⟨s, e, ?_, hnb, by omega, ?_, hlast⟩
  · rw [hsize]; unfold padLen at hsz; omega
  · intro hne h0
    obtain ⟨last, hl, -⟩ := hlast hne
    rw [h0] at hl
    cases hl

/-- C23, concrete instance: three calls, 18 bits in all, on a new buffer. -/
theorem buffer_shape_witness :
    ∃ s, putAll [(5, 3), (0xA7, 8), (0x1B, 7)] ByteStream.new = some s ∧
      s.size = (([(5, 3), (0xA7, 8), (0x1B, 7)].map (fun c => c.2)).sum + 7) / 8 ∧
      s.nextBit = ([(5, 3), (0xA7, 8), (0x1B, 7)].map (fun c => c.2)).sum % 8 ∧
      s.nextBit < 8 ∧ (s.nextBit ≠ 0 → s.data ≠ []) ∧
      (s.nextBit ≠ 0 → ∃ last, s.data.getLast? = some last ∧
        last < 256 ∧ last % 2 ^ (8 - s.nextBit) = 0) :=
  buffer_shape ByteStream.new [(5, 3), (0xA7, 8), (0x1B, 7)] rfl rfl (by decide)

/-- C26, at the failing inputs.  On `[0x80, 0x81]` the insertion of `0x81` compares with
the element `0x80` of the ordering, passed as the `int` -128, and the index assertion
of `byte_frequency` fails.  On `[0x80]` the sort completes with the ordering `[0x80]`
and the walk to the target fraction passes the same -128 to `byte_probability`, whose
index assertion fails. -/
theorem build_queries_negative_index :
    charToInt 0x80 = -128 ∧
    (loaded [0x80, 0x81]).byte_frequency (-128) = none ∧
    insertByte (loaded [0x80, 0x81]) 0x81 [0x80] = none ∧
    buildOrdering (loaded [0x80]) (List.range 256) [] = some [0x80] ∧
    (loaded [0x80]).byte_probability (-128) = none ∧
    planKey exactArith (1, 2) (loaded [0x80]) = none := by
  refine ⟨by decide, by decide, by decide!, by decide!, by decide, by decide!⟩

/-- C27, at the failing input: the key of `[0x41, 0x41, 0x42, 0x43]` and the input
`[0x44]`.  The parsed map has no entry for `0x44`, the lookup yields the default pair
(0, 0), `Encode` calls `put` with bit count 0 and the assertion of `put` fails; `Encode`
does not return `false`. -/
theorem encode_missing_byte_asserts :
    keyAccepted scenarioKey = some true ∧
    ((ReadMapFromKeyStream scenarioKey).join.map (fun kd => kd.map 0x44)) = some none ∧
    ByteStream.new.clear.put 0 0 = none ∧
    Encode (loaded [0x44]) ByteStream.new scenarioKey = none := by
  refine ⟨by decide!, by decide!, by decide, by decide!⟩

/-- Two numbers below `2 ^ n` with the same `n` bits are equal. -/
theorem bitsOf_inj (n v w : Nat) (hv : v < 2 ^ n) (hw : w < 2 ^ n)
    (h : bitsOf n v = bitsOf n w) : v = w := by
  have := congrArg natOfBits h
  rw [natOfBits_bitsOf, natOfBits_bitsOf, Nat.mod_eq_of_lt hv, Nat.mod_eq_of_lt hw] at this
  exact this

/-- A bit string of the same length as its extension equals it. -/
theorem append_eq_same_length {α : Type} (a t b : List α) (h : a ++ t = b)
    (hlen : a.length = b.length) : a = b := by
  have hl := congrArg List.length h
  rw [List.length_append] at hl
  have ht : t = [] := List.length_eq_zero.1 (by omega)
  rw [ht, List.append_nil] at h
  exact h

/-- No codeword of a plan's codebook, read as a bit string of its bit length, starts
another entry's codeword. -/
theorem codebook_prefix_free_aux {p : Plan} {M K b : Nat} (hs : PlanShape p M K b)
    (l : Nat) (hl : p.bits_per_remaining_characters = (l : Int))
    (e e' : Nat × Nat × Nat) (he : e ∈ codebook p) (he' : e' ∈ codebook p) (hne : e ≠ e')
    (t : List Bool) (ht : bitsOf e.2.2 e.2.1 ++ t = bitsOf e'.2.2 e'.2.1) : False := by
  have hlen := congrArg List.length ht
  rw [List.length_append, bitsOf_length, bitsOf_length] at hlen
  have hKb : K ≤ 2 ^ b := by
    rcases hs.tiers with ⟨-, h, -⟩ | ⟨-, h, -⟩ <;> omega
  have hpos : 0 < 2 ^ b := Nat.two_pow_pos b
  have hlong : ∀ j, b < l → j < 2 ^ (l - b) → (2 ^ b - 1) * 2 ^ (l - b) + j < 2 ^ l := by
    intro j hbl hj
    have hsplit : 2 ^ l = 2 ^ b * 2 ^ (l - b) := by
      rw [← pow_add]; congr 1; omega
    rw [hsplit]
    calc (2 ^ b - 1) * 2 ^ (l - b) + j < (2 ^ b - 1) * 2 ^ (l - b) + 2 ^ (l - b) := by omega
      _ = (2 ^ b - 1 + 1) * 2 ^ (l - b) := by ring
      _ = 2 ^ b * 2 ^ (l - b) := by rw [Nat.sub_add_cancel hpos]
  rcases codebook_entry hs l hl e he with ⟨i, hi, -, hpair⟩ | ⟨j, -, hK, hbl, hj, -, hpair⟩
  · rcases codebook_entry hs l hl e' he' with ⟨i', hi', -, hpair'⟩ |
        ⟨j', -, hK', hbl', hj', -, hpair'⟩
    · rw [hpair, hpair'] at ht hlen
      simp only at ht hlen
      have hbits := append_eq_same_length _ _ _ ht (by rw [bitsOf_length, bitsOf_length])
      have hii := bitsOf_inj b i i' (by omega) (by omega) hbits
      exact hne (codebook_pair_inj hs l hl e e' he he' (by rw [hpair, hpair', hii]))
    · rw [hpair, hpair'] at ht
      simp only at ht
      rw [bitsOf_cat_eq l b (l - b) (2 ^ b - 1) j' (by omega) hj', bitsOf_ones] at ht
      have hbits := (List.append_inj ht
        (by rw [bitsOf_length, List.length_replicate])).1
      rw [← bitsOf_ones] at hbits
      have := bitsOf_inj b i (2 ^ b - 1) (by omega) (by omega) hbits
      omega
  · rcases codebook_entry hs l hl e' he' with ⟨i', hi', -, hpair'⟩ |
        ⟨j', -, hK', hbl', hj', -, hpair'⟩
    · rw [hpair, hpair'] at hlen
      simp only at hlen
      omega
    · rw [hpair, hpair'] at ht hlen
      simp only at ht hlen
      have hbits := append_eq_same_length _ _ _ ht (by rw [bitsOf_length, bitsOf_length])
      have hcw := bitsOf_inj l _ _ (hlong j hbl hj) (hlong j' hbl hj') hbits
      exact hne (codebook_pair_inj hs l hl e e' he he' (by rw [hpair, hpair', hcw]))

/-- C25. Prefix-freeness: in the codebook of a completed `GenerateKey`, for any two
distinct entries the codeword of one, read as a bit string of its bit length, is not an
initial segment of the codeword of the other; this covers the folded byte with the
all-ones pattern, since then there is no long codeword. -/
theorem codebook_prefix_free (A : Arith) (tf : A.F) (B : List Nat) (hB : ∀ x ∈ B, x < 256)
    (ks key : ByteStream) (h : GenerateKey A tf (loaded B) ks = some key) :
    ∃ p, planKey A tf (loaded B) = some p ∧ Holds key (keyBits p) ∧
      ∀ e ∈ codebook p, ∀ e' ∈ codebook p, e ≠ e' →
        ¬ ∃ t, bitsOf e.2.2 e.2.1 ++ t = bitsOf e'.2.2 e'.2.1 := by
  obtain ⟨p, M, K, b, l, hp, -, hs, hl, hk, -, -, -, -, -, -⟩ :=
    build_facts A tf B hB ks key h
  refine ⟨p, hp, hk, ?_⟩
  intro e he e' he' hne ⟨t, ht⟩
  exact codebook_prefix_free_aux hs l hl e e' he he' hne t ht

/-- C25, concrete instance: `sampleLong` with target 1/2, with the short codewords
`00, 01, 10` and the long codewords `1100, 1101, 1110`. -/
theorem codebook_prefix_free_witness :
    ∃ p, planKey exactArith (1, 2) (loaded sampleLong) = some p ∧
      Holds sampleLongKey (keyBits p) ∧
      ∀ e ∈ codebook p, ∀ e' ∈ codebook p, e ≠ e' →
        ¬ ∃ t, bitsOf e.2.2 e.2.1 ++ t = bitsOf e'.2.2 e'.2.1 :=
  codebook_prefix_free exactArith (1, 2) sampleLong (by decide) ByteStream.new
    sampleLongKey sampleLong_key

theorem exactArith_add (a b : Nat × Nat) (ha : 0 < a.2) (hb : 0 < b.2) :
    0 < (exactArith.add a b).2 ∧ ratioOf (exactArith.add a b) = ratioOf a + ratioOf b := by
  have ha' : (a.2 : ℚ) ≠ 0 := by exact_mod_cast ha.ne'
  have hb' : (b.2 : ℚ) ≠ 0 := by exact_mod_cast hb.ne'
  refine ⟨Nat.mul_pos ha hb, ?_⟩
  show (((a.1 * b.2 + b.1 * a.2 : Nat) : ℚ)) / ((a.2 * b.2 : Nat) : ℚ)
    = (a.1 : ℚ) / (a.2 : ℚ) + (b.1 : ℚ) / (b.2 : ℚ)
  rw [div_add_div _ _ ha' hb']
  push_cast
  ring

theorem exactArith_lt (a b : Nat × Nat) (ha : 0 < a.2) (hb : 0 < b.2) :
    exactArith.lt a b = true ↔ ratioOf a < ratioOf b := by
  have ha' : (0 : ℚ) < (a.2 : ℚ) := by exact_mod_cast ha
  have hb' : (0 : ℚ) < (b.2 : ℚ) := by exact_mod_cast hb
  show decide (a.1 * b.2 < b.1 * a.2) = true ↔ (a.1 : ℚ) / (a.2 : ℚ) < (b.1 : ℚ) / (b.2 : ℚ)
  rw [decide_eq_true_eq, div_lt_div_iff₀ ha' hb']
  exact_mod_cast Iff.rfl

theorem loaded_byte_probability (B : List Nat) (hB : ∀ x ∈ B, x < 256) (c : Nat)
    (hc : c < 256) :
    (loaded B).byte_probability (c : Int) = some (B.count c, B.length) :=
  refreshed_byte_probability ({ ByteStream.new with data := B } : ByteStream) hB c hc

/-- The walk to the target fraction, with exact fractions: it consumes bytes as long as
the accumulated probability is below the target. -/
theorem walkTarget_exact (B : List Nat) (hB : ∀ x ∈ B, x < 256) (hlen : 0 < B.length)
    (tf : Nat × Nat) (htf : 0 < tf.2) :
    ∀ (l : List Nat) (acc : Nat × Nat) (cnt : Nat) (it : List Nat) (acc' : Nat × Nat)
      (cnt' : Nat), (∀ c ∈ l, c < 256) → 0 < acc.2 →
      walkTarget exactArith (loaded B) tf l acc cnt = some (it, acc', cnt') →
      ∃ walked, l = walked ++ it ∧ cnt' = cnt + walked.length ∧
        (∀ k, k < walked.length →
          ratioOf acc + ((walked.take k).map
            (fun c => (B.count c : ℚ) / (B.length : ℚ))).sum < ratioOf tf) ∧
        (it ≠ [] → ratioOf tf ≤ ratioOf acc
          + (walked.map (fun c => (B.count c : ℚ) / (B.length : ℚ))).sum) := by
  intro l
  induction l with
  | nil =>
    intro acc cnt it acc' cnt' _ _ h
    simp only [walkTarget, Option.some.injEq, Prod.mk.injEq] at h
    obtain ⟨h1, -, h3⟩ := h
    refine ⟨[], by rw [← h1]; rfl, by rw [← h3]; rfl, ?_, ?_⟩
    · intro k hk; simp at hk
    · intro hne; exact absurd h1.symm hne
  | cons c rest ih =>
    intro acc cnt it acc' cnt' hl hacc h
    have hc := hl c (List.mem_cons_self _ _)
    simp only [walkTarget] at h
    by_cases hlt : exactArith.lt acc tf = true
    · rw [if_pos hlt] at h
      simp only [Option.bind_eq_bind] at h
      cases hp : (loaded B).byte_probability (charToInt c) with
      | none => simp [hp] at h
      | some pr =>
        have hc128 : c < 128 := by
          have := (byte_probability_some hp).1
          unfold charToInt at this
          by_contra hcc
          rw [if_neg hcc] at this
          omega
        rw [charToInt_low c hc128, loaded_byte_probability B hB c hc] at hp
        cases hp
        rw [charToInt_low c hc128, loaded_byte_probability B hB c hc, Option.some_bind] at h
        obtain ⟨hden, hsum⟩ := exactArith_add acc (exactArith.quot (B.count c) B.length) hacc hlen
        obtain ⟨walked, e1, e2, e3, e4⟩ := ih _ _ it acc' cnt'
          (fun x hx => hl x (List.mem_cons_of_mem _ hx)) hden h
        have hq : ratioOf (exactArith.quot (B.count c) B.length)
            = (B.count c : ℚ) / (B.length : ℚ) := rfl
        rw [hsum, hq] at e3 e4
        refine ⟨c :: walked, by rw [e1]; rfl, by rw [e2, List.length_cons]; omega, ?_, ?_⟩
        · intro k hk
          cases k with
          | zero =>
            simp only [List.take_zero, List.map_nil, List.sum_nil, add_zero]
            exact (exactArith_lt acc tf hacc htf).1 hlt
          | succ k =>
            simp only [List.take_succ_cons, List.map_cons, List.sum_cons]
            have := e3 k (by simp only [List.length_cons] at hk; omega)
            rw [← add_assoc]
            exact this
        · intro hne
          simp only [List.map_cons, List.sum_cons]
          rw [← add_assoc]
          exact e4 hne
    · rw [if_neg hlt] at h
      simp only [Option.some.injEq, Prod.mk.injEq] at h
      obtain ⟨h1, h2, h3⟩ := h
      refine ⟨[], by rw [← h1]; rfl, by rw [← h3]; rfl, ?_, ?_⟩
      · intro k hk; simp at hk
      · intro _
        simp only [List.map_nil, List.sum_nil, add_zero]
        have := (exactArith_lt acc tf hacc htf).not.1 hlt
        exact not_lt.1 this

/-- The short width of a plan is computed from the count of the walk to the target. -/
theorem planKey_walk (A : Arith) (tf : A.F) (s : ByteStream) (p : Plan)
    (h : planKey A tf s = some p) :
    ∃ it1 f1 count1, walkTarget A s tf p.ordering A.zero 0 = some (it1, f1, count1) ∧
      p.bits_per_target_character = targetBits count1 := by
  unfold planKey at h
  simp only [Option.bind_eq_bind] at h
  cases hord : buildOrdering s (List.range 256) [] with
  | none => simp [hord] at h
  | some ordering =>
    simp only [hord, Option.some_bind] at h
    by_cases hz : (ordering.length : Int) = 0
    · simp [hz] at h
    · simp only [hz, if_false] at h
      cases hw : walkTarget A s tf ordering A.zero 0 with
      | none => simp [hw] at h
      | some r1 =>
        obtain ⟨it1, fraction1, count1⟩ := r1
        simp only [hw, Option.some_bind] at h
        cases hx : walkExtra A s (extraCharacters (targetBits count1) count1).toNat it1
            fraction1 count1 with
        | none => simp [hx] at h
        | some r2 =>
          obtain ⟨it2, fraction2, count2⟩ := r2
          simp only [hx, Option.some_bind] at h
          cases hf : foldSingle s (ordering.length : Int) (targetBits count1) it2 count2 with
          | none => simp [hf] at h
          | some count3 =>
            simp only [hf, Option.some_bind, Option.pure_def, Option.some.injEq] at h
            subst h
            exact ⟨it1, fraction1, count1, hw, rfl⟩

theorem targetBits_max (count : Nat) (h : 1 ≤ count) :
    targetBits count = ((max 2 (Nat.clog 2 (count + 1)) : Nat) : Int) := by
  have hpos := ceilLog2_pos (count + 1) (by omega)
  unfold targetBits
  simp only
  rw [← ceilLog2_eq_clog]
  by_cases h2 : ceilLog2 (count + 1) < 2
  · rw [if_pos (by omega)]
    have : ceilLog2 (count + 1) = 1 := by omega
    rw [this]; rfl
  · rw [if_neg (by omega), max_eq_right (by omega)]

/-- The probabilities of the bytes of an ordering add up to 1. -/
theorem cumulative_all (B ord : List Nat) (hlen : 0 < B.length) (hnd : ord.Nodup)
    (hmem : ∀ c, c ∈ ord ↔ c ∈ B) :
    (ord.map (fun c => (B.count c : ℚ) / (B.length : ℚ))).sum = 1 := by
  have hperm : ord.Perm B.dedup := by
    rw [List.perm_ext_iff_of_nodup hnd (List.nodup_dedup B)]
    intro a
    rw [hmem, List.mem_dedup]
  have hpos : (B.length : ℚ) ≠ 0 := by exact_mod_cast hlen.ne'
  have hdiv : ord.map (fun c => (B.count c : ℚ) / (B.length : ℚ))
      = ord.map (fun c => (B.count c : ℚ) * (B.length : ℚ)⁻¹) := by
    apply List.map_congr_left
    intro c _
    rw [div_eq_mul_inv]
  have hcast : (ord.map (fun c => (B.count c : ℚ))).sum
      = (((ord.map (fun c => B.count c)).sum : Nat) : ℚ) := by
    rw [Nat.cast_list_sum, List.map_map]; rfl
  rw [hdiv, List.sum_map_mul_right, hcast, (hperm.map _).sum_eq,
    List.sum_map_count_dedup_eq_length, ← div_eq_mul_inv]
  exact div_self hpos

theorem take_four_third (l : List Nat) (a b c d : Nat) (h : l.take 4 = [a, b, c, d]) :
    l.getD 2 0 = c := by
  match l, h with
  | x :: y :: z :: w :: rest, h =>
    simp only [List.take_succ_cons, List.take_zero, List.cons.injEq, and_true] at h
    simp [h.2.2.1]

/-- The walk to the target fraction in exact arithmetic: with probabilities taken as
exact fractions and a target `tn / td` in (0, 1), when `GenerateKey` completes the count
`K0` of the walk is the smallest `k >= 1` for which the probabilities of the first `k`
bytes of the ordering add up to at least the target, and `bitsShort` is
`max(2, ceil(log2(K0 + 1)))`. -/
theorem exact_walk_cutoff (tn td : Nat) (B : List Nat) (hB : ∀ x ∈ B, x < 256)
    (h0 : 0 < tn) (h1 : tn < td) (ks key : ByteStream)
    (h : GenerateKey exactArith (tn, td) (loaded B) ks = some key) :
    ∃ (p : Plan) (K0 : Nat), planKey exactArith (tn, td) (loaded B) = some p ∧
      1 ≤ K0 ∧ K0 ≤ p.ordering.length ∧
      (tn : ℚ) / (td : ℚ) ≤ cumulative B p.ordering K0 ∧
      (∀ k, k < K0 → cumulative B p.ordering k < (tn : ℚ) / (td : ℚ)) ∧
      p.bits_per_target_character = ((max 2 (Nat.clog 2 (K0 + 1)) : Nat) : Int) ∧
      key.data.getD 2 0 = max 2 (Nat.clog 2 (K0 + 1)) := by
  have htf : exactArith.lt exactArith.zero (tn, td) = true := by
    show decide (0 * td < tn * 1) = true
    rw [decide_eq_true_eq]; omega
  obtain ⟨p, M, K, b, l, hp, hs, hl, hMd, hb2, hk, hhead⟩ :=
    build_header exactArith (tn, td) B hB htf ks key h
  obtain ⟨p', M', K', b', l', hp', -, hs', -, -, -, -, -, hnd, hmem, -⟩ :=
    build_facts exactArith (tn, td) B hB ks key h
  rw [hp] at hp'
  cases hp'
  have hlt256 : ∀ c ∈ p.ordering, c < 256 := fun c hc => hB c ((hmem c).1 hc)
  have hne : p.ordering ≠ [] := by
    intro h0'
    have := hs.len
    rw [h0'] at this
    have := hs.M_pos
    simp at *
    omega
  have hlen : 0 < B.length := by
    cases hord : p.ordering with
    | nil => exact absurd hord hne
    | cons c rest =>
      have : c ∈ B := (hmem c).1 (by rw [hord]; exact List.mem_cons_self _ _)
      exact List.length_pos_of_mem this
  obtain ⟨it1, f1, count1, hw, hbits⟩ := planKey_walk exactArith (tn, td) (loaded B) p hp
  obtain ⟨walked, e1, e2, e3, e4⟩ := walkTarget_exact B hB hlen (tn, td) (by show 0 < td; omega)
    p.ordering exactArith.zero 0 it1 f1 count1 hlt256 (by show 0 < 1; omega) hw
  have hzero : ratioOf exactArith.zero = 0 := by
    show ((0 : Nat) : ℚ) / ((1 : Nat) : ℚ) = 0
    simp
  have htfq : ratioOf ((tn, td) : Nat × Nat) = (tn : ℚ) / (td : ℚ) := rfl
  rw [hzero, htfq] at e4
  simp only [Nat.zero_add] at e2
  have htd : (0 : ℚ) < (td : ℚ) := by exact_mod_cast (by omega : 0 < td)
  have hlt1 : (tn : ℚ) / (td : ℚ) < 1 := by
    rw [div_lt_one htd]; exact_mod_cast h1
  have hgt0 : (0 : ℚ) < (tn : ℚ) / (td : ℚ) := div_pos (by exact_mod_cast h0) htd
  have hcum : ∀ k, k ≤ walked.length → cumulative B p.ordering k
      = ((walked.take k).map (fun c => (B.count c : ℚ) / (B.length : ℚ))).sum := by
    intro k hk
    unfold cumulative
    rw [e1, List.take_append_of_le_length hk]
  have hreach : (tn : ℚ) / (td : ℚ) ≤ cumulative B p.ordering count1 := by
    rw [hcum count1 (by omega), e2, List.take_length]
    by_cases hit : it1 = []
    · rw [hit, List.append_nil] at e1
      rw [← e1, cumulative_all B p.ordering hlen hnd hmem]
      exact le_of_lt hlt1
    · have := e4 hit
      rw [zero_add] at this
      exact this
  have hK1 : 1 ≤ count1 := by
    by_contra hc
    have hc0 : count1 = 0 := by omega
    rw [hc0] at hreach
    unfold cumulative at hreach
    simp only [List.take_zero, List.map_nil, List.sum_nil] at hreach
    exact absurd hgt0 (not_lt.2 hreach)
  have hb : p.bits_per_target_character = ((max 2 (Nat.clog 2 (count1 + 1)) : Nat) : Int) := by
    rw [hbits, targetBits_max count1 hK1]
  refine ⟨p, count1, hp, hK1, ?_, hreach, ?_, hb, ?_⟩
  · rw [e1, List.length_append, e2]; omega
  · intro k hk
    rw [hcum k (by omega)]
    have := e3 k (by omega)
    rw [hzero, zero_add, htfq] at this
    exact this
  · rw [take_four_third key.data _ _ _ _ hhead]
    have := hs.bits.symm.trans hb
    exact_mod_cast this

/-- A long codeword that ends exactly at the end of the input makes the loop of `Decode`
stop after the escape pattern: the extension would end at the last bit. -/
theorem decodeStep_long_stop (s : ByteStream) (hs : ∀ x ∈ s.data, x < 256) (b l j : Nat)
    (hb1 : 1 ≤ b) (hb8 : b ≤ 8) (hbl : b < l) (hj : j < 2 ^ (l - b))
    (pre : List Bool)
    (hbits : allBits s.data = pre ++ bitsOf l ((2 ^ b - 1) * 2 ^ (l - b) + j)) :
    decodeStep s (b : Int) (l : Int) ((2 : Int) ^ b - 1) ((l : Int) - (b : Int))
        (pre.length : Int) = some Step.stop := by
  have hsplit : bitsOf l ((2 ^ b - 1) * 2 ^ (l - b) + j)
      = bitsOf b (2 ^ b - 1) ++ bitsOf (l - b) j :=
    bitsOf_cat_eq l b (l - b) _ _ (by omega) hj
  have hlen := congrArg List.length hbits
  rw [allBits_length] at hlen
  simp only [List.length_append, bitsOf_length] at hlen
  have hbits1 : allBits s.data = pre ++ bitsOf b (2 ^ b - 1) ++ bitsOf (l - b) j := by
    rw [hbits, hsplit]; simp [List.append_assoc]
  have hr1 := read_bits s hs pre (bitsOf b (2 ^ b - 1)) _ hbits1
    (by rw [bitsOf_length]; exact hb1) (by rw [bitsOf_length]; exact hb8)
  have hpos : 0 < 2 ^ b := by positivity
  rw [bitsOf_length, natOfBits_bitsOf, Nat.mod_eq_of_lt (by omega)] at hr1
  have h28 : 2 ^ b ≤ 256 :=
    calc 2 ^ b ≤ 2 ^ 8 := Nat.pow_le_pow_right (by norm_num) hb8
      _ = 256 := rfl
  have hl0 : (l : Int) ≠ 0 := by omega
  have hguard : (pre.length : Int) + (b : Int) + ((l : Int) - (b : Int))
      ≥ (s.size : Int) * 8 := by
    unfold ByteStream.size; omega
  simp only [decodeStep, toUShort_natCast b (by omega), hr1, Option.bind_eq_bind,
    Option.some_bind, and_ff_of_lt (2 ^ b - 1) (by omega), toUInt_escape b hb8, hl0,
    ne_eq, not_false_eq_true, and_self, if_true, hguard, Option.pure_def]

/-- A codeword that ends exactly at the end of the input is not decoded: the loop of
`Decode` stops in front of it. -/
theorem decodeLoop_last (s : ByteStream) (hs : ∀ x ∈ s.data, x < 256)
    (map : encoding_map) (decoder : decoding_map) (b l : Nat) (hb1 : 1 ≤ b) (hb8 : b ≤ 8)
    (c : Nat) (hsym : SymOK map decoder b l c) (pre : List Bool) (out : ByteStream)
    (fuel : Nat) (hbits : allBits s.data = pre ++ codeBits map c) :
    decodeLoop s decoder (b : Int) (l : Int) ((2 : Int) ^ b - 1) ((l : Int) - (b : Int))
        (fuel + 1) (pre.length : Int) out = some out := by
  obtain ⟨-, cw, len, hm, -, hshape⟩ := hsym
  have hcb : codeBits map c = bitsOf len cw := by simp [codeBits, hm]
  rw [hcb] at hbits
  have hlen := congrArg List.length hbits
  rw [allBits_length] at hlen
  simp only [List.length_append, bitsOf_length] at hlen
  rw [decodeLoop_succ]
  rcases hshape with ⟨hl, -, -⟩ | ⟨hl, hbl, j, hj, hcwj⟩
  · subst hl
    have hguard : ¬ ((pre.length : Int) + (len : Int) < (s.size : Int) * 8) := by
      unfold ByteStream.size; omega
    rw [if_neg hguard]
  · subst hl
    subst hcwj
    have hguard : (pre.length : Int) + (b : Int) < (s.size : Int) * 8 := by
      unfold ByteStream.size; omega
    rw [if_pos hguard, decodeStep_long_stop s hs b len j hb1 hb8 hbl hj pre hbits]
    rfl

/-- Decoding an encoding whose bit count is a multiple of 8: the last byte is lost. -/
theorem decode_encoded_full (p : Plan) (M K b l : Nat) (hs : PlanShape p M K b)
    (hb8 : b ≤ 8) (hl : p.bits_per_remaining_characters = (l : Int))
    (hdl : K < M → 1 ≤ l - b ∧ l - b ≤ 8) (hl0 : K = M → l = 0)
    (hnd : p.ordering.Nodup) (hlt : ∀ c ∈ p.ordering, c < 256)
    (key : ByteStream)
    (hread : ReadMapFromKeyStream key
      = some (some { map := planMap p, bits_short := (b : Int), bits_long := (l : Int) }))
    (B : List Nat) (hB : ∀ c ∈ B, c ∈ p.ordering) (hne : B ≠ [])
    (inS outS : ByteStream) (hin : Holds inS (B.flatMap (codeBits (planMap p))))
    (hN : encodedBitCount p B % 8 = 0) (fuel : Nat) (hfuel : B.length + 8 ≤ fuel) :
    ∃ out, Decode fuel inS outS key = some (true, out) ∧ out.data = B.dropLast := by
  have hNlen : (B.flatMap (codeBits (planMap p))).length = encodedBitCount p B :=
    flatMap_codeBits_length _ _
  have hbits := hin.2.2
  rw [hNlen] at hbits
  have hpad : padLen (encodedBitCount p B) = 0 := by unfold padLen; omega
  rw [hpad, List.replicate_zero, List.append_nil] at hbits
  have hl8 : l ≤ b + 8 := by
    by_cases h : K < M
    · have := hdl h; omega
    · have : K = M := by
        rcases hs.tiers with ⟨h1, -⟩ | ⟨h1, -⟩ <;> omega
      have := hl0 this; omega
  have hsym : ∀ c ∈ B, SymOK (planMap p) (GetDecodingMap (planMap p)) b l c :=
    fun c hc => sym_ok hs l hl hl0 hnd hlt c (hB c hc)
  have hsplit : B = B.dropLast ++ [B.getLast hne] := (List.dropLast_append_getLast hne).symm
  have hlastmem : B.getLast hne ∈ B := List.getLast_mem hne
  have hlastsym := hsym _ hlastmem
  have htail : codeBits (planMap p) (B.getLast hne) ≠ [] := by
    obtain ⟨-, cw, len, hm, -, hshape⟩ := hlastsym
    have hcb : codeBits (planMap p) (B.getLast hne) = bitsOf len cw := by simp [codeBits, hm]
    intro h0
    have := congrArg List.length h0
    rw [hcb, bitsOf_length] at this
    have hb1 := hs.b_pos
    rcases hshape with ⟨h1, -⟩ | ⟨h1, h2, -⟩ <;> simp at this <;> omega
  have hbits1 : allBits inS.data = [] ++ B.dropLast.flatMap (codeBits (planMap p))
      ++ codeBits (planMap p) (B.getLast hne) := by
    rw [List.nil_append, hbits]
    conv_lhs => rw [hsplit]
    rw [List.flatMap_append]
    simp
  have hdl' : B.dropLast.length + 1 = B.length := by
    have := congrArg List.length hsplit
    simp only [List.length_append, List.length_singleton] at this
    omega
  obtain ⟨f, rfl⟩ : ∃ f, fuel = B.dropLast.length + (f + 1) :=
    ⟨fuel - B.dropLast.length - 1, by omega⟩
  have h1 := decodeLoop_symbols inS hin.2.1 (planMap p) (GetDecodingMap (planMap p)) b l
    hs.b_pos hb8 hl8 _ htail B.dropLast [] outS.clear (f + 1)
    (fun c hc => hsym c (List.mem_of_mem_dropLast hc)) hbits1 rfl
  have h2 := decodeLoop_last inS hin.2.1 (planMap p) (GetDecodingMap (planMap p)) b l
    hs.b_pos hb8 (B.getLast hne) hlastsym ([] ++ B.dropLast.flatMap (codeBits (planMap p)))
    { outS.clear with data := outS.clear.data ++ B.dropLast } f hbits1
  rw [h2] at h1
  refine ⟨({ outS.clear with data := outS.clear.data ++ B.dropLast } :
    ByteStream).bytes_changed true, ?_, ?_⟩
  · unfold Decode
    have h0 : ((([] : List Bool).length : Nat) : Int) = 0 := rfl
    rw [h0] at h1
    simp only [hread, extendedKey_small b hb8, Option.bind_eq_bind, Option.some_bind, h1]
    rfl
  · rw [bytes_changed_data]
    simp [ByteStream.clear]

/-- The chain GenerateKey, Encode, Decode on a non-empty buffer with at most 127
distinct byte values whose encoding fills its last byte: the last byte is lost. -/
theorem roundTrip_full_aux (A : Arith) (tf : A.F) (B : List Nat) (fuel : Nat) (p : Plan)
    (hB : ∀ x ∈ B, x < 256) (hne : B ≠ [])
    (hplan : planKey A tf (loaded B) = some p)
    (hkey : (GenerateKey A tf (loaded B) ByteStream.new).isSome = true)
    (hM : B.dedup.length ≤ 127)
    (hN : encodedBitCount p B % 8 = 0)
    (hfuel : B.length + 8 ≤ fuel) :
    roundTrip A tf fuel B = some (true, B.dropLast) := by
  obtain ⟨key, hk⟩ := Option.isSome_iff_exists.1 hkey
  obtain ⟨p', M, K, b, l, hp', -, hs, hl, hkh, hb8, hdl, hl0, hnd, hmem, -⟩ :=
    build_facts A tf B hB ByteStream.new key hk
  rw [hplan] at hp'
  cases hp'
  have hlt : ∀ c ∈ p.ordering, c < 256 := fun c hc => hB c ((hmem c).1 hc)
  have hM' : M ≤ 127 := by
    rw [← hs.len, ordering_length_dedup B p.ordering hnd hmem]; exact hM
  have hread := readMap_key p M K b l hs hM' key hkh hb8 hl hdl hlt
  have hmap : ∀ c ∈ (loaded B).data, ∃ cw len,
      (KeyData.mk (planMap p) (b : Int) (l : Int)).map c = some (cw, len)
        ∧ 1 ≤ len ∧ len ≤ 16 := by
    intro c hc
    rw [loaded_data] at hc
    obtain ⟨-, cw, len, hm, -, hshape⟩ :=
      sym_ok hs l hl hl0 hnd hlt c ((hmem c).2 hc)
    refine ⟨cw, len, hm, ?_⟩
    have hb1 := hs.b_pos
    rcases hshape with ⟨h1, -⟩ | ⟨h1, h2, -⟩
    · omega
    · have hKM : K < M := by
        by_contra hc'
        have : K = M := by
          rcases hs.tiers with ⟨t, -⟩ | ⟨t, -⟩ <;> omega
        have := hl0 this
        omega
      have := hdl hKM
      omega
  obtain ⟨enc, henc, hench⟩ := encode_holds (loaded B) ByteStream.new key _ hread hmap
  rw [loaded_data] at hench
  obtain ⟨out, hdec, hout⟩ := decode_encoded_full p M K b l hs hb8 hl hdl hl0 hnd hlt key
    (by exact hread) B (fun c hc => (hmem c).2 hc) hne ((loaded B).assign enc) enc
    (hench.assign _) hN fuel hfuel
  unfold roundTrip
  simp only [hk, henc, hdec, Option.bind_eq_bind, Option.some_bind, if_true, Option.pure_def,
    hout]

/-- C24. Exact result of Decode after Encode: for every non-empty buffer `B` of bytes
below `0x80` with at most 127 distinct byte values, Build completes and Decode after
Encode, with enough loop fuel, returns success with an output `D` such that: if the
number `N` of codeword bits of `B` is a multiple of 8, `D` is `B` without its last byte;
otherwise `D` is `B` followed by `floor((8 * ceil(N / 8) - N - 1) / bitsShort)` copies
of the first byte of the ordering.  In both cases `D` and `B` agree on their first
`|B| - 1` bytes. -/
theorem decode_after_encode_exact (A : Arith) (tf : A.F) (B : List Nat) (fuel : Nat)
    (hne : B ≠ []) (hB : ∀ x ∈ B, x < 128) (hM : B.dedup.length ≤ 127)
    (hfuel : B.length + 8 ≤ fuel) :
    ∃ (p : Plan) (key : ByteStream) (D : List Nat),
      planKey A tf (loaded B) = some p ∧
      GenerateKey A tf (loaded B) ByteStream.new = some key ∧
      roundTrip A tf fuel B = some (true, D) ∧
      (encodedBitCount p B % 8 = 0 → D = B.dropLast) ∧
      (encodedBitCount p B % 8 ≠ 0 → D = B ++ List.replicate
        ((8 * ((encodedBitCount p B + 7) / 8) - encodedBitCount p B - 1)
          / p.bits_per_target_character.toNat) (p.ordering.headD 0)) ∧
      D.take (B.length - 1) = B.take (B.length - 1) := by
  have hB256 : ∀ x ∈ B, x < 256 := fun x hx => lt_trans (hB x hx) (by norm_num)
  obtain ⟨key, hkey⟩ := GenerateKey_total A tf B hne hB ByteStream.new
  obtain ⟨p, M, K, b, l, hp, -, hs, -, -, -, -, -, -, -, -⟩ :=
    build_facts A tf B hB256 ByteStream.new key hkey
  have hsome : (GenerateKey A tf (loaded B) ByteStream.new).isSome = true := by
    rw [hkey]; rfl
  by_cases hN : encodedBitCount p B % 8 = 0
  · refine ⟨p, key, B.dropLast, hp, hkey,
      roundTrip_full_aux A tf B fuel p hB256 hne hp hsome hM hN hfuel,
      fun _ => rfl, fun h => absurd hN h, ?_⟩
    rw [List.dropLast_eq_take, List.take_take, Nat.min_self]
  · have hpadeq : padLen (encodedBitCount p B) - 1
        = 8 * ((encodedBitCount p B + 7) / 8) - encodedBitCount p B - 1 := by
      unfold padLen; omega
    refine ⟨p, key, _, hp, hkey,
      roundTrip_padded_aux A tf B fuel p hB256 hp hsome hM hN hfuel,
      fun h => absurd h hN, fun _ => by rw [hpadeq], ?_⟩
    rw [List.take_append_of_le_length (by omega)]

/-- C24, concrete instance: `[0x41, 0x41, 0x42, 0x43]` has 8 codeword bits and comes
back as `[0x41, 0x41, 0x42]`, without its last byte. -/
theorem decode_after_encode_exact_witness :
    ∃ (p : Plan) (key : ByteStream) (D : List Nat),
      planKey exactArith (1, 2) (loaded scenario) = some p ∧
      GenerateKey exactArith (1, 2) (loaded scenario) ByteStream.new = some key ∧
      roundTrip exactArith (1, 2) 100 scenario = some (true, D) ∧
      (encodedBitCount p scenario % 8 = 0 → D = scenario.dropLast) ∧
      (encodedBitCount p scenario % 8 ≠ 0 → D = scenario ++ List.replicate
        ((8 * ((encodedBitCount p scenario + 7) / 8) - encodedBitCount p scenario - 1)
          / p.bits_per_target_character.toNat) (p.ordering.headD 0)) ∧
      D.take (scenario.length - 1) = scenario.take (scenario.length - 1) ∧
      D = [0x41, 0x41, 0x42] := by
  obtain ⟨p, key, D, hp, hk, hrt, h0, h1, h2⟩ :=
    decode_after_encode_exact exactArith (1, 2) scenario 100 (by decide) (by decide)
      (by decide) (by decide)
  have hD : D = [0x41, 0x41, 0x42] :=
    (Prod.mk.inj (Option.some.inj (hrt.symm.trans scenario_roundTrip))).2
  exact ⟨p, key, D, hp, hk, hrt, h0, h1, h2, hD⟩

/-- Build on `sampleLong` with target `0.5` in double arithmetic, evaluated. -/
theorem sampleLong_key_double :
    GenerateKey doubleArith half (loaded sampleLong) ByteStream.new = some sampleLongKey := by
  decide!

/-- Build on `[0x41, 0x42, 0x43, 0x44]` with target `0.5` in double arithmetic,
evaluated. -/
theorem folded_key_double :
    GenerateKey doubleArith half (loaded [0x41, 0x42, 0x43, 0x44]) ByteStream.new
      = some foldedKey := by
  decide!

/-- Build on `cutoffSample` with target `0.5` in double arithmetic, evaluated. -/
theorem cutoff_plan_double :
    planKey doubleArith half (loaded cutoffSample)
      = some ⟨[0x41, 0x42, 0x43, 0x44, 0x45, 0x46, 0x47, 0x48, 0x49], 9, 7, 3, 4⟩ := by
  decide!

theorem cutoff_key_double :
    GenerateKey doubleArith half (loaded cutoffSample) ByteStream.new = some cutoffKey := by
  decide!

/-- Build on `[0x41, 0x41, 0x42, 0x43]` with target `0.5` in double arithmetic,
evaluated. -/
theorem scenario_key_double :
    GenerateKey doubleArith half (loaded scenario) ByteStream.new = some scenarioKey := by
  decide!

/-- Four header bytes determine the numbers they were written from. -/
theorem header_values (l : List Nat) (a b c d a1 b1 c1 d1 : Nat) (h : l.take 4 = [a, b, c, d])
    (h1 : l.take 4 = [a1, b1, c1, d1]) : a = a1 ∧ b = b1 ∧ c = c1 ∧ d = d1 := by
  rw [h] at h1
  simp only [List.cons.injEq, and_true] at h1
  exact h1

/-- A key written by `GenerateKey` serialises a codebook whose byte values are pairwise
distinct and are the byte values of the buffer. -/
theorem codebook_coverage_aux (A : Arith) (tf : A.F) (B : List Nat) (hB : ∀ x ∈ B, x < 256)
    (ks key : ByteStream) (h : GenerateKey A tf (loaded B) ks = some key) :
    ∃ p, planKey A tf (loaded B) = some p ∧ Holds key (keyBits p) ∧
      ((codebook p).map (fun e => e.1)).Nodup ∧
      ∀ c, c ∈ (codebook p).map (fun e => e.1) ↔ c ∈ B := by
  obtain ⟨p, M, K, b, l, hp, -, hs, -, hk, -, -, -, hnd, hmem, -⟩ :=
    build_facts A tf B hB ks key h
  refine ⟨p, hp, hk, ?_, ?_⟩
  · rw [codebook_map_fst hs]; exact hnd
  · intro c; rw [codebook_map_fst hs]; exact hmem c

/-- C3. Codebook coverage: on every non-empty buffer `B` of bytes below `0x80` with fresh
statistics `GenerateKey` completes, and whenever it completes the key it leaves is the
serialisation of a codebook with exactly one entry for each byte value that occurs in
`B` and no entry for any other byte value. -/
theorem codebook_coverage (A : Arith) (tf : A.F) (B : List Nat) (hB : ∀ x ∈ B, x < 256)
    (ks : ByteStream) :
    (B ≠ [] → (∀ x ∈ B, x < 128) → ∃ key, GenerateKey A tf (loaded B) ks = some key) ∧
    ∀ key, GenerateKey A tf (loaded B) ks = some key →
      ∃ p, planKey A tf (loaded B) = some p ∧ Holds key (keyBits p) ∧
        ((codebook p).map (fun e => e.1)).Nodup ∧
        ∀ c, c ∈ (codebook p).map (fun e => e.1) ↔ c ∈ B :=
  ⟨fun hne h7 => GenerateKey_total A tf B hne h7 ks,
   fun key h => codebook_coverage_aux A tf B hB ks key h⟩

/-- C3, concrete instance with a long tier: `sampleLong` with target `0.5` in double
arithmetic; the key is `sampleLongKey`, three short and three long entries. -/
theorem codebook_coverage_witness :
    (∃ key, GenerateKey doubleArith half (loaded sampleLong) ByteStream.new = some key) ∧
    GenerateKey doubleArith half (loaded sampleLong) ByteStream.new = some sampleLongKey ∧
    ∃ p, planKey doubleArith half (loaded sampleLong) = some p ∧
      Holds sampleLongKey (keyBits p) ∧
      ((codebook p).map (fun e => e.1)).Nodup ∧
      ∀ c, c ∈ (codebook p).map (fun e => e.1) ↔ c ∈ sampleLong :=
  ⟨(codebook_coverage doubleArith half sampleLong (by decide) ByteStream.new).1
      (by decide) (by decide),
   sampleLong_key_double,
   (codebook_coverage doubleArith half sampleLong (by decide) ByteStream.new).2
      sampleLongKey sampleLong_key_double⟩

/-- The bytes of a key written by `GenerateKey` with a positive target fraction are the
layout of the specification. -/
theorem key_layout_aux (A : Arith) (tf : A.F) (B : List Nat) (hB : ∀ x ∈ B, x < 256)
    (htf : A.lt A.zero tf = true) (ks key : ByteStream)
    (h : GenerateKey A tf (loaded B) ks = some key) :
    ∃ (p : Plan) (K b l : Nat), planKey A tf (loaded B) = some p ∧
      p.ordering.length = B.dedup.length ∧
      p.unique_upto_target_fraction = (K : Int) ∧ p.bits_per_target_character = (b : Int) ∧
      p.bits_per_remaining_characters = (l : Int) ∧ K ≤ B.dedup.length ∧
      key.data.take 4 = [B.dedup.length, K, b, l] ∧
      allBits key.data = specKeyBits p.ordering B.dedup.length K b l
        ++ List.replicate (padLen (specKeyBits p.ordering B.dedup.length K b l).length) false ∧
      key.size = ((specKeyBits p.ordering B.dedup.length K b l).length + 7) / 8 := by
  obtain ⟨p, M, K, b, l, hp, -, hs, hl, hk, hb8, -, -, hnd, hmem, -⟩ :=
    build_facts A tf B hB ks key h
  have hM254 := planKey_M_le A tf (loaded B) p hp htf
  have hlen := hs.len
  have hMd : M = B.dedup.length := by
    rw [← hs.len]; exact ordering_length_dedup B p.ordering hnd hmem
  obtain ⟨l', hl', hl18, htier⟩ := hs.long_bits
  have hll : l' = l := by
    have := hl'.symm.trans hl
    exact_mod_cast this
  subst hll
  have hKM : K ≤ M := by rcases htier with ⟨h1, -⟩ | ⟨h1, -⟩ <;> omega
  have hspec := keyBits_eq_spec hs l' hl
  have hhead := key_header p key hk
  rw [hs.unique, hs.upto, hs.bits, hl, toChar_natCast M (by omega), toChar_natCast K (by omega),
    toChar_natCast b (by omega), toChar_natCast l' (by omega)] at hhead
  rw [hspec] at hk
  subst hMd
  refine ⟨p, K, b, l', hp, hlen, hs.upto, hs.bits, hl, hKM, hhead, hk.2.2, ?_⟩
  have hsz := hk.size
  have hsize : key.size = key.data.length := rfl
  rw [hsize]
  unfold padLen at hsz
  omega

/-- C7. Key layout: on every non-empty buffer `B` of bytes below `0x80` `GenerateKey`
completes, and whenever it completes with a positive target fraction the key starts with
the four bytes `M, K, bitsShort, bitsLong` (`M` the number of distinct byte values of
`B`), its bits are exactly the layout the specification words (`K` short entries, then
`M - K` long entries with the all-ones prefix) followed by zero bits up to the byte
boundary, and it has no further bytes. -/
theorem key_layout (A : Arith) (tf : A.F) (B : List Nat) (hB : ∀ x ∈ B, x < 256)
    (htf : A.lt A.zero tf = true) (ks : ByteStream) :
    (B ≠ [] → (∀ x ∈ B, x < 128) → ∃ key, GenerateKey A tf (loaded B) ks = some key) ∧
    ∀ key, GenerateKey A tf (loaded B) ks = some key →
      ∃ (p : Plan) (K b l : Nat), planKey A tf (loaded B) = some p ∧
        p.ordering.length = B.dedup.length ∧
        p.unique_upto_target_fraction = (K : Int) ∧ p.bits_per_target_character = (b : Int) ∧
        p.bits_per_remaining_characters = (l : Int) ∧ K ≤ B.dedup.length ∧
        key.data.take 4 = [B.dedup.length, K, b, l] ∧
        allBits key.data = specKeyBits p.ordering B.dedup.length K b l
          ++ List.replicate (padLen (specKeyBits p.ordering B.dedup.length K b l).length) false ∧
        key.size = ((specKeyBits p.ordering B.dedup.length K b l).length + 7) / 8 :=
  ⟨fun hne h7 => GenerateKey_total A tf B hne h7 ks,
   fun key h => key_layout_aux A tf B hB htf ks key h⟩

/-- C7, concrete instance with a long tier: the key of `sampleLong` with target `0.5` in
double arithmetic has the header `6, 3, 2, 4`, three short entries of 10 bits and three
long entries of 12 bits. -/
theorem key_layout_witness :
    GenerateKey doubleArith half (loaded sampleLong) ByteStream.new = some sampleLongKey ∧
    ∃ (p : Plan) (K b l : Nat), planKey doubleArith half (loaded sampleLong) = some p ∧
      p.ordering.length = sampleLong.dedup.length ∧
      p.unique_upto_target_fraction = (K : Int) ∧ p.bits_per_target_character = (b : Int) ∧
      p.bits_per_remaining_characters = (l : Int) ∧ K ≤ sampleLong.dedup.length ∧
      sampleLongKey.data.take 4 = [sampleLong.dedup.length, K, b, l] ∧
      allBits sampleLongKey.data = specKeyBits p.ordering sampleLong.dedup.length K b l
        ++ List.replicate
          (padLen (specKeyBits p.ordering sampleLong.dedup.length K b l).length) false ∧
      sampleLongKey.size
        = ((specKeyBits p.ordering sampleLong.dedup.length K b l).length + 7) / 8 ∧
      sampleLong.dedup.length = 6 ∧ K = 3 ∧ b = 2 ∧ l = 4 := by
  obtain ⟨p, K, b, l, h1, h2, h3, h4, h5, h6, h7, h8, h9⟩ :=
    (key_layout doubleArith half sampleLong (by decide) (by decide) ByteStream.new).2
      sampleLongKey sampleLong_key_double
  have hv := header_values sampleLongKey.data _ _ _ _ 6 3 2 4 h7 (by decide)
  exact ⟨sampleLong_key_double, p, K, b, l, h1, h2, h3, h4, h5, h6, h7, h8, h9, hv⟩

/-- The header of a key written by `GenerateKey` with a positive target fraction:
`bitsShort >= 2`, and `bitsLong = 0` exactly when there is no long tier. -/
theorem minimum_code_width_aux (A : Arith) (tf : A.F) (B : List Nat) (hB : ∀ x ∈ B, x < 256)
    (htf : A.lt A.zero tf = true) (ks key : ByteStream)
    (h : GenerateKey A tf (loaded B) ks = some key) :
    ∃ (p : Plan) (K b l : Nat), planKey A tf (loaded B) = some p ∧
      key.data.take 4 = [B.dedup.length, K, b, l] ∧ 2 ≤ b ∧
      (l = 0 ↔ K = B.dedup.length) ∧ (l = 0 ↔ longTier p = []) ∧
      (shortTier p).length = K := by
  obtain ⟨p, M, K, b, l, hp, hs, hl, hMd, hb2, -, hhead⟩ :=
    build_header A tf B hB htf ks key h
  have hord := hs.len
  have hKM : K ≤ M := by
    rcases hs.tiers with ⟨h1, -⟩ | ⟨h1, -⟩ <;> omega
  have hcnt : ((M : Int) - (K : Int)).toNat = M - K := by omega
  have hlongLen : (longTier p).length = M - K := by
    have := congrArg List.length (longEntries_map_fst K b l (M - K) 0 (p.ordering.drop K))
    simp only [List.length_map, List.length_take, List.length_drop, hord] at this
    simp only [longTier, hs.upto, hs.bits, hs.unique, hl, Int.toNat_ofNat, hcnt]
    omega
  have hshortLen : (shortTier p).length = K := by
    have := congrArg List.length (shortEntries_map_fst b K 0 p.ordering)
    simp only [List.length_map, List.length_take, hord] at this
    simp only [shortTier, hs.upto, hs.bits, Int.toNat_ofNat]
    omega
  have hiff : l = 0 ↔ K = M := by
    rcases hs.tiers with ⟨h1, -, h3⟩ | ⟨h1, -, h3⟩
    · rw [hl] at h3
      constructor
      · intro _; exact h1
      · intro _; exact_mod_cast h3
    · rw [hl] at h3
      have hc := ceilLog2_pos (M - K) (by omega)
      constructor
      · intro h0; omega
      · intro h0; omega
  refine ⟨p, K, b, l, hp, by rw [← hMd]; exact hhead, hb2, by rw [← hMd]; exact hiff, ?_,
    hshortLen⟩
  rw [hiff, ← List.length_eq_zero, hlongLen]
  omega

/-- C13. Minimum code width: on every non-empty buffer `B` of bytes below `0x80`
`GenerateKey` completes, and whenever it completes with a positive target fraction the
header `M, K, bitsShort, bitsLong` of the key has `bitsShort >= 2`, and `bitsLong = 0`
exactly when `K = M`, that is when the long tier is empty. -/
theorem minimum_code_width (A : Arith) (tf : A.F) (B : List Nat) (hB : ∀ x ∈ B, x < 256)
    (htf : A.lt A.zero tf = true) (ks : ByteStream) :
    (B ≠ [] → (∀ x ∈ B, x < 128) → ∃ key, GenerateKey A tf (loaded B) ks = some key) ∧
    ∀ key, GenerateKey A tf (loaded B) ks = some key →
      ∃ (p : Plan) (K b l : Nat), planKey A tf (loaded B) = some p ∧
        key.data.take 4 = [B.dedup.length, K, b, l] ∧ 2 ≤ b ∧
        (l = 0 ↔ K = B.dedup.length) ∧ (l = 0 ↔ longTier p = []) ∧
        (shortTier p).length = K :=
  ⟨fun hne h7 => GenerateKey_total A tf B hne h7 ks,
   fun key h => minimum_code_width_aux A tf B hB htf ks key h⟩

/-- C13, concrete instances in double arithmetic with target `0.5`: `sampleLong` has a
long tier (`M = 6, K = 3, bitsShort = 2, bitsLong = 4`); `[0x41, 0x41, 0x42, 0x43]` has
none (`M = 3, K = 3, bitsShort = 2, bitsLong = 0`). -/
theorem minimum_code_width_witness :
    (GenerateKey doubleArith half (loaded sampleLong) ByteStream.new = some sampleLongKey ∧
     ∃ (p : Plan) (K b l : Nat), planKey doubleArith half (loaded sampleLong) = some p ∧
      sampleLongKey.data.take 4 = [sampleLong.dedup.length, K, b, l] ∧ 2 ≤ b ∧
      (l = 0 ↔ K = sampleLong.dedup.length) ∧ (l = 0 ↔ longTier p = []) ∧
      (shortTier p).length = K ∧
      sampleLong.dedup.length = 6 ∧ K = 3 ∧ b = 2 ∧ l = 4) ∧
    (GenerateKey doubleArith half (loaded scenario) ByteStream.new = some scenarioKey ∧
     ∃ (p : Plan) (K b l : Nat), planKey doubleArith half (loaded scenario) = some p ∧
      scenarioKey.data.take 4 = [scenario.dedup.length, K, b, l] ∧ 2 ≤ b ∧
      (l = 0 ↔ K = scenario.dedup.length) ∧ (l = 0 ↔ longTier p = []) ∧
      (shortTier p).length = K ∧
      scenario.dedup.length = 3 ∧ K = 3 ∧ b = 2 ∧ l = 0) := by
  obtain ⟨p, K, b, l, h1, h2, h3, h4, h5, h6⟩ :=
    (minimum_code_width doubleArith half sampleLong (by decide) (by decide)
      ByteStream.new).2 sampleLongKey sampleLong_key_double
  obtain ⟨p', K', b', l', g1, g2, g3, g4, g5, g6⟩ :=
    (minimum_code_width doubleArith half scenario (by decide) (by decide)
      ByteStream.new).2 scenarioKey scenario_key_double
  have hv := header_values sampleLongKey.data _ _ _ _ 6 3 2 4 h2 (by decide)
  have gv := header_values scenarioKey.data _ _ _ _ 3 3 2 0 g2 (by decide)
  exact ⟨⟨sampleLong_key_double, p, K, b, l, h1, h2, h3, h4, h5, h6, hv⟩,
    ⟨scenario_key_double, p', K', b', l', g1, g2, g3, g4, g5, g6, gv⟩⟩

/-- The tier sizes in the header of a key written by `GenerateKey` with a positive
target fraction. -/
theorem tier_sizes_aux (A : Arith) (tf : A.F) (B : List Nat) (hB : ∀ x ∈ B, x < 256)
    (htf : A.lt A.zero tf = true) (ks key : ByteStream)
    (h : GenerateKey A tf (loaded B) ks = some key) :
    ∃ (p : Plan) (K b l : Nat), planKey A tf (loaded B) = some p ∧
      key.data.take 4 = [B.dedup.length, K, b, l] ∧
      (B.dedup.length ≤ 2 ^ b → K = B.dedup.length) ∧
      (2 ^ b < B.dedup.length → K = 2 ^ b - 1) ∧
      K ≤ B.dedup.length ∧ (longTier p).length = B.dedup.length - K ∧
      B.dedup.length - K ≠ 1 ∧
      (0 < B.dedup.length - K → l = b + Nat.clog 2 (B.dedup.length - K)) ∧
      (B.dedup.length - K = 0 → l = 0) := by
  obtain ⟨p, M, K, b, l, hp, hs, hl, hMd, hb2, -, hhead⟩ :=
    build_header A tf B hB htf ks key h
  have hcnt : ((M : Int) - (K : Int)).toNat = M - K := by omega
  have hlongLen : (longTier p).length = M - K := by
    have := congrArg List.length (longEntries_map_fst K b l (M - K) 0 (p.ordering.drop K))
    simp only [List.length_map, List.length_take, List.length_drop, hs.len] at this
    simp only [longTier, hs.upto, hs.bits, hs.unique, hl, Int.toNat_ofNat, hcnt]
    omega
  have hpos : 0 < 2 ^ b := Nat.two_pow_pos b
  rw [← hMd]
  refine ⟨p, K, b, l, hp, hhead, ?_, ?_, ?_, hlongLen, ?_, ?_, ?_⟩
  · intro hle
    rcases hs.tiers with ⟨h1, -, -⟩ | ⟨h1, h2, -⟩ <;> omega
  · intro hlt
    rcases hs.tiers with ⟨h1, h2, -⟩ | ⟨h1, h2, -⟩ <;> omega
  · rcases hs.tiers with ⟨h1, -, -⟩ | ⟨h1, -, -⟩ <;> omega
  · rcases hs.tiers with ⟨h1, -, -⟩ | ⟨h1, -, -⟩ <;> omega
  · intro hR
    rcases hs.tiers with ⟨h1, -, -⟩ | ⟨-, -, h3⟩
    · omega
    · rw [hl, ceilLog2_eq_clog] at h3
      exact_mod_cast h3
  · intro hR
    rcases hs.tiers with ⟨-, -, h3⟩ | ⟨h1, -, -⟩
    · rw [hl] at h3
      exact_mod_cast h3
    · omega

/-- C22. Tier sizes after padding and folding: on every non-empty buffer `B` of bytes
below `0x80` `GenerateKey` completes, and whenever it completes with a positive target
fraction on a buffer with `M` distinct byte values the count `K` in the key header is
`M` when `M <= 2 ^ bitsShort` and `2 ^ bitsShort - 1` otherwise; the long tier has
`R = M - K` entries and `R` is never 1; `bitsLong` is `bitsShort + ceil(log2(R))` when
`R > 0` and 0 otherwise. -/
theorem tier_sizes (A : Arith) (tf : A.F) (B : List Nat) (hB : ∀ x ∈ B, x < 256)
    (htf : A.lt A.zero tf = true) (ks : ByteStream) :
    (B ≠ [] → (∀ x ∈ B, x < 128) → ∃ key, GenerateKey A tf (loaded B) ks = some key) ∧
    ∀ key, GenerateKey A tf (loaded B) ks = some key →
      ∃ (p : Plan) (K b l : Nat), planKey A tf (loaded B) = some p ∧
        key.data.take 4 = [B.dedup.length, K, b, l] ∧
        (B.dedup.length ≤ 2 ^ b → K = B.dedup.length) ∧
        (2 ^ b < B.dedup.length → K = 2 ^ b - 1) ∧
        K ≤ B.dedup.length ∧ (longTier p).length = B.dedup.length - K ∧
        B.dedup.length - K ≠ 1 ∧
        (0 < B.dedup.length - K → l = b + Nat.clog 2 (B.dedup.length - K)) ∧
        (B.dedup.length - K = 0 → l = 0) :=
  ⟨fun hne h7 => GenerateKey_total A tf B hne h7 ks,
   fun key h => tier_sizes_aux A tf B hB htf ks key h⟩

/-- C22, concrete instances in double arithmetic with target `0.5`:
`[0x41, 0x42, 0x43, 0x44]` needs the fold of the single leftover byte
(`M = 4 = 2 ^ bitsShort`, `K = 4`, `bitsLong = 0`); `sampleLong` has a long tier
(`M = 6`, `K = 3`, `bitsLong = 4`); `[0x41, 0x41, 0x42, 0x43]` gives
`M = 3, K = 3, bitsLong = 0`. -/
theorem tier_sizes_witness :
    (GenerateKey doubleArith half (loaded [0x41, 0x42, 0x43, 0x44]) ByteStream.new
        = some foldedKey ∧
      [0x41, 0x42, 0x43, 0x44].dedup.length = 4 ∧
      ∃ (p : Plan), planKey doubleArith half (loaded [0x41, 0x42, 0x43, 0x44]) = some p ∧
        foldedKey.data.take 4 = [4, 4, 2, 0] ∧ (longTier p).length = 0) ∧
    (GenerateKey doubleArith half (loaded sampleLong) ByteStream.new = some sampleLongKey ∧
      sampleLong.dedup.length = 6 ∧
      ∃ (p : Plan), planKey doubleArith half (loaded sampleLong) = some p ∧
        sampleLongKey.data.take 4 = [6, 3, 2, 4] ∧ (longTier p).length = 3 ∧
        4 = 2 + Nat.clog 2 (6 - 3)) ∧
    (GenerateKey doubleArith half (loaded scenario) ByteStream.new = some scenarioKey ∧
      scenario.dedup.length = 3 ∧
      ∃ (p : Plan), planKey doubleArith half (loaded scenario) = some p ∧
        scenarioKey.data.take 4 = [3, 3, 2, 0] ∧ (longTier p).length = 0) := by
  obtain ⟨p, K, b, l, h1, h2, -, -, -, h6, -, -, -⟩ :=
    (tier_sizes doubleArith half [0x41, 0x42, 0x43, 0x44] (by decide) (by decide)
      ByteStream.new).2 foldedKey folded_key_double
  obtain ⟨p', K', b', l', g1, g2, -, -, -, g6, -, g8, -⟩ :=
    (tier_sizes doubleArith half sampleLong (by decide) (by decide)
      ByteStream.new).2 sampleLongKey sampleLong_key_double
  obtain ⟨p'', K'', b'', l'', f1, f2, -, -, -, f6, -, -, -⟩ :=
    (tier_sizes doubleArith half scenario (by decide) (by decide)
      ByteStream.new).2 scenarioKey scenario_key_double
  obtain ⟨hM, hK, hb, hl⟩ := header_values foldedKey.data _ _ _ _ 4 4 2 0 h2 (by decide)
  obtain ⟨gM, gK, gb, gl⟩ := header_values sampleLongKey.data _ _ _ _ 6 3 2 4 g2 (by decide)
  obtain ⟨fM, fK, fb, fl⟩ := header_values scenarioKey.data _ _ _ _ 3 3 2 0 f2 (by decide)
  rw [hM, hK] at h6
  rw [gM, gK] at g6 g8
  rw [gb, gl] at g8
  rw [fM, fK] at f6
  exact ⟨⟨folded_key_double, hM, p, h1, by decide, h6⟩,
    ⟨sampleLong_key_double, gM, p', g1, by decide, g6, g8 (by decide)⟩,
    ⟨scenario_key_double, fM, p'', f1, by decide, f6⟩⟩

/-- The escape pattern with too few bits behind it for a long codeword makes the loop of
`Decode` stop. -/
theorem decodeStep_escape_stop (s : ByteStream) (hs : ∀ x ∈ s.data, x < 256) (b l : Nat)
    (hb1 : 1 ≤ b) (hb8 : b ≤ 8) (hbl : b < l) (pre post : List Bool)
    (hpost : post.length ≤ l - b)
    (hbits : allBits s.data = pre ++ bitsOf b (2 ^ b - 1) ++ post) :
    decodeStep s (b : Int) (l : Int) ((2 : Int) ^ b - 1) ((l : Int) - (b : Int))
        (pre.length : Int) = some Step.stop := by
  have hlen := congrArg List.length hbits
  rw [allBits_length] at hlen
  simp only [List.length_append, bitsOf_length] at hlen
  have hr1 := read_bits s hs pre (bitsOf b (2 ^ b - 1)) _ hbits
    (by rw [bitsOf_length]; exact hb1) (by rw [bitsOf_length]; exact hb8)
  have hpos : 0 < 2 ^ b := by positivity
  rw [bitsOf_length, natOfBits_bitsOf, Nat.mod_eq_of_lt (by omega)] at hr1
  have h28 : 2 ^ b ≤ 256 :=
    calc 2 ^ b ≤ 2 ^ 8 := Nat.pow_le_pow_right (by norm_num) hb8
      _ = 256 := rfl
  have hl0 : (l : Int) ≠ 0 := by omega
  have hguard : (pre.length : Int) + (b : Int) + ((l : Int) - (b : Int))
      ≥ (s.size : Int) * 8 := by
    unfold ByteStream.size; omega
  simp only [decodeStep, toUShort_natCast b (by omega), hr1, Option.bind_eq_bind,
    Option.some_bind, and_ff_of_lt (2 ^ b - 1) (by omega), toUInt_escape b hb8, hl0,
    ne_eq, not_false_eq_true, and_self, if_true, hguard, Option.pure_def]

theorem decodedByte_eq (decoder : decoding_map) (g : Nat × Nat) :
    ((decoder g).getD 0) % 256 = decodedByte decoder g := by
  unfold decodedByte
  cases decoder g <;> rfl

theorem decodedByte_lt (decoder : decoding_map) (g : Nat × Nat) :
    decodedByte decoder g < 256 := by
  rw [← decodedByte_eq]
  exact Nat.mod_lt _ (by norm_num)

theorem with_data_append_nil (out : ByteStream) :
    ({ out with data := out.data ++ [] } : ByteStream) = out := by
  cases out
  simp

/-- The loop of `Decode` emits one byte for every codeword pair it reads: the byte of
the entry of the pair in the inverse map, or `0x00` when the pair has no entry, and goes
on with the next pair. -/
theorem decodeLoop_groups (s : ByteStream) (hs : ∀ x ∈ s.data, x < 256)
    (decoder : decoding_map) (b l : Nat) (hb1 : 1 ≤ b) (hb8 : b ≤ 8)
    (hlong : l = 0 ∨ (b < l ∧ l ≤ b + 8)) :
    ∀ (n : Nat) (rest pre : List Bool) (out : ByteStream) (fuelD fuelG : Nat),
      rest.length ≤ n → allBits s.data = pre ++ rest → out.nextBit = 0 →
      rest.length < fuelD → rest.length ≤ fuelG →
      decodeLoop s decoder (b : Int) (l : Int) ((2 : Int) ^ b - 1) ((l : Int) - (b : Int))
          fuelD (pre.length : Int) out
        = some { out with
            data := out.data ++ (readGroups b l fuelG rest).map (decodedByte decoder) } := by
  intro n
  induction n with
  | zero =>
    intro rest pre out fuelD fuelG hn hbits hout hfD hfG
    have hr : rest = [] := List.length_eq_zero.1 (by omega)
    subst hr
    obtain ⟨fd, rfl⟩ : ∃ fd, fuelD = fd + 1 := ⟨fuelD - 1, by simp at hfD; omega⟩
    have hlen := congrArg List.length hbits
    rw [allBits_length] at hlen
    simp only [List.length_append, List.length_nil] at hlen
    have hguard : ¬ ((pre.length : Int) + (b : Int) < (s.size : Int) * 8) := by
      unfold ByteStream.size; omega
    rw [decodeLoop_succ, if_neg hguard]
    have hg : readGroups b l fuelG [] = [] := by
      cases fuelG with
      | zero => rfl
      | succ g => simp [readGroups]
    rw [hg, List.map_nil, with_data_append_nil]
  | succ n ih =>
    intro rest pre out fuelD fuelG hn hbits hout hfD hfG
    obtain ⟨fd, rfl⟩ : ∃ fd, fuelD = fd + 1 := ⟨fuelD - 1, by omega⟩
    have hlen := congrArg List.length hbits
    rw [allBits_length] at hlen
    simp only [List.length_append] at hlen
    by_cases hbR : b < rest.length
    · obtain ⟨fg, rfl⟩ : ∃ fg, fuelG = fg + 1 := ⟨fuelG - 1, by omega⟩
      have hguard : (pre.length : Int) + (b : Int) < (s.size : Int) * 8 := by
        unfold ByteStream.size; omega
      have hmidlen : (rest.take b).length = b := by
        rw [List.length_take]; omega
      have hcwlt : natOfBits (rest.take b) < 2 ^ b := by
        have := natOfBits_lt (rest.take b)
        rw [hmidlen] at this
        exact this
      have hmid : bitsOf b (natOfBits (rest.take b)) = rest.take b := by
        have := bitsOf_natOfBits (rest.take b)
        rw [hmidlen] at this
        exact this
      have h28 : 2 ^ b ≤ 256 :=
        calc 2 ^ b ≤ 2 ^ 8 := Nat.pow_le_pow_right (by norm_num) hb8
          _ = 256 := rfl
      rw [decodeLoop_succ, if_pos hguard]
      by_cases hesc : natOfBits (rest.take b) = 2 ^ b - 1 ∧ l ≠ 0
      · obtain ⟨hcw, hl0⟩ := hesc
        have hbl : b < l ∧ l ≤ b + 8 := by
          rcases hlong with h | h
          · exact absurd h hl0
          · exact h
        by_cases hlR : l < rest.length
        · have hlonglen : (rest.take l).length = l := by
            rw [List.length_take]; omega
          have htake : rest.take l = rest.take b ++ (rest.drop b).take (l - b) := by
            have : l = b + (l - b) := by omega
            conv_lhs => rw [this]
            exact List.take_add rest b (l - b)
          have hjlen : ((rest.drop b).take (l - b)).length = l - b := by
            rw [List.length_take, List.length_drop]; omega
          have hj : natOfBits ((rest.drop b).take (l - b)) < 2 ^ (l - b) := by
            have := natOfBits_lt ((rest.drop b).take (l - b))
            rw [hjlen] at this
            exact this
          have hval : natOfBits (rest.take l)
              = (2 ^ b - 1) * 2 ^ (l - b) + natOfBits ((rest.drop b).take (l - b)) := by
            rw [htake, natOfBits_append, hjlen, hcw]
          have hlong' : bitsOf l ((2 ^ b - 1) * 2 ^ (l - b)
              + natOfBits ((rest.drop b).take (l - b))) = rest.take l := by
            rw [← hval]
            have := bitsOf_natOfBits (rest.take l)
            rw [hlonglen] at this
            exact this
          have hpost : rest.drop l ≠ [] := by
            intro h0
            have := congrArg List.length h0
            rw [List.length_drop, List.length_nil] at this
            omega
          have hbits' : allBits s.data = pre ++ bitsOf l ((2 ^ b - 1) * 2 ^ (l - b)
              + natOfBits ((rest.drop b).take (l - b))) ++ rest.drop l := by
            rw [hlong', List.append_assoc, List.take_append_drop]
            exact hbits
          rw [decodeStep_long s hs b l _ hb1 hb8 hbl.1 hbl.2 hj pre (rest.drop l) hpost hbits']
          simp only [Option.some_bind]
          rw [toUInt_natCast l (by omega), Nat.mod_eq_of_lt (show l < 65536 by omega),
            decodedByte_eq, put8 out _ hout (decodedByte_lt _ _)]
          simp only [Option.some_bind]
          have hbits2 : allBits s.data = (pre ++ rest.take l) ++ rest.drop l := by
            rw [List.append_assoc, List.take_append_drop]; exact hbits
          have hoff : (((pre ++ rest.take l).length : Nat) : Int)
              = (pre.length : Int) + (l : Int) := by
            rw [List.length_append, hlonglen]; push_cast; rfl
          have := ih (rest.drop l) (pre ++ rest.take l)
            { out with data := out.data ++ [decodedByte decoder
              ((2 ^ b - 1) * 2 ^ (l - b) + natOfBits ((rest.drop b).take (l - b)), l)] }
            fd fg (by rw [List.length_drop]; omega) hbits2 hout
            (by rw [List.length_drop]; omega) (by rw [List.length_drop]; omega)
          rw [hoff] at this
          rw [this]
          simp only [readGroups, if_pos hbR, hcw, hl0, ne_eq, not_false_eq_true, and_self,
            if_true, if_pos hlR, List.map_cons, List.append_assoc, List.singleton_append, hval]
        · have hbits' : allBits s.data = pre ++ bitsOf b (2 ^ b - 1) ++ rest.drop b := by
            rw [← hcw, hmid, List.append_assoc, List.take_append_drop]
            exact hbits
          rw [decodeStep_escape_stop s hs b l hb1 hb8 hbl.1 pre (rest.drop b)
            (by rw [List.length_drop]; omega) hbits']
          simp only [Option.some_bind]
          simp only [readGroups, if_pos hbR, hcw, hl0, ne_eq, not_false_eq_true, and_self,
            if_true, if_neg hlR, List.map_nil, with_data_append_nil]
      · have hesc' : l = 0 ∨ natOfBits (rest.take b) ≠ 2 ^ b - 1 := by
          by_cases h0 : l = 0
          · exact Or.inl h0
          · exact Or.inr (fun h => hesc ⟨h, h0⟩)
        have hpost : rest.drop b ≠ [] := by
          intro h0
          have := congrArg List.length h0
          rw [List.length_drop, List.length_nil] at this
          omega
        have hbits' : allBits s.data
            = pre ++ bitsOf b (natOfBits (rest.take b)) ++ rest.drop b := by
          rw [hmid, List.append_assoc, List.take_append_drop]
          exact hbits
        rw [decodeStep_short s hs b l _ hb1 hb8 hcwlt hesc' pre (rest.drop b) hbits']
        simp only [Option.some_bind]
        rw [toUInt_natCast b (by omega), Nat.mod_eq_of_lt (show b < 65536 by omega),
          decodedByte_eq, put8 out _ hout (decodedByte_lt _ _)]
        simp only [Option.some_bind]
        have hbits2 : allBits s.data = (pre ++ rest.take b) ++ rest.drop b := by
          rw [List.append_assoc, List.take_append_drop]; exact hbits
        have hoff : (((pre ++ rest.take b).length : Nat) : Int)
            = (pre.length : Int) + (b : Int) := by
          rw [List.length_append, hmidlen]; push_cast; rfl
        have := ih (rest.drop b) (pre ++ rest.take b)
          { out with data := out.data ++ [decodedByte decoder (natOfBits (rest.take b), b)] }
          fd fg (by rw [List.length_drop]; omega) hbits2 hout
          (by rw [List.length_drop]; omega) (by rw [List.length_drop]; omega)
        rw [hoff] at this
        rw [this]
        simp only [readGroups, if_pos hbR, hesc, if_false, List.map_cons, List.append_assoc,
          List.singleton_append]
    · have hguard : ¬ ((pre.length : Int) + (b : Int) < (s.size : Int) * 8) := by
        unfold ByteStream.size; omega
      rw [decodeLoop_succ, if_neg hguard]
      have hg : readGroups b l fuelG rest = [] := by
        cases fuelG with
        | zero => rfl
        | succ g => simp [readGroups, hbR]
      rw [hg, List.map_nil, with_data_append_nil]

/-- The output of `Decode` under an accepted key with valid widths: one byte per codeword
pair read from the input, in order. -/
theorem decode_groups (fuel : Nat) (inStream outStream keyStream : ByteStream) (kd : KeyData)
    (b l : Nat) (hin : ∀ x ∈ inStream.data, x < 256)
    (hkey : ReadMapFromKeyStream keyStream = some (some kd))
    (hb : kd.bits_short = (b : Int)) (hl : kd.bits_long = (l : Int))
    (hb1 : 1 ≤ b) (hb8 : b ≤ 8) (hlong : l = 0 ∨ (b < l ∧ l ≤ b + 8))
    (hfuel : 8 * inStream.size < fuel) :
    ∃ out, Decode fuel inStream outStream keyStream = some (true, out) ∧
      out.data = (readGroups b l (8 * inStream.size) (allBits inStream.data)).map
        (decodedByte (GetDecodingMap kd.map)) := by
  have hsz : inStream.size = inStream.data.length := rfl
  have hloop := decodeLoop_groups inStream hin (GetDecodingMap kd.map) b l hb1 hb8 hlong
    (8 * inStream.size) (allBits inStream.data) [] outStream.clear fuel (8 * inStream.size)
    (by rw [allBits_length, hsz]) (by simp) rfl
    (by rw [allBits_length, ← hsz]; exact hfuel) (by rw [allBits_length, hsz])
  have h0 : ((([] : List Bool).length : Nat) : Int) = 0 := rfl
  rw [h0] at hloop
  refine ⟨({ outStream.clear with
      data := outStream.clear.data ++ (readGroups b l (8 * inStream.size)
        (allBits inStream.data)).map (decodedByte (GetDecodingMap kd.map)) }
      : ByteStream).bytes_changed true, ?_, ?_⟩
  · unfold Decode
    simp only [hkey, hb, hl, extendedKey_small b hb8, Option.bind_eq_bind, Option.some_bind]
    rw [hloop]
    rfl
  · rw [bytes_changed_data]
    show ([] : List Nat) ++ _ = _
    rw [List.nil_append]

/-- C10 (amended). Unknown codeword: `Decode` has no failure for a codeword without
entry.  For every input buffer and every key that the parser accepts with
`1 <= bitsShort <= 8` and `bitsLong = 0` or `bitsShort < bitsLong <= bitsShort + 8`,
`Decode` with enough loop fuel returns success, and its output has exactly one byte for
every codeword pair read from the input, in order: the byte of the entry whose pair it
is, and `0x00` for a pair without entry in the inverse map, after which decoding goes on
with the next pair.  So every byte of the output is the byte of an entry of the parsed
map or `0x00`. -/
theorem decode_unknown_codeword_default (fuel : Nat)
    (inStream outStream keyStream : ByteStream) (kd : KeyData) (b l : Nat)
    (hin : ∀ x ∈ inStream.data, x < 256)
    (hkey : ReadMapFromKeyStream keyStream = some (some kd))
    (hb : kd.bits_short = (b : Int)) (hl : kd.bits_long = (l : Int))
    (hb1 : 1 ≤ b) (hb8 : b ≤ 8) (hlong : l = 0 ∨ (b < l ∧ l ≤ b + 8))
    (hfuel : 8 * inStream.size < fuel) :
    ∃ out, Decode fuel inStream outStream keyStream = some (true, out) ∧
      out.data = (readGroups b l (8 * inStream.size) (allBits inStream.data)).map
        (decodedByte (GetDecodingMap kd.map)) ∧
      (∀ g, (∃ k, k < 256 ∧ kd.map k = some g ∧ decodedByte (GetDecodingMap kd.map) g = k) ∨
        (GetDecodingMap kd.map g = none ∧ decodedByte (GetDecodingMap kd.map) g = 0)) ∧
      ∀ x ∈ out.data, (∃ k pr, k < 256 ∧ kd.map k = some pr ∧ x = k) ∨ x = 0 := by
  obtain ⟨out, hout, hdata⟩ := decode_groups fuel inStream outStream keyStream kd b l hin hkey
    hb hl hb1 hb8 hlong hfuel
  have hcases : ∀ g, (∃ k, k < 256 ∧ kd.map k = some g
        ∧ decodedByte (GetDecodingMap kd.map) g = k) ∨
      (GetDecodingMap kd.map g = none ∧ decodedByte (GetDecodingMap kd.map) g = 0) := by
    intro g
    rw [← decodedByte_eq]
    exact decoded_byte_cases kd.map g
  refine ⟨out, hout, hdata, hcases, ?_⟩
  intro x hx
  rw [hdata, List.mem_map] at hx
  obtain ⟨g, -, hg⟩ := hx
  rcases hcases g with ⟨k, hk, hm, hd⟩ | ⟨-, hd⟩
  · exact Or.inl ⟨k, g, hk, hm, by rw [← hg, hd]⟩
  · exact Or.inr (by rw [← hg, hd])

/-- The byte `0xFF` under the widths 2 and 0: three pairs (3, 2); the fourth group
ends at the last bit and is not read. -/
theorem groups_of_ones :
    readGroups 2 0 (8 * (loaded [0xFF]).size) (allBits (loaded [0xFF]).data)
      = [(3, 2), (3, 2), (3, 2)] := by
  rfl

/-- C10, concrete instance: the key of `[0x41, 0x41, 0x42, 0x43]` and the input
`[0xFF]`, read as three pairs (3, 2) without entry: the output is `[0, 0, 0]`. -/
theorem decode_unknown_codeword_default_witness :
    ∃ kd, ReadMapFromKeyStream scenarioKey = some (some kd) ∧
      GetDecodingMap kd.map (3, 2) = none ∧
      readGroups 2 0 (8 * (loaded [0xFF]).size) (allBits (loaded [0xFF]).data)
        = [(3, 2), (3, 2), (3, 2)] ∧
      ∃ out, Decode 100 (loaded [0xFF]) ByteStream.new scenarioKey = some (true, out) ∧
        out.data = (readGroups 2 0 (8 * (loaded [0xFF]).size)
          (allBits (loaded [0xFF]).data)).map (decodedByte (GetDecodingMap kd.map)) ∧
        (∀ g, (∃ k, k < 256 ∧ kd.map k = some g
            ∧ decodedByte (GetDecodingMap kd.map) g = k) ∨
          (GetDecodingMap kd.map g = none ∧ decodedByte (GetDecodingMap kd.map) g = 0)) ∧
        (∀ x ∈ out.data, (∃ k pr, k < 256 ∧ kd.map k = some pr ∧ x = k) ∨ x = 0) ∧
        out.data = [0, 0, 0] := by
  have hsome : ((ReadMapFromKeyStream scenarioKey).join).isSome = true := by decide!
  obtain ⟨kd, hkd⟩ := Option.isSome_iff_exists.1 hsome
  have hkey : ReadMapFromKeyStream scenarioKey = some (some kd) := by
    cases h : ReadMapFromKeyStream scenarioKey with
    | none => rw [h] at hkd; cases hkd
    | some r =>
      cases r with
      | none => rw [h] at hkd; cases hkd
      | some kd' => rw [h] at hkd; cases hkd; rfl
  have hw : (((ReadMapFromKeyStream scenarioKey).join).map
      (fun k => (k.bits_short, k.bits_long, GetDecodingMap k.map (3, 2))))
      = some (2, 0, none) := by decide!
  rw [hkd] at hw
  have hw2 := Option.some.inj hw
  have hnone : GetDecodingMap kd.map (3, 2) = none := (Prod.mk.inj (Prod.mk.inj hw2).2).2
  have hgroups := groups_of_ones
  obtain ⟨out, h1, h2, h3, h4⟩ := decode_unknown_codeword_default 100 (loaded [0xFF])
    ByteStream.new scenarioKey kd 2 0 (by decide) hkey (Prod.mk.inj hw2).1
    (Prod.mk.inj (Prod.mk.inj hw2).2).1 (by decide) (by decide) (Or.inl rfl) (by decide)
  have hzero : decodedByte (GetDecodingMap kd.map) (3, 2) = 0 := by
    unfold decodedByte
    rw [hnone]
  refine ⟨kd, hkey, hnone, hgroups, out, h1, h2, h3, h4, ?_⟩
  rw [h2, hgroups]
  simp only [List.map_cons, List.map_nil, hzero]

/-- The walk to the target fraction in any arithmetic: it consumes bytes as long as the
running sum is below the target, and the running sum is the left-to-right sum of the
quotients `count / size`. -/
theorem walkTarget_general (A : Arith) (B : List Nat) (hB : ∀ x ∈ B, x < 256) (tf : A.F) :
    ∀ (l : List Nat) (acc : A.F) (cnt : Nat) (it : List Nat) (acc' : A.F) (cnt' : Nat),
      (∀ c ∈ l, c < 256) →
      walkTarget A (loaded B) tf l acc cnt = some (it, acc', cnt') →
      ∃ walked, l = walked ++ it ∧ cnt' = cnt + walked.length ∧
        (∀ k, k < walked.length →
          A.lt ((walked.take k).foldl
            (fun a c => A.add a (A.quot (B.count c) B.length)) acc) tf = true) ∧
        (it ≠ [] → A.lt (walked.foldl
            (fun a c => A.add a (A.quot (B.count c) B.length)) acc) tf = false) := by
  intro l
  induction l with
  | nil =>
    intro acc cnt it acc' cnt' _ h
    simp only [walkTarget, Option.some.injEq, Prod.mk.injEq] at h
    obtain ⟨h1, -, h3⟩ := h
    refine ⟨[], by rw [← h1]; rfl, by rw [← h3]; rfl, ?_, ?_⟩
    · intro k hk; simp at hk
    · intro hne; exact absurd h1.symm hne
  | cons c rest ih =>
    intro acc cnt it acc' cnt' hl h
    have hc := hl c (List.mem_cons_self _ _)
    simp only [walkTarget] at h
    by_cases hlt : A.lt acc tf = true
    · rw [if_pos hlt] at h
      simp only [Option.bind_eq_bind] at h
      cases hp : (loaded B).byte_probability (charToInt c) with
      | none => simp [hp] at h
      | some pr =>
        have hc128 : c < 128 := by
          have := (byte_probability_some hp).1
          unfold charToInt at this
          by_contra hcc
          rw [if_neg hcc] at this
          omega
        rw [charToInt_low c hc128, loaded_byte_probability B hB c hc] at hp
        cases hp
        rw [charToInt_low c hc128, loaded_byte_probability B hB c hc, Option.some_bind] at h
        obtain ⟨walked, e1, e2, e3, e4⟩ := ih _ _ it acc' cnt'
          (fun x hx => hl x (List.mem_cons_of_mem _ hx)) h
        refine ⟨c :: walked, by rw [e1]; rfl, by rw [e2, List.length_cons]; omega, ?_, ?_⟩
        · intro k hk
          cases k with
          | zero => exact hlt
          | succ k =>
            simp only [List.take_succ_cons, List.foldl_cons]
            exact e3 k (by simp only [List.length_cons] at hk; omega)
        · intro hne
          simp only [List.foldl_cons]
          exact e4 hne
    · rw [if_neg hlt] at h
      simp only [Option.some.injEq, Prod.mk.injEq] at h
      obtain ⟨h1, h2, h3⟩ := h
      refine ⟨[], by rw [← h1]; rfl, by rw [← h3]; rfl, ?_, ?_⟩
      · intro k hk; simp at hk
      · intro _
        simp only [List.foldl_nil]
        cases hv : A.lt acc tf with
        | true => exact absurd hv hlt
        | false => rfl

/-- The short width of a key written by `GenerateKey` with a positive target fraction,
from the running sum of the walk. -/
theorem walk_width_aux (A : Arith) (tf : A.F) (B : List Nat) (hB : ∀ x ∈ B, x < 256)
    (htf : A.lt A.zero tf = true) (ks key : ByteStream)
    (h : GenerateKey A tf (loaded B) ks = some key) :
    ∃ (p : Plan) (K0 : Nat), planKey A tf (loaded B) = some p ∧
      1 ≤ K0 ∧ K0 ≤ p.ordering.length ∧
      (∀ k, k < K0 → A.lt (accumulated A B p.ordering k) tf = true) ∧
      (K0 < p.ordering.length → A.lt (accumulated A B p.ordering K0) tf = false) ∧
      p.bits_per_target_character = ((max 2 (Nat.clog 2 (K0 + 1)) : Nat) : Int) ∧
      key.data.getD 2 0 = max 2 (Nat.clog 2 (K0 + 1)) := by
  obtain ⟨p, M, K, b, l, hp, hs, hl, hMd, hb2, hk, hhead⟩ :=
    build_header A tf B hB htf ks key h
  obtain ⟨p', M', K', b', l', hp', -, hs', -, -, -, -, -, hnd, hmem, -⟩ :=
    build_facts A tf B hB ks key h
  rw [hp] at hp'
  cases hp'
  have hlt256 : ∀ c ∈ p.ordering, c < 256 := fun c hc => hB c ((hmem c).1 hc)
  have hne : p.ordering ≠ [] := by
    intro h0'
    have := hs.len
    rw [h0'] at this
    have := hs.M_pos
    simp at *
    omega
  obtain ⟨it1, f1, count1, hw, hbits⟩ := planKey_walk A tf (loaded B) p hp
  obtain ⟨walked, e1, e2, e3, e4⟩ := walkTarget_general A B hB tf p.ordering A.zero 0 it1 f1
    count1 hlt256 hw
  simp only [Nat.zero_add] at e2
  have hacc : ∀ k, k ≤ walked.length → accumulated A B p.ordering k
      = (walked.take k).foldl (fun a c => A.add a (A.quot (B.count c) B.length)) A.zero := by
    intro k hk
    unfold accumulated
    rw [e1, List.take_append_of_le_length hk]
  have hK1 : 1 ≤ count1 := by
    by_contra hc
    have hw0 : walked = [] := List.length_eq_zero.1 (by omega)
    rw [hw0, List.nil_append] at e1
    have := e4 (by rw [← e1]; exact hne)
    rw [hw0, List.foldl_nil, htf] at this
    cases this
  have hb : p.bits_per_target_character = ((max 2 (Nat.clog 2 (count1 + 1)) : Nat) : Int) := by
    rw [hbits, targetBits_max count1 hK1]
  refine ⟨p, count1, hp, hK1, ?_, ?_, ?_, hb, ?_⟩
  · rw [e1, List.length_append, e2]; omega
  · intro k hk
    rw [hacc k (by omega)]
    exact e3 k (by omega)
  · intro hlt
    rw [hacc count1 (by omega), e2, List.take_length]
    apply e4
    intro h0
    rw [h0, List.append_nil] at e1
    rw [e1, e2] at hlt
    omega
  · rw [take_four_third key.data _ _ _ _ hhead]
    have := hs.bits.symm.trans hb
    exact_mod_cast this

/-- Build on `[0x41, 0x41, 0x42, 0x43]` with target `0.5` in double arithmetic,
evaluated. -/
theorem scenario_plan_double :
    planKey doubleArith half (loaded scenario) = some ⟨[0x41, 0x42, 0x43], 3, 3, 2, 0⟩ := by
  decide!

/-- The running sum of the walk on `cutoffSample` in double arithmetic stays below `0.5`
for three steps (the exact sum of the first three probabilities is 1/2) and reaches it
with the fourth. -/
theorem cutoff_running_sum :
    @Eq Dbl (accumulated doubleArith cutoffSample
      [0x41, 0x42, 0x43, 0x44, 0x45, 0x46, 0x47, 0x48, 0x49] 3)
      (Dbl.finite 9007199254740991 54) ∧
    (∀ k, k < 4 → doubleArith.lt (accumulated doubleArith cutoffSample
      [0x41, 0x42, 0x43, 0x44, 0x45, 0x46, 0x47, 0x48, 0x49] k) half = true) ∧
    doubleArith.lt (accumulated doubleArith cutoffSample
      [0x41, 0x42, 0x43, 0x44, 0x45, 0x46, 0x47, 0x48, 0x49] 4) half = false := by
  refine ⟨by decide!, by decide!, by decide!⟩

/-- The exact probabilities of the first three bytes of the ordering of `cutoffSample`
add up to 1/2, and those of fewer bytes to less. -/
theorem cutoff_exact_sum :
    cumulative cutoffSample [0x41, 0x42, 0x43, 0x44, 0x45, 0x46, 0x47, 0x48, 0x49] 3 = 1 / 2 ∧
    ∀ k, k < 3 → cumulative cutoffSample
      [0x41, 0x42, 0x43, 0x44, 0x45, 0x46, 0x47, 0x48, 0x49] k < 1 / 2 := by
  have hc1 : List.count 0x41 cutoffSample = 4 := by decide
  have hc2 : List.count 0x42 cutoffSample = 1 := by decide
  have hc3 : List.count 0x43 cutoffSample = 1 := by decide
  have hlen : cutoffSample.length = 12 := by decide
  refine ⟨?_, ?_⟩
  · unfold cumulative
    simp only [List.take_succ_cons, List.take_zero, List.map_cons, List.map_nil, List.sum_cons,
      List.sum_nil, add_zero, hc1, hc2, hc3, hlen]
    norm_num
  · intro k hk
    unfold cumulative
    interval_cases k
    · simp only [List.take_zero, List.map_nil, List.sum_nil]
      norm_num
    · simp only [List.take_succ_cons, List.take_zero, List.map_cons, List.map_nil,
        List.sum_cons, List.sum_nil, add_zero, hc1, hlen]
      norm_num
    · simp only [List.take_succ_cons, List.take_zero, List.map_cons, List.map_nil,
        List.sum_cons, List.sum_nil, add_zero, hc1, hc2, hlen]
      norm_num

/-- C21 as stated fails: on `cutoffSample` with target `0.5` the smallest `k` whose exact
cumulative probability reaches the target is 3 (the sum is exactly 1/2), for which the
formula gives `max(2, ceil(log2(4))) = 2`; in double arithmetic the running sum after
three bytes is `0.49999999999999994`, the walk takes a fourth byte, and the key written
has `bitsShort = 3`. -/
theorem short_width_rounding_moves_cutoff :
    GenerateKey doubleArith half (loaded cutoffSample) ByteStream.new = some cutoffKey ∧
    cutoffKey.data.getD 2 0 = 3 ∧
    (∃ p, planKey doubleArith half (loaded cutoffSample) = some p ∧
      cumulative cutoffSample p.ordering 3 = 1 / 2 ∧
      (∀ k, k < 3 → cumulative cutoffSample p.ordering k < 1 / 2) ∧
      @Eq Dbl (accumulated doubleArith cutoffSample p.ordering 3)
        (Dbl.finite 9007199254740991 54) ∧
      doubleArith.lt (accumulated doubleArith cutoffSample p.ordering 3) half = true) ∧
    max 2 (Nat.clog 2 (3 + 1)) = 2 := by
  refine ⟨cutoff_key_double, by decide, ⟨_, cutoff_plan_double, cutoff_exact_sum.1,
    cutoff_exact_sum.2, cutoff_running_sum.1, cutoff_running_sum.2.1 3 (by decide)⟩, ?_⟩
  rw [← ceilLog2_eq_clog]
  decide

/-- C21 (amended). Short width from the walk: on every non-empty buffer `B` of bytes
below `0x80` `GenerateKey` completes, and whenever it completes with a positive target
fraction, the provisional short-tier count `K0` is the smallest `k >= 1` for which the
running sum of the walk (the quotients `count / size` of the first `k` bytes of the
ordering, added one after the other from `0.0` in the arithmetic of the code) is not
below the target fraction, or the number of distinct bytes when the running sum stays
below it to the end; the `bitsShort` of the plan and of the third key byte is
`max(2, ceil(log2(K0 + 1)))`. -/
theorem short_width_from_running_sum (A : Arith) (tf : A.F) (B : List Nat)
    (hB : ∀ x ∈ B, x < 256) (htf : A.lt A.zero tf = true) (ks : ByteStream) :
    (B ≠ [] → (∀ x ∈ B, x < 128) → ∃ key, GenerateKey A tf (loaded B) ks = some key) ∧
    ∀ key, GenerateKey A tf (loaded B) ks = some key →
      ∃ (p : Plan) (K0 : Nat), planKey A tf (loaded B) = some p ∧
        1 ≤ K0 ∧ K0 ≤ p.ordering.length ∧
        (∀ k, k < K0 → A.lt (accumulated A B p.ordering k) tf = true) ∧
        (K0 < p.ordering.length → A.lt (accumulated A B p.ordering K0) tf = false) ∧
        p.bits_per_target_character = ((max 2 (Nat.clog 2 (K0 + 1)) : Nat) : Int) ∧
        key.data.getD 2 0 = max 2 (Nat.clog 2 (K0 + 1)) :=
  ⟨fun hne h7 => GenerateKey_total A tf B hne h7 ks,
   fun key h => walk_width_aux A tf B hB htf ks key h⟩

/-- C21, concrete instances in double arithmetic with target `0.5`: `cutoffSample` gives
`K0 = 4` and `bitsShort = 3`; `[0x41, 0x41, 0x42, 0x43]` gives `K0 = 1` and
`bitsShort = 2`. -/
theorem short_width_from_running_sum_witness :
    (GenerateKey doubleArith half (loaded cutoffSample) ByteStream.new = some cutoffKey ∧
     ∃ (p : Plan) (K0 : Nat), planKey doubleArith half (loaded cutoffSample) = some p ∧
      1 ≤ K0 ∧ K0 ≤ p.ordering.length ∧
      (∀ k, k < K0 →
        doubleArith.lt (accumulated doubleArith cutoffSample p.ordering k) half = true) ∧
      (K0 < p.ordering.length →
        doubleArith.lt (accumulated doubleArith cutoffSample p.ordering K0) half = false) ∧
      p.bits_per_target_character = ((max 2 (Nat.clog 2 (K0 + 1)) : Nat) : Int) ∧
      cutoffKey.data.getD 2 0 = max 2 (Nat.clog 2 (K0 + 1)) ∧
      K0 = 4 ∧ cutoffKey.data.getD 2 0 = 3) ∧
    (GenerateKey doubleArith half (loaded scenario) ByteStream.new = some scenarioKey ∧
     ∃ (p : Plan) (K0 : Nat), planKey doubleArith half (loaded scenario) = some p ∧
      1 ≤ K0 ∧ K0 ≤ p.ordering.length ∧
      (∀ k, k < K0 →
        doubleArith.lt (accumulated doubleArith scenario p.ordering k) half = true) ∧
      (K0 < p.ordering.length →
        doubleArith.lt (accumulated doubleArith scenario p.ordering K0) half = false) ∧
      p.bits_per_target_character = ((max 2 (Nat.clog 2 (K0 + 1)) : Nat) : Int) ∧
      scenarioKey.data.getD 2 0 = max 2 (Nat.clog 2 (K0 + 1)) ∧
      K0 = 1 ∧ scenarioKey.data.getD 2 0 = 2) := by
  obtain ⟨p, K0, hp, h1, h2, h3, h4, h5, h6⟩ :=
    (short_width_from_running_sum doubleArith half cutoffSample (by decide) (by decide)
      ByteStream.new).2 cutoffKey cutoff_key_double
  obtain ⟨q, J0, gp, g1, g2, g3, g4, g5, g6⟩ :=
    (short_width_from_running_sum doubleArith half scenario (by decide) (by decide)
      ByteStream.new).2 scenarioKey scenario_key_double
  refine ⟨⟨cutoff_key_double, p, K0, hp, h1, h2, h3, h4, h5, h6, ?_, by decide⟩,
    ⟨scenario_key_double, q, J0, gp, g1, g2, g3, g4, g5, g6, ?_, by decide⟩⟩
  · have hpe := Option.some.inj (hp.symm.trans cutoff_plan_double)
    subst hpe
    obtain ⟨-, c2, c3⟩ := cutoff_running_sum
    have hle : K0 ≤ 4 := by
      by_contra hc
      have := h3 4 (by omega)
      rw [c3] at this
      cases this
    have hge : 4 ≤ K0 := by
      by_contra hc
      have hlt := h4 (by
        show K0 < 9
        omega)
      rw [c2 K0 (by omega)] at hlt
      cases hlt
    omega
  · have hqe := Option.some.inj (gp.symm.trans scenario_plan_double)
    subst hqe
    have c1 : doubleArith.lt (accumulated doubleArith scenario [0x41, 0x42, 0x43] 1) half
        = false := by decide!
    by_contra hc
    have := g3 1 (by omega)
    rw [c1] at this
    cases this
